import Mathlib

/-!
# compsort: a verification development

Shallow embedding of `compsort.cpp` (a benchmarking harness over ten comparison
sorts) and proofs about it.

Conventions of the embedding.

* An iterator range `[first, last)` over a `std::vector` is modelled by the list of the
  elements it holds; positions are natural numbers counted from the start of the range.
* The element type is any type with the `operator<` the templates use
  (`[LT α] [DecidableRel (· < ·)]`).
* Every element access is checked: a read or swap outside the range yields `none`.
  Loops run on fuel; running out of fuel also yields `none`.  A result `some r`
  therefore means: the routine returned, and every access it made was inside the range.
* The routines of `<algorithm>` the program calls (`std::partition`, `std::rotate`,
  `std::upper_bound`, `std::inplace_merge`, `std::min_element`, `std::make_heap`,
  `std::sort_heap`, `std::next_permutation`, `std::min`, `std::max`) are not part of the
  repository; each is modelled after the reference implementation given with its
  specification in the C++ standard library documentation.
-/

namespace Compsort

variable {α : Type}

/-! ## Helpers of the standard library -/

/-- The loop of the reference implementation of `std::partition` for forward iterators.
`good` holds the range `[begin, first)` (elements satisfying `p`), `bad` the range
`[first, i)` (elements failing `p`), the third argument the unvisited range `[i, last)`.
When `p(*i)` holds, `iter_swap(i, first)` exchanges `*i` with the first element of `bad`,
which thereby moves to the end of `bad`. -/
def partitionLoop (p : α → Bool) : List α → List α → List α → List α × List α
  | good, bad, [] => (good, bad)
  | good, bad, x :: rest =>
    if p x then
      match bad with
      | [] => partitionLoop p (good ++ [x]) [] rest
      | b :: bs => partitionLoop p (good ++ [x]) (bs ++ [b]) rest
    else partitionLoop p good (bad ++ [x]) rest

/-- Model of `std::partition(first, last, p)`: the contents of `[first, split)` and of
`[split, last)` after the call, where `split` is the returned iterator. -/
def std_partition (p : α → Bool) (l : List α) : List α × List α :=
  partitionLoop p [] [] l

section StdHelpers

variable [LT α] [DecidableRel ((· < ·) : α → α → Prop)]

/-- Model of `std::less<T>()`: the comparison object calling `operator<`. -/
def less (a b : α) : Bool := decide (a < b)

/-- Model of `std::min(a, b)`: `(b < a) ? b : a`. -/
def stdMin (a b : α) : α := if b < a then b else a

/-- Model of `std::max(a, b)`: `(a < b) ? b : a`. -/
def stdMax (a b : α) : α := if a < b then b else a

/-- Model of `std::bind2nd(f, y)`: the unary predicate `x ↦ f(x, y)`. -/
def bind2nd (f : α → α → Bool) (y : α) : α → Bool := fun x => f x y

/-- The comparator adapter `non_strict_op<Order>::operator()` (lines 259-274):
`non_strict(order)(arg1, arg2) = !order(arg2, arg1)`. -/
def non_strict (order : α → α → Bool) : α → α → Bool :=
  fun arg1 arg2 => !order arg2 arg1

end StdHelpers

/-! ## quick_sort (lines 372-391) -/

section QuickSort

variable [LT α] [DecidableRel ((· < ·) : α → α → Prop)]

/-- The median-of-three pivot of `quick_sort` (lines 381-382). -/
def pivotOf (a b c : α) : α := stdMax (stdMin a b) (stdMin (stdMax a b) c)

/-- Body of `quick_sort` on the contents of `[first, last)`, with recursion fuel. -/
def quick_sort_go : Nat → List α → Option (List α)
  | 0, _ => none
  | fuel + 1, l =>
    -- `if (first != last && first+1 != last)`
    if l.length ≠ 0 ∧ l.length ≠ 1 then
      -- `It mid = first + (last - first)/2;`
      let mid := l.length / 2
      match l[0]?, l[mid]?, l[l.length - 1]? with
      | some a, some b, some c =>
        let pivot := pivotOf a b c
        -- `split1 = std::partition(first, last, bind2nd(less, pivot))`
        let s1 := std_partition (bind2nd less pivot) l
        -- `split2 = std::partition(split1, last, bind2nd(non_strict(less), pivot))`
        let s2 := std_partition (bind2nd (non_strict less) pivot) s1.2
        match quick_sort_go fuel s1.1, quick_sort_go fuel s2.2 with
        | some lo, some hi => some (lo ++ s2.1 ++ hi)
        | _, _ => none
      | _, _, _ => none
    else some l

/-- The routine `quick_sort(first, last)` applied to a whole sequence.  The recursion
depth never exceeds the length, so `length + 1` is enough fuel (proved below). -/
def quick_sort (l : List α) : Option (List α) := quick_sort_go (l.length + 1) l

end QuickSort

/-! ## The hand-written loops: bubble_sort, cocktail_sort, gnome_sort -/

/-- Model of `std::iter_swap(i, j)`: both positions are read and written, so both must
lie inside the sequence. -/
def iter_swap (a : List α) (i j : Nat) : Option (List α) :=
  match a[i]?, a[j]? with
  | some x, some y => some ((a.set i y).set j x)
  | _, _ => none

section Loops

variable [LT α] [DecidableRel ((· < ·) : α → α → Prop)]

/-- The forward pass shared by `bubble_sort` (lines 292-297) and `cocktail_sort`
(lines 306-311): `for(auto i = first; i != last; ++i) if(*(i + 1) < *i) { swap; swapped = true; }`.
The state is the sequence `a`, the running index `i` and the flag `swapped`. -/
def forward_pass : Nat → List α → Nat → Nat → Bool → Option (List α × Bool)
  | 0, _, _, _, _ => none
  | fuel + 1, a, i, last, swapped =>
    if i ≠ last then
      match a[i + 1]?, a[i]? with
      | some y, some x =>
        if y < x then
          match iter_swap a i (i + 1) with
          | some a' => forward_pass fuel a' (i + 1) last true
          | none => none
        else forward_pass fuel a (i + 1) last swapped
      | _, _ => none
    else some (a, swapped)

/-- The backward pass of `cocktail_sort` (lines 314-319):
`for(auto i = last - 1; i != first; --i) if(*i < *(i - 1)) { swap; swapped = true; }`.
An index that would be decremented below zero has left the sequence: `none`. -/
def backward_pass : Nat → List α → Nat → Nat → Bool → Option (List α × Bool)
  | 0, _, _, _, _ => none
  | fuel + 1, a, first, i, swapped =>
    if i ≠ first then
      if i = 0 then none else
      match a[i]?, a[i - 1]? with
      | some x, some w =>
        if x < w then
          match iter_swap a i (i - 1) with
          | some a' => backward_pass fuel a' first (i - 1) true
          | none => none
        else backward_pass fuel a first (i - 1) swapped
      | _, _ => none
    else some (a, swapped)

/-- The `while(first != last-- && swapped)` loop of `bubble_sort` (lines 290-298).
`last` is compared before it is decremented; when the comparison fails the loop is left
and the decremented value is never used, so the decrement is only modelled on the path
that enters the body. -/
def bubble_loop : Nat → List α → Nat → Nat → Bool → Option (List α)
  | 0, _, _, _, _ => none
  | fuel + 1, a, first, last, swapped =>
    if first ≠ last ∧ swapped = true then
      let last := last - 1
      match forward_pass (a.length + 1) a first last false with
      | some (a', swapped') => bubble_loop fuel a' first last swapped'
      | none => none
    else some a

/-- The routine `bubble_sort(first, last)` on a whole sequence (lines 287-299). -/
def bubble_sort (a : List α) : Option (List α) :=
  bubble_loop (a.length + 1) a 0 a.length true

/-- The `while(first != last-- && swapped)` loop of `cocktail_sort` (lines 304-321). -/
def cocktail_loop : Nat → List α → Nat → Nat → Bool → Option (List α)
  | 0, _, _, _, _ => none
  | fuel + 1, a, first, last, swapped =>
    if first ≠ last ∧ swapped = true then
      let last := last - 1
      match forward_pass (a.length + 1) a first last false with
      | some (a', swapped') =>
        -- `if(!swapped) break;`
        if swapped' = false then some a' else
        -- `for(auto i = last - 1; ...)`: the start index must not fall below zero
        if last = 0 then none else
        match backward_pass (a.length + 1) a' first (last - 1) false with
        | some (a'', swapped'') => cocktail_loop fuel a'' (first + 1) last swapped''
        | none => none
      | none => none
    else some a

/-- The routine `cocktail_sort(first, last)` on a whole sequence (lines 301-322). -/
def cocktail_sort (a : List α) : Option (List α) :=
  cocktail_loop (a.length + 1) a 0 a.length true

/-- The `while(i < last)` loop of `gnome_sort` (lines 328-340). -/
def gnome_loop : Nat → List α → Nat → Nat → Nat → Nat → Option (List α)
  | 0, _, _, _, _, _ => none
  | fuel + 1, a, first, i, j, last =>
    if i < last then
      if i = 0 then none else
      match a[i]?, a[i - 1]? with
      | some x, some w =>
        if ¬ (x < w) then
          -- `i = j; ++j;`
          gnome_loop fuel a first j (j + 1) last
        else
          match iter_swap a (i - 1) i with
          | some a' =>
            -- `--i; if(i == first) { i = j; ++j; }`
            if i - 1 = first then gnome_loop fuel a' first j (j + 1) last
            else gnome_loop fuel a' first (i - 1) j last
          | none => none
      | _, _ => none
    else some a

/-- The routine `gnome_sort(first, last)` on a whole sequence (lines 324-341):
`i = first + 1`, `j = first + 2`.  The loop body runs fewer than `length * length + 1`
times (proved below). -/
def gnome_sort (a : List α) : Option (List α) :=
  gnome_loop (a.length * a.length + 1) a 0 1 2 a.length

end Loops

/-! ## insertion_sort (lines 349-355) and merge_sort (lines 357-365) -/

section InsertionMerge

variable [LT α] [DecidableRel ((· < ·) : α → α → Prop)]

/-- The loop of the reference implementation of `std::upper_bound(first, last, value, comp)`
with `comp = std::less`: a binary search keeping the candidate range `[first, first + count)`.
```
while (count > 0) { it = first; step = count / 2; std::advance(it, step);
  if (!comp(value, *it)) { first = ++it; count -= step + 1; } else count = step; }
return first;
``` -/
def upper_bound_loop : Nat → List α → Nat → Nat → α → Option Nat
  | 0, _, _, _, _ => none
  | fuel + 1, a, first, count, value =>
    if 0 < count then
      let step := count / 2
      let it := first + step
      match a[it]? with
      | some v =>
        if ¬ (less value v = true) then upper_bound_loop fuel a (it + 1) (count - (step + 1)) value
        else upper_bound_loop fuel a first step value
      | none => none
    else some first

/-- Model of `std::upper_bound(first, last, value, std::less<>())`; `count` starts as
`std::distance(first, last)` and shrinks in every round. -/
def upper_bound (a : List α) (first last : Nat) (value : α) : Option Nat :=
  upper_bound_loop (last - first + 1) a first (last - first) value

/-- Model of `std::rotate(first, middle, last)`: a left rotation of `[first, last)` that
brings the element at `middle` to `first`; the three iterators must delimit valid ranges. -/
def rotate (a : List α) (first middle last : Nat) : Option (List α) :=
  if first ≤ middle ∧ middle ≤ last ∧ last ≤ a.length then
    some (a.take first ++ ((a.drop middle).take (last - middle)
      ++ (a.drop first).take (middle - first)) ++ a.drop last)
  else none

/-- The `for(auto i = first; i != last; ++i)` loop of `insertion_sort` (lines 351-354). -/
def insertion_loop : Nat → List α → Nat → Nat → Nat → Option (List α)
  | 0, _, _, _, _ => none
  | fuel + 1, a, first, i, last =>
    if i ≠ last then
      match a[i]? with
      | some v =>
        match upper_bound a first i v with
        | some p =>
          match rotate a p i (i + 1) with
          | some a' => insertion_loop fuel a' first (i + 1) last
          | none => none
        | none => none
      | none => none
    else some a

/-- The routine `insertion_sort(first, last)` on a whole sequence. -/
def insertion_sort (a : List α) : Option (List α) :=
  insertion_loop (a.length + 1) a 0 0 a.length

/-- Inner loop of the merge while the head `x` of the first range is fixed: elements of
the second range are emitted as long as they are smaller than `x` (`if (*first2 < *first1)`);
then `x` is emitted and `k` continues with the rest of the first range. -/
def merge_head (x : α) (xxs : List α) (k : List α → List α) : List α → List α
  | [] => xxs
  | y :: ys => if y < x then y :: merge_head x xxs k ys else x :: k (y :: ys)

/-- Model of `std::inplace_merge(first, middle, last)` on the contents of the two
consecutive ranges: the stable merge that takes from the second range only when its head
is smaller than the head of the first, as the reference `std::merge` does.  It satisfies
`inplace_merge (x :: xs) (y :: ys) = if y < x then y :: inplace_merge (x :: xs) ys
else x :: inplace_merge xs (y :: ys)` (`inplace_merge_cons_cons` below). -/
def inplace_merge : List α → List α → List α
  | [] => fun ys => ys
  | x :: xs => merge_head x (x :: xs) (inplace_merge xs)

/-- Body of `merge_sort` on the contents of `[first, last)`, with recursion fuel. -/
def merge_sort_go : Nat → List α → Option (List α)
  | 0, _ => none
  | fuel + 1, l =>
    -- `if(last - first > 1)`
    if 1 < l.length then
      -- `It middle = first + (last - first) / 2;`
      let middle := l.length / 2
      match merge_sort_go fuel (l.take middle), merge_sort_go fuel (l.drop middle) with
      | some lo, some hi => some (inplace_merge lo hi)
      | _, _ => none
    else some l

/-- The routine `merge_sort(first, last)` on a whole sequence.  Every recursive call is
on a strictly shorter range, so `length + 1` is enough fuel (proved below). -/
def merge_sort (l : List α) : Option (List α) := merge_sort_go (l.length + 1) l

end InsertionMerge

/-! ## selection_sort (lines 393-398) -/

section Selection

variable [LT α] [DecidableRel ((· < ·) : α → α → Prop)]

/-- The loop of the reference implementation of `std::min_element`:
`for (; first != last; ++first) if (*first < *smallest) smallest = first;`. -/
def min_element_loop : Nat → List α → Nat → Nat → Nat → Option Nat
  | 0, _, _, _, _ => none
  | fuel + 1, a, smallest, first, last =>
    if first ≠ last then
      match a[first]?, a[smallest]? with
      | some x, some s =>
        if x < s then min_element_loop fuel a first (first + 1) last
        else min_element_loop fuel a smallest (first + 1) last
      | _, _ => none
    else some smallest

/-- Model of `std::min_element(first, last)`: the position of the first smallest element,
`last` for an empty range. -/
def min_element (a : List α) (first last : Nat) : Option Nat :=
  if first = last then some last
  else min_element_loop (last - first + 1) a first (first + 1) last

/-- The `for(auto i = first; i != last; ++i)` loop of `selection_sort`. -/
def selection_loop : Nat → List α → Nat → Nat → Option (List α)
  | 0, _, _, _ => none
  | fuel + 1, a, i, last =>
    if i ≠ last then
      match min_element a i last with
      | some m =>
        match iter_swap a i m with
        | some a' => selection_loop fuel a' (i + 1) last
        | none => none
      | none => none
    else some a

/-- The routine `selection_sort(first, last)` on a whole sequence. -/
def selection_sort (a : List α) : Option (List α) :=
  selection_loop (a.length + 1) a 0 a.length

end Selection

/-! ## heap_sort (lines 343-347) -/

section Heap

variable [LT α] [DecidableRel ((· < ·) : α → α → Prop)]

/-- Position of the larger of the children `child` and `child + 1` inside the heap
`[0, n)` (the left one when there is no right one or on a tie). -/
def pick_child (a : List α) (child n : Nat) : Option Nat :=
  if child + 1 < n then
    match a[child]?, a[child + 1]? with
    | some x, some y => if x < y then some (child + 1) else some child
    | _, _ => none
  else some child

/-- The sift-down step of the binary max-heap on `[0, n)`: while the element at `root` is
smaller than its larger child, exchange the two and continue at that child. -/
def sift_down : Nat → List α → Nat → Nat → Option (List α)
  | 0, _, _, _ => none
  | fuel + 1, a, root, n =>
    let child := 2 * root + 1
    if child < n then
      match pick_child a child n with
      | some c =>
        match a[root]?, a[c]? with
        | some r, some cv =>
          if r < cv then
            match iter_swap a root c with
            | some a' => sift_down fuel a' c n
            | none => none
          else some a
        | _, _ => none
      | none => none
    else some a

/-- The loop of `std::make_heap`: sift down from the last parent to the root,
`for (start = n / 2; start > 0; ) sift_down(--start)`. -/
def make_heap_loop : Nat → List α → Nat → Option (List α)
  | 0, a, _ => some a
  | start + 1, a, n =>
    match sift_down (n + 1) a start n with
    | some a' => make_heap_loop start a' n
    | none => none

/-- Model of `std::make_heap(first, last)`: builds a binary max-heap over the sequence. -/
def make_heap (a : List α) : Option (List α) :=
  make_heap_loop (a.length / 2) a a.length

/-- Model of `std::pop_heap(first, last)` on the heap `[0, n)`: exchanges the maximum at
the root with the last element and restores the heap on `[0, n - 1)`. -/
def pop_heap (a : List α) (n : Nat) : Option (List α) :=
  if 1 < n then
    match iter_swap a 0 (n - 1) with
    | some a' => sift_down (n + 1) a' 0 (n - 1)
    | none => none
  else some a

/-- Model of `std::sort_heap(first, last)`: `while (first != last) pop_heap(first, last--)`;
the first argument is the current length `last - first` of the heap. -/
def sort_heap_loop : Nat → List α → Option (List α)
  | 0, a => some a
  | n + 1, a =>
    match pop_heap a (n + 1) with
    | some a' => sort_heap_loop n a'
    | none => none

/-- Model of `std::sort_heap(first, last)` on a whole sequence. -/
def sort_heap (a : List α) : Option (List α) := sort_heap_loop a.length a

/-- The routine `heap_sort(first, last)`: `std::make_heap` followed by `std::sort_heap`. -/
def heap_sort (a : List α) : Option (List α) :=
  match make_heap a with
  | some h => sort_heap h
  | none => none

end Heap

/-! ## permutation_sort (lines 367-370) -/

section PermutationSort

variable [LT α] [DecidableRel ((· < ·) : α → α → Prop)]

/-- Model of `std::is_sorted_until(first, last)`: the position of the first element that
is smaller than its predecessor, the length of the range if there is none. -/
def is_sorted_until : List α → Nat
  | [] => 0
  | [_] => 1
  | x :: y :: t => if y < x then 1 else is_sorted_until (y :: t) + 1

/-- Model of `std::next_permutation(first, last)` after its reference implementation,
which works on the reversed range `rl` (`std::make_reverse_iterator`):
```
auto left = std::is_sorted_until(r_first, r_last);
if (left != r_last) {
    auto right = std::upper_bound(r_first, left, *left);
    std::iter_swap(left, right);
}
std::reverse(left.base(), last);
return left != r_last;
```
The forward range `[left.base(), last)` holds the first `left` elements of the reversed
range, so after `std::reverse` it reads as `rl.take left`; the elements in front of it are
the remaining ones of the reversed range, read backwards. -/
def next_permutation (l : List α) : Option (List α × Bool) :=
  let rl := l.reverse
  let left := is_sorted_until rl
  if left ≠ rl.length then
    match rl[left]? with
    | some v =>
      match upper_bound rl 0 left v with
      | some right =>
        match iter_swap rl left right with
        | some rl' => some ((rl'.drop left).reverse ++ rl'.take left, true)
        | none => none
      | none => none
    | none => none
  else some ((rl.drop left).reverse ++ rl.take left, false)

/-- The loop `while(std::next_permutation(first, last)) {}` of `permutation_sort`. -/
def permutation_loop : Nat → List α → Option (List α)
  | 0, _ => none
  | fuel + 1, l =>
    match next_permutation l with
    | some (l', true) => permutation_loop fuel l'
    | some (l', false) => some l'
    | none => none

/-- The routine `permutation_sort(first, last)` on a whole sequence.  The loop body runs
at most `length !` times (proved below), so `length ! + 1` is enough fuel. -/
def permutation_sort (l : List α) : Option (List α) :=
  permutation_loop (l.length.factorial + 1) l

end PermutationSort

/-! ## The configuration, the dispatch table and the run loop of `main` -/

/-- An algorithm descriptor, the tuple `TUP` of `program_args` (line 30): short name,
display label, accumulated time sum and enable flag.  The `double` sum is modelled by an
exact rational number. -/
structure Descriptor where
  name : String
  label : String
  sum : Rat
  use : Bool
deriving DecidableEq, Repr

/-- The helper `mt` of `program_args` (lines 59-62): `std::make_tuple(str1, str2, sum, use)`. -/
def mt (str1 str2 : String) (sum : Rat) (use : Bool) : Descriptor :=
  ⟨str1, str2, sum, use⟩

/-- The ten descriptors in the order of the vector `algs` (lines 32-54), as constructed:
every call of `mt` leaves the defaults `sum = 0.0` and `use = false`. -/
def declared_algs : List Descriptor :=
  [ mt "bogosort" "Bogosort: " 0 false,
    mt "bubble-sort" "Bubble Sort: " 0 false,
    mt "cocktail-sort" "Cocktail Sort: " 0 false,
    mt "gnome-sort" "Gnome Sort: " 0 false,
    mt "heap-sort" "Heap Sort: " 0 false,
    mt "insertion-sort" "Insertion Sort: " 0 false,
    mt "merge-sort" "Merge Sort: " 0 false,
    mt "permutation-sort" "Permutation Sort: " 0 false,
    mt "quick-sort" "Quick Sort: " 0 false,
    mt "selection-sort" "Selection Sort: " 0 false ]

/-- The fields of `program_args<VT>` (lines 14-54) that the run uses.  `long long` values
are integers; the trial counter only grows up to `avg`, so it cannot overflow. -/
structure program_args (VT : Type) where
  help : Bool
  quiet : Bool
  time : Bool
  prec : Int
  avg : Int
  avg_count : Int
  delim : String
  list : List VT
  fill_rand : Int
  fill_forward : Int
  fill_backward : Int
  alg_all : Bool
  alg_except : List String
  algs : List Descriptor

/-- The names and labels of the descriptors are constants of the program: a configuration
holds the ten declared descriptors, in the declared order, with any sums and flags. -/
def program_args.WellFormed {VT : Type} (args : program_args VT) : Prop :=
  args.algs.map (fun d => (d.name, d.label)) = declared_algs.map (fun d => (d.name, d.label))

/-- The ten routines of the algorithm library, by the name of their function. -/
inductive Routine where
  | bogosort
  | bubble_sort
  | cocktail_sort
  | gnome_sort
  | heap_sort
  | insertion_sort
  | merge_sort
  | permutation_sort
  | quick_sort
  | selection_sort
deriving DecidableEq, Repr

/-- The identifier of the function a routine names. -/
def Routine.ident : Routine → String
  | .bogosort => "bogosort"
  | .bubble_sort => "bubble_sort"
  | .cocktail_sort => "cocktail_sort"
  | .gnome_sort => "gnome_sort"
  | .heap_sort => "heap_sort"
  | .insertion_sort => "insertion_sort"
  | .merge_sort => "merge_sort"
  | .permutation_sort => "permutation_sort"
  | .quick_sort => "quick_sort"
  | .selection_sort => "selection_sort"

/-- The characters of a routine's short name: its identifier with `_` written as `-`. -/
def Routine.shortName (r : Routine) : List Char :=
  r.ident.toList.map (fun c => if c = '_' then '-' else c)

/-- The dispatch table `lambs` of `main` (lines 487-498), entry by entry. -/
def lambs : List Routine :=
  [ .bogosort, .bubble_sort, .cocktail_sort, .gnome_sort, .heap_sort,
    .insertion_sort, .merge_sort, .permutation_sort, .quick_sort, .selection_sort ]

/-- The helper `contains` (lines 401-404): `std::find(...) != vect.end()`. -/
def contains (vect : List String) (alg : String) : Bool :=
  vect.any (fun s => s == alg)

/-- One invocation `sort(args, lambs[i], std::get<1>(j), std::get<2>(j))` of the harness:
the trial it occurs in (`args.avg_count`), the routine passed, the label passed, and the
position in `algs` of the descriptor whose sum is passed by reference. -/
structure HarnessCall where
  trial : Int
  sorter : Routine
  msg : String
  sumOf : Nat
deriving DecidableEq, Repr

/-- The inner loop of the run loop (lines 501-509) from the descriptor at position `pos`
on: `j` runs over the descriptors, `i` is the counter indexing the dispatch table.  The
result is the sequence of harness invocations made, each of which is taken to return.
The harness changes nothing the loop conditions read (it takes `args` by `const &` and
writes only the sum passed to it), so the invocations are determined by `args`. -/
def trial_calls {VT : Type} (args : program_args VT) :
    List Descriptor → Nat → Nat → Option (List HarnessCall)
  | [], _, _ => some []
  | j :: rest, pos, i =>
    if (args.alg_all || j.use) && !contains args.alg_except j.name then
      match lambs[i]? with
      | some f =>
        match trial_calls args rest (pos + 1) (i + 1) with
        | some cs => some (⟨args.avg_count, f, j.label, pos⟩ :: cs)
        | none => none
      | none => none
    else trial_calls args rest (pos + 1) (i + 1)

/-- The run loop `for(; args.avg_count < args.avg; ++args.avg_count)` (lines 500-510). -/
def run_loop {VT : Type} : Nat → program_args VT → Option (List HarnessCall)
  | 0, _ => none
  | fuel + 1, args =>
    if args.avg_count < args.avg then
      match trial_calls args args.algs 0 0 with
      | some cs =>
        match run_loop fuel { args with avg_count := args.avg_count + 1 } with
        | some rest => some (cs ++ rest)
        | none => none
      | none => none
    else some []

/-- The run loop of `main`, with fuel for its `avg - avg_count` trials. -/
def run {VT : Type} (args : program_args VT) : Option (List HarnessCall) :=
  run_loop ((args.avg - args.avg_count).toNat + 1) args

/-- The selection policy as the specification words it: an algorithm executes iff
(`alg_all` or its enable flag) and its short name is absent from the exclusion set. -/
def selected {VT : Type} (args : program_args VT) (d : Descriptor) : Prop :=
  (args.alg_all = true ∨ d.use = true) ∧ d.name ∉ args.alg_except

instance selected.instDecidable {VT : Type} (args : program_args VT) (d : Descriptor) :
    Decidable (selected args d) :=
  inferInstanceAs (Decidable ((args.alg_all = true ∨ d.use = true) ∧ d.name ∉ args.alg_except))

/-- The harness invocations of trial `t` that the selection policy prescribes: the
selected descriptors in declared order, each with the dispatch-table entry at its own
position, its own label and its own sum. -/
def policy_calls {VT : Type} (args : program_args VT) (t : Int) : List HarnessCall :=
  (((args.algs.zip lambs).enum).filter (fun p => decide (selected args p.2.1))).map
    (fun p => ⟨t, p.2.2, p.2.1.label, p.1⟩)

/-- The trial indices of a run: `avg_count, avg_count + 1, ..., avg - 1`. -/
def trials {VT : Type} (args : program_args VT) : List Int :=
  (List.range (args.avg - args.avg_count).toNat).map (fun k : Nat => args.avg_count + Int.ofNat k)

/-- A configuration with `--alg-all` and the exclusions `quick-sort`, `heap-sort`. -/
def args_all_except : program_args Nat :=
  { help := false, quiet := false, time := false, prec := 0, avg := 1, avg_count := 0,
    delim := " ", list := [3, 1, 2], fill_rand := 10, fill_forward := 0, fill_backward := 0,
    alg_all := true, alg_except := ["quick-sort", "heap-sort"], algs := declared_algs }

section QuickDefs
variable [LT α] [DecidableRel ((· < ·) : α → α → Prop)]

/-- The pivot `quick_sort` computes for a range (lines 378-382): the median-of-three
expression on the first element, the element at `(last - first) / 2` and the last one. -/
def quick_sort_pivot (l : List α) : Option α :=
  match l[0]?, l[l.length / 2]?, l[l.length - 1]? with
  | some a, some b, some c => some (pivotOf a b c)
  | _, _, _ => none

/-- The two partition passes of `quick_sort` (lines 384-387) for a given pivot: the
contents of `[first, split1)`, `[split1, split2)` and `[split2, last)` afterwards. -/
def quick_sort_split (pivot : α) (l : List α) : List α × List α × List α :=
  let s1 := std_partition (bind2nd less pivot) l
  let s2 := std_partition (bind2nd (non_strict less) pivot) s1.2
  (s1.1, s2.1, s2.2)

end QuickDefs

/-! ## bogosort (lines 278-285) -/

section Bogosort

variable [LT α] [DecidableRel ((· < ·) : α → α → Prop)]

/-- Model of `std::is_sorted(first, last, std::less<>())`:
`std::is_sorted_until(first, last) == last`. -/
def is_sorted (l : List α) : Bool := is_sorted_until l == l.length

/-- The routine `bogosort(first, last)`: `while(!std::is_sorted(...)) std::shuffle(...)`.
The pseudorandom generator is a state of some type `G`, and `std::shuffle` is a parameter
`shuffle` that rearranges the sequence and advances the generator.  The loop has no bound
on its number of rounds, so the fuel is an argument. -/
def bogosort {G : Type} (shuffle : G → List α → List α × G) : Nat → G → List α → Option (List α)
  | 0, _, _ => none
  | fuel + 1, g, l =>
    if !is_sorted l then bogosort shuffle fuel (shuffle g l).2 (shuffle g l).1
    else some l

end Bogosort

/-! ## The hand-written loops with an access log

The same loops as above, each returning in addition the positions of the elements it
reads, compares or swaps, in the order of the accesses; a position is logged whether or
not it lies inside the sequence.  `cocktail_loop_log` also logs the boundaries
`(first, last)` with which each pass starts. -/

section LoopsWithLog

variable [LT α] [DecidableRel ((· < ·) : α → α → Prop)]

/-- The forward pass (see `forward_pass`): the comparison `*(i + 1) < *i` reads the
positions `i + 1` and `i`, the exchange accesses `i` and `i + 1`. -/
def forward_pass_log : Nat → List α → Nat → Nat → Bool → Option (List α × Bool) × List Nat
  | 0, _, _, _, _ => (none, [])
  | fuel + 1, a, i, last, swapped =>
    if i ≠ last then
      match a[i + 1]?, a[i]? with
      | some y, some x =>
        if y < x then
          match iter_swap a i (i + 1) with
          | some a' =>
            ((forward_pass_log fuel a' (i + 1) last true).1,
              [i + 1, i, i, i + 1] ++ (forward_pass_log fuel a' (i + 1) last true).2)
          | none => (none, [i + 1, i, i, i + 1])
        else
          ((forward_pass_log fuel a (i + 1) last swapped).1,
            [i + 1, i] ++ (forward_pass_log fuel a (i + 1) last swapped).2)
      | _, _ => (none, [i + 1, i])
    else (some (a, swapped), [])

/-- The backward pass (see `backward_pass`): the comparison `*i < *(i - 1)` reads the
positions `i` and `i - 1`, the exchange accesses `i` and `i - 1`. -/
def backward_pass_log : Nat → List α → Nat → Nat → Bool → Option (List α × Bool) × List Nat
  | 0, _, _, _, _ => (none, [])
  | fuel + 1, a, first, i, swapped =>
    if i ≠ first then
      if i = 0 then (none, [i]) else
      match a[i]?, a[i - 1]? with
      | some x, some w =>
        if x < w then
          match iter_swap a i (i - 1) with
          | some a' =>
            ((backward_pass_log fuel a' first (i - 1) true).1,
              [i, i - 1, i, i - 1] ++ (backward_pass_log fuel a' first (i - 1) true).2)
          | none => (none, [i, i - 1, i, i - 1])
        else
          ((backward_pass_log fuel a first (i - 1) swapped).1,
            [i, i - 1] ++ (backward_pass_log fuel a first (i - 1) swapped).2)
      | _, _ => (none, [i, i - 1])
    else (some (a, swapped), [])

/-- The loop of `bubble_sort` (see `bubble_loop`) with the access log of its passes. -/
def bubble_loop_log : Nat → List α → Nat → Nat → Bool → Option (List α) × List Nat
  | 0, _, _, _, _ => (none, [])
  | fuel + 1, a, first, last, swapped =>
    if first ≠ last ∧ swapped = true then
      let last := last - 1
      match forward_pass_log (a.length + 1) a first last false with
      | (some (a', swapped'), log) =>
        ((bubble_loop_log fuel a' first last swapped').1,
          log ++ (bubble_loop_log fuel a' first last swapped').2)
      | (none, log) => (none, log)
    else (some a, [])

/-- The routine `bubble_sort` with its access log. -/
def bubble_sort_log (a : List α) : Option (List α) × List Nat :=
  bubble_loop_log (a.length + 1) a 0 a.length true

/-- The loop of `cocktail_sort` (see `cocktail_loop`) with the access log of its passes
and the boundaries `(first, last)` with which each forward and backward pass runs. -/
def cocktail_loop_log :
    Nat → List α → Nat → Nat → Bool → Option (List α) × List Nat × List (Nat × Nat)
  | 0, _, _, _, _ => (none, [], [])
  | fuel + 1, a, first, last, swapped =>
    if first ≠ last ∧ swapped = true then
      let last := last - 1
      match forward_pass_log (a.length + 1) a first last false with
      | (some (a', swapped'), log) =>
        if swapped' = false then (some a', log, [(first, last)]) else
        if last = 0 then (none, log, [(first, last)]) else
        match backward_pass_log (a.length + 1) a' first (last - 1) false with
        | (some (a'', swapped''), log') =>
          ((cocktail_loop_log fuel a'' (first + 1) last swapped'').1,
            log ++ log' ++ (cocktail_loop_log fuel a'' (first + 1) last swapped'').2.1,
            [(first, last), (first, last)]
              ++ (cocktail_loop_log fuel a'' (first + 1) last swapped'').2.2)
        | (none, log') => (none, log ++ log', [(first, last), (first, last)])
      | (none, log) => (none, log, [(first, last)])
    else (some a, [], [])

/-- The routine `cocktail_sort` with its access log and pass boundaries. -/
def cocktail_sort_log (a : List α) : Option (List α) × List Nat × List (Nat × Nat) :=
  cocktail_loop_log (a.length + 1) a 0 a.length true

/-- The loop of `gnome_sort` (see `gnome_loop`) with its access log: the comparison
`*i < *(i - 1)` reads the positions `i` and `i - 1`, the exchange accesses `i - 1`, `i`. -/
def gnome_loop_log : Nat → List α → Nat → Nat → Nat → Nat → Option (List α) × List Nat
  | 0, _, _, _, _, _ => (none, [])
  | fuel + 1, a, first, i, j, last =>
    if i < last then
      if i = 0 then (none, [i]) else
      match a[i]?, a[i - 1]? with
      | some x, some w =>
        if ¬ (x < w) then
          ((gnome_loop_log fuel a first j (j + 1) last).1,
            [i, i - 1] ++ (gnome_loop_log fuel a first j (j + 1) last).2)
        else
          match iter_swap a (i - 1) i with
          | some a' =>
            if i - 1 = first then
              ((gnome_loop_log fuel a' first j (j + 1) last).1,
                [i, i - 1, i - 1, i] ++ (gnome_loop_log fuel a' first j (j + 1) last).2)
            else
              ((gnome_loop_log fuel a' first (i - 1) j last).1,
                [i, i - 1, i - 1, i] ++ (gnome_loop_log fuel a' first (i - 1) j last).2)
          | none => (none, [i, i - 1, i - 1, i])
      | _, _ => (none, [i, i - 1])
    else (some a, [])

/-- The routine `gnome_sort` with its access log. -/
def gnome_sort_log (a : List α) : Option (List α) × List Nat :=
  gnome_loop_log (a.length * a.length + 1) a 0 1 2 a.length

end LoopsWithLog

/-! ## printVect, the harness `sort`, and the run loop with its effects -/

/-- What a run takes from outside the program text. -/
structure Env (VT : Type) where
  /-- The text `std::cout << std::fixed << x` writes for an element `x` under
  `precision(prec)`. -/
  render : Int → VT → String
  /-- The text written for a `double` time value in fixed notation at precision 6. -/
  render_time : Rat → String
  /-- The routine behind an entry of the dispatch table: the contents of the range after
  the call, `none` if the call does not return. -/
  routine : Routine → List VT → Option (List VT)
  /-- The elapsed CPU time the harness measures in trial `t` for the descriptor at
  position `p`, in seconds, as an exact number. -/
  sample : Int → Nat → Rat

/-- The function `printVect` (lines 250-256): after `std::cout.precision(prec)`, the loop
`for(const VT & i : list) std::cout << std::fixed << i << delim;`.  The result is the text
written. -/
def printVect {VT : Type} (render : Int → VT → String) (list : List VT) (prec : Int)
    (delim : String) : String :=
  list.foldl (fun out i => out ++ render prec i ++ delim) ""

/-- The text written for a whole number in fixed notation under `precision(prec)`: its
decimal digits, followed for a positive precision by the point and `prec` zeros. -/
def render_whole (prec : Int) (x : Int) : String :=
  toString x ++ (if prec ≤ 0 then "" else "." ++ String.mk (List.replicate prec.toNat '0'))

/-- The member function `max_strlen` of `program_args` (lines 64-72): the length of the
longest display label. -/
def max_strlen (vect : List Descriptor) : Nat :=
  vect.foldl (fun len i => if i.label.length > len then i.label.length else len) 0

/-- The member `mstr` of `program_args` (line 56), `max_strlen(algs)`.  It is computed
when the configuration is constructed; the labels never change, so it is the value
computed from the current descriptors. -/
def program_args.mstr {VT : Type} (args : program_args VT) : Nat :=
  max_strlen args.algs

/-- The text `std::cout << std::left << std::setw(w) << s` writes: `s`, then fill
characters (spaces) up to the width `w`. -/
def pad_left (w : Nat) (s : String) : String :=
  s ++ String.mk (List.replicate (w - s.length) ' ')

/-- The output statements of the harness `sort` (lines 417-437), for the label `msg`, the
sum after `sum += time`, the measured `time` and the sequence `list_cp` the routine left.
The result is the text written to `std::cout`. -/
def harness_output {VT : Type} (E : Env VT) (args : program_args VT) (msg : String)
    (sum time : Rat) (list_cp : List VT) : String :=
  (if !args.quiet && decide (args.avg = 1 ∨ args.avg_count = args.avg - 1)
    then "\n\n" else "") ++
  (if args.avg = 1 ∨ args.avg_count = args.avg - 1 then pad_left args.mstr msg else "") ++
  (if args.time && decide (args.avg = 1) then
      "CPU time: " ++ E.render_time time ++ " s"
    else if args.time && decide (args.avg_count = args.avg - 1) then
      "Average CPU time: " ++ E.render_time (sum / (args.avg : Rat)) ++ " s"
    else "") ++
  (if args.avg = 1 ∨ args.avg_count = args.avg - 1 then "\n" else "") ++
  (if !args.quiet && decide (args.avg = 1 ∨ args.avg_count = args.avg - 1)
    then printVect E.render list_cp args.prec args.delim else "")

/-- What one call of the harness yields: the sum after `sum += time`, the copy `list_cp`
as handed to the routine, the same copy after the routine, and the text written. -/
structure SortResult (VT : Type) where
  sum : Rat
  input : List VT
  output : List VT
  text : String

/-- The harness `sort(args, sorter, msg, sum)` (lines 406-438): copy `args.list`, run the
routine on the copy, add the measured `time` to `sum`, write the report.  `args` is a
`const &` and is not part of the result; `none` if the routine does not return. -/
def sort {VT : Type} (E : Env VT) (args : program_args VT)
    (sorter : List VT → Option (List VT)) (msg : String) (sum time : Rat) :
    Option (SortResult VT) :=
  -- `auto list_cp = args.list;`
  let list_cp := args.list
  match sorter list_cp with
  | some sorted =>
    -- `sum += time;`
    let sum := sum + time
    some ⟨sum, list_cp, sorted, harness_output E args msg sum time sorted⟩
  | none => none

/-- One entry of the record of a run: the harness invocation, the sequence handed to the
routine, and the text the invocation wrote. -/
structure HarnessRecord (VT : Type) where
  call : HarnessCall
  input : List VT
  text : String

/-- The state of a run: the configuration object (whose descriptors hold the sums) and
the record of the harness invocations made so far. -/
structure RunState (VT : Type) where
  args : program_args VT
  log : List (HarnessRecord VT)

/-- The statement `sort(args, lambs[i], std::get<1>(j.get()), std::get<2>(j.get()))`
(line 506) for the descriptor `j` at position `pos`: the sum is passed by reference, so
the descriptor at `pos` receives the sum the harness leaves. -/
def harness_step {VT : Type} (E : Env VT) (st : RunState VT) (pos i : Nat) (j : Descriptor) :
    Option (RunState VT) :=
  match lambs[i]? with
  | some f =>
    match sort E st.args (E.routine f) j.label j.sum (E.sample st.args.avg_count pos) with
    | some res =>
      some { args := { st.args with algs := st.args.algs.set pos { j with sum := res.sum } },
             log := st.log ++ [⟨⟨st.args.avg_count, f, j.label, pos⟩, res.input, res.text⟩] }
    | none => none
  | none => none

/-- The inner loop of the run loop (lines 501-509) with its effects, for the `k`
descriptors from position `pos` on. -/
def trial_exec {VT : Type} (E : Env VT) : Nat → Nat → Nat → RunState VT → Option (RunState VT)
  | 0, _, _, st => some st
  | k + 1, pos, i, st =>
    match st.args.algs[pos]? with
    | some j =>
      if (st.args.alg_all || j.use) && !contains st.args.alg_except j.name then
        match harness_step E st pos i j with
        | some st' => trial_exec E k (pos + 1) (i + 1) st'
        | none => none
      else trial_exec E k (pos + 1) (i + 1) st
    | none => none

/-- The run loop `for(; args.avg_count < args.avg; ++args.avg_count)` (lines 500-510)
with its effects. -/
def run_exec_loop {VT : Type} (E : Env VT) : Nat → RunState VT → Option (RunState VT)
  | 0, _ => none
  | fuel + 1, st =>
    if st.args.avg_count < st.args.avg then
      match trial_exec E st.args.algs.length 0 0 st with
      | some st' =>
        run_exec_loop E fuel
          { st' with args := { st'.args with avg_count := st'.args.avg_count + 1 } }
      | none => none
    else some st

/-- The run loop of `main` with its effects, started with an empty record. -/
def run_exec {VT : Type} (E : Env VT) (args : program_args VT) : Option (RunState VT) :=
  run_exec_loop E ((args.avg - args.avg_count).toNat + 1) ⟨args, []⟩

/-- The routines of the library as the dispatch table calls them; the shuffle of
`bogosort` with its generator and the rounds allowed to it are parameters. -/
def library {VT G : Type} [LT VT] [DecidableRel ((· < ·) : VT → VT → Prop)]
    (shuffle : G → List VT → List VT × G) (rounds : Nat) (g : G) :
    Routine → List VT → Option (List VT)
  | .bogosort => bogosort shuffle rounds g
  | .bubble_sort => bubble_sort
  | .cocktail_sort => cocktail_sort
  | .gnome_sort => gnome_sort
  | .heap_sort => heap_sort
  | .insertion_sort => insertion_sort
  | .merge_sort => merge_sort
  | .permutation_sort => permutation_sort
  | .quick_sort => quick_sort
  | .selection_sort => selection_sort

/-! ## The validation stage of `parse_args` and its use by `main` -/

/-- The enumeration `returnID` (lines 75-93). -/
inductive returnID where
  | success_help
  | success
  | prec_under
  | prec_over
  | avg_under
  | fill_rand_under
  | fill_forward_under
  | fill_backward_under
  | alg_empty
  | alg_invalid
  | known_err
  | other_err
deriving DecidableEq, Repr

/-- The integer value of each enumerator. -/
def returnID.code : returnID → Int
  | .success_help => -1
  | .success => 0
  | .prec_under => 1
  | .prec_over => 2
  | .avg_under => 3
  | .fill_rand_under => 4
  | .fill_forward_under => 5
  | .fill_backward_under => 6
  | .alg_empty => 7
  | .alg_invalid => 8
  | .known_err => 9
  | .other_err => 10

/-- The loop over `args.alg_except` in `parse_args` (lines 234-245):
`i.compare(0, 2, "--") == 0` holds when the first two characters of `i` are `--`;
`std::find_if` looks for a descriptor whose short name equals `i`. -/
def check_except (algs : List Descriptor) : List String → returnID
  | [] => .success
  | i :: rest =>
    if i.toList.take 2 = ['-', '-'] then .alg_empty
    else if !(algs.any (fun e => e.name == i)) then .alg_invalid
    else check_except algs rest

/-- The validation stage of `parse_args` (lines 180-247) on the populated configuration,
on the path where `--help` was not given and `conflicting_opts` throws nothing.  The fill
functions called on the way change `args.list` only and are left out.  `max_digits10` is
`std::numeric_limits<VT>::max_digits10`. -/
def validate {VT : Type} (max_digits10 : Int) (args : program_args VT) : returnID :=
  if args.prec < 0 then .prec_under
  else if args.prec > max_digits10 then .prec_over
  else if args.avg ≤ 0 then .avg_under
  else if args.fill_rand < 0 then .fill_rand_under
  else if args.fill_forward < 0 then .fill_forward_under
  else if args.fill_backward < 0 then .fill_backward_under
  else check_except args.algs args.alg_except

/-- What `main` does with the result of `parse_args` (lines 474-514) when no exception is
thrown: the value it returns and the harness invocations it makes.  On `success` it runs
the run loop and returns `success`; on `success_help` it returns `0`; on any other result
it returns that result at once. -/
def main_from {VT : Type} (result : returnID) (args : program_args VT) :
    Option (Int × List HarnessCall) :=
  match result with
  | .success => (run args).map (fun calls => (returnID.success.code, calls))
  | .success_help => some (0, [])
  | r => some (r.code, [])

/-! ## Specification-level notions used in the proofs -/

/-- One pass of adjacent exchanges seen on the segment it traverses: `x` is the element
currently carried, the list holds the elements still ahead of it, and the carried element
is exchanged with the next one `y` when `lt y x`. -/
def passList (lt : α → α → Prop) [DecidableRel lt] : α → List α → List α
  | x, [] => [x]
  | x, y :: ys => if lt y x then y :: passList lt x ys else x :: passList lt y ys

/-- Whether `passList` performs an exchange. -/
def passSwapped (lt : α → α → Prop) [DecidableRel lt] : α → List α → Bool
  | _, [] => false
  | x, y :: ys => if lt y x then true else passSwapped lt y ys

/-- The list `out` is a rearrangement of `inp` that keeps, for every key, the elements
carrying that key in their original order. -/
def StablePerm {K : Type} [DecidableEq K] (key : α → K) (out inp : List α) : Prop :=
  out.Perm inp ∧ ∀ k, out.filter (fun x => decide (key x = k)) = inp.filter (fun x => decide (key x = k))

/-- The list is non-decreasing in the keys. -/
def KeySorted {K : Type} [LE K] (key : α → K) (l : List α) : Prop :=
  l.Pairwise (fun x y => key x ≤ key y)

/-- Elements that carry a key and a distinguishable secondary tag; `operator<` compares
the keys only. -/
structure Tagged (K T : Type) where
  key : K
  tag : T
deriving DecidableEq, Repr

instance Tagged.instLT {K T : Type} [LT K] : LT (Tagged K T) :=
  ⟨fun a b => a.key < b.key⟩

instance Tagged.instDecidableLT {K T : Type} [LT K] [DecidableRel ((· < ·) : K → K → Prop)] :
    DecidableRel ((· < ·) : Tagged K T → Tagged K T → Prop) :=
  fun a b => inferInstanceAs (Decidable (a.key < b.key))

/-- Stability of an output `r` with respect to the input `l`, for (key, tag) elements:
for every key the elements carrying it form the same sequence in `r` as in `l`, and any two
elements with equal keys that occur in some order in `r` occur in that order in `l`. -/
def KeepsEqualKeyOrder {K T : Type} [DecidableEq K] (r l : List (Tagged K T)) : Prop :=
  (∀ k, r.filter (fun e => decide (e.key = k)) = l.filter (fun e => decide (e.key = k))) ∧
  (∀ x y : Tagged K T, x.key = y.key → List.Sublist [x, y] r → List.Sublist [x, y] l)

/-- Heap order on `[0, n)` for every parent position from `s` on: no element is greater
than the element at its parent position `(j - 1) / 2`. -/
def HeapFrom [LE α] (a : List α) (s n : Nat) : Prop :=
  ∀ (j : Nat) (x y : α), 0 < j → j < n → s ≤ (j - 1) / 2 →
    a[j]? = some x → a[(j - 1) / 2]? = some y → x ≤ y

/-- The state of an interrupted sift-down at `r`: heap order holds for every parent from
`s` on except possibly `r`, and the children of `r` respect the parent of `r`. -/
def SiftInv [LE α] (a : List α) (s r n : Nat) : Prop :=
  (∀ (j : Nat) (x y : α), 0 < j → j < n → s ≤ (j - 1) / 2 → (j - 1) / 2 ≠ r →
    a[j]? = some x → a[(j - 1) / 2]? = some y → x ≤ y) ∧
  (∀ (j : Nat) (x y : α), 0 < j → j < n → (j - 1) / 2 = r → 0 < r → s ≤ (r - 1) / 2 →
    a[j]? = some x → a[(r - 1) / 2]? = some y → x ≤ y)

/-- The number of rearrangements of `l₀` (counted as `List.permutations` lists them) that
are lexicographically greater than `cur`: the variant of the `permutation_sort` loop. -/
def lexAbove [LinearOrder α] (l₀ cur : List α) : Nat :=
  l₀.permutations.countP (fun p => decide (List.Lex (· < ·) cur p))

/-- A harness environment for the example runs: values are rendered as whole numbers,
times as a fraction, the library runs with a shuffle that leaves the range as it is, and
every elapsed time is one unit. -/
def env_demo : Env Nat :=
  { render := fun prec x => render_whole prec (Int.ofNat x),
    render_time := fun q => toString q.num ++ "/" ++ toString q.den,
    routine := library (fun (g : Unit) l => (l, g)) 0 (),
    sample := fun _ _ => 1 }

/-- Everything in a configuration other than the trial counter and the accumulated sums:
the flags, the numeric settings, the canonical input sequence, the exclusion set, and the
name, label and enable flag of every descriptor. -/
def config_of {VT : Type} (a : program_args VT) :=
  (a.help, a.quiet, a.time, a.prec, a.avg, a.delim, a.list, a.fill_rand, a.fill_forward,
    a.fill_backward, a.alg_all, a.alg_except, a.algs.map (fun d => (d.name, d.label, d.use)))

/-- The sum of the elapsed-time samples of the descriptor at position `p` in the `n`
trials `t0, t0 + 1, ..., t0 + n - 1`. -/
def samples_sum {VT : Type} (E : Env VT) (t0 : Int) (n p : Nat) : Rat :=
  ((List.range n).map (fun k : Nat => E.sample (t0 + Int.ofNat k) p)).sum

/-- The descriptor at position `p` after the trial `a.avg_count`: a selected descriptor
has the sample of this trial added to its sum. -/
def bump {VT : Type} (E : Env VT) (a : program_args VT) (p : Nat) (d : Descriptor) :
    Descriptor :=
  if selected a d then { d with sum := d.sum + E.sample a.avg_count p } else d

/-- The descriptors at positions `k, k + 1, ...` after the trial `a.avg_count`. -/
def bumpFrom {VT : Type} (E : Env VT) (a : program_args VT) : Nat → List Descriptor →
    List Descriptor
  | _, [] => []
  | k, d :: ds => bump E a k d :: bumpFrom E a (k + 1) ds

/-- The record a harness call for the descriptor `d` at position `p` with routine `f`
leaves in trial `a.avg_count`, when the routine returns `sorted f`. -/
def record_of {VT : Type} (E : Env VT) (sorted : Routine → List VT) (a : program_args VT)
    (p : Nat) (d : Descriptor) (f : Routine) : HarnessRecord VT :=
  ⟨⟨a.avg_count, f, d.label, p⟩, a.list,
    harness_output E a d.label (d.sum + E.sample a.avg_count p) (E.sample a.avg_count p)
      (sorted f)⟩

/-- The records of the trial `a.avg_count` for the descriptors at positions
`k, k + 1, ...`. -/
def recsFrom {VT : Type} (E : Env VT) (sorted : Routine → List VT) (a : program_args VT) :
    Nat → List Descriptor → List (HarnessRecord VT)
  | _, [] => []
  | k, d :: ds =>
    (if selected a d then
      (match lambs[k]? with
       | some f => [record_of E sorted a k d f]
       | none => [])
     else []) ++ recsFrom E sorted a (k + 1) ds

/-- The configuration after the trial `a.avg_count` and the increment of the counter. -/
def after_trial {VT : Type} (E : Env VT) (a : program_args VT) : program_args VT :=
  { a with
    algs := bumpFrom E a 0 a.algs, avg_count := a.avg_count + 1 }

/-- The state after `n` trials, trial by trial. -/
def spec_run {VT : Type} (E : Env VT) (sorted : Routine → List VT) :
    Nat → program_args VT → List (HarnessRecord VT) → RunState VT
  | 0, a, log => ⟨a, log⟩
  | n + 1, a, log => spec_run E sorted n (after_trial E a) (log ++ recsFrom E sorted a 0 a.algs)

/-- A configuration with `--alg-all`, the exclusion `bogosort`, two trials and timing
display on. -/
def args_avg_two : program_args Nat :=
  { help := false, quiet := false, time := true, prec := 0, avg := 2, avg_count := 0,
    delim := " ", list := [3, 1, 2], fill_rand := 10, fill_forward := 0, fill_backward := 0,
    alg_all := true, alg_except := ["bogosort"], algs := declared_algs }

/-! ## Proofs -/

section StdHelperLemmas

theorem partitionLoop_perm (p : α → Bool) (rest good bad : List α) :
    ((partitionLoop p good bad rest).1 ++ (partitionLoop p good bad rest).2).Perm
      (good ++ bad ++ rest) := by
  induction rest generalizing good bad with
  | nil => simp [partitionLoop]
  | cons x rest ih =>
    unfold partitionLoop
    split_ifs with hx
    · cases bad with
      | nil =>
        refine (ih _ _).trans ?_
        simp
      | cons b bs =>
        refine (ih _ _).trans ?_
        simp only [List.append_assoc, List.singleton_append, List.cons_append]
        refine List.Perm.append_left _ ?_
        have h1 : (x :: bs ++ b :: rest).Perm (b :: (x :: bs ++ rest)) :=
          List.perm_middle
        have h2 : (b :: (bs ++ x :: rest)).Perm (b :: x :: (bs ++ rest)) :=
          List.Perm.cons b List.perm_middle
        exact h1.trans h2.symm
    · refine (ih _ _).trans ?_
      simp

theorem partitionLoop_fst (p : α → Bool) (rest good bad : List α)
    (hg : ∀ x ∈ good, p x = true) :
    ∀ x ∈ (partitionLoop p good bad rest).1, p x = true := by
  induction rest generalizing good bad with
  | nil => simpa [partitionLoop] using hg
  | cons y rest ih =>
    unfold partitionLoop
    split_ifs with hy
    · cases bad with
      | nil =>
        apply ih
        intro x hx
        rcases List.mem_append.1 hx with h | h
        · exact hg x h
        · simp at h; simpa [h] using hy
      | cons b bs =>
        apply ih
        intro x hx
        rcases List.mem_append.1 hx with h | h
        · exact hg x h
        · simp at h; simpa [h] using hy
    · exact ih _ _ hg

theorem partitionLoop_snd (p : α → Bool) (rest good bad : List α)
    (hb : ∀ x ∈ bad, p x = false) :
    ∀ x ∈ (partitionLoop p good bad rest).2, p x = false := by
  induction rest generalizing good bad with
  | nil => simpa [partitionLoop] using hb
  | cons y rest ih =>
    unfold partitionLoop
    split_ifs with hy
    · cases bad with
      | nil => exact ih _ _ hb
      | cons b bs =>
        apply ih
        intro x hx
        apply hb
        simp at hx ⊢
        tauto
    · apply ih
      intro x hx
      rcases List.mem_append.1 hx with h | h
      · exact hb x h
      · simp at h; simpa [h] using hy

theorem std_partition_perm (p : α → Bool) (l : List α) :
    ((std_partition p l).1 ++ (std_partition p l).2).Perm l := by
  simpa [std_partition] using partitionLoop_perm p l [] []

theorem std_partition_fst (p : α → Bool) (l : List α) :
    ∀ x ∈ (std_partition p l).1, p x = true :=
  partitionLoop_fst p l [] [] (by simp)

theorem std_partition_snd (p : α → Bool) (l : List α) :
    ∀ x ∈ (std_partition p l).2, p x = false :=
  partitionLoop_snd p l [] [] (by simp)

end StdHelperLemmas

section QuickSortProofs

variable [LinearOrder α]

theorem pivotOf_mem (a b c : α) : pivotOf a b c = a ∨ pivotOf a b c = b ∨ pivotOf a b c = c := by
  unfold pivotOf stdMax stdMin
  split_ifs <;> simp

/-- With enough fuel `quick_sort_go` returns a sorted permutation of its input. -/
theorem quick_sort_go_spec (fuel : Nat) (l : List α) (h : l.length < fuel) :
    ∃ r, quick_sort_go fuel l = some r ∧ r.Perm l ∧ r.Sorted (· ≤ ·) := by
  induction fuel generalizing l with
  | zero => omega
  | succ fuel ih =>
    unfold quick_sort_go
    by_cases hlen : l.length ≠ 0 ∧ l.length ≠ 1
    · rw [if_pos hlen]
      obtain ⟨a, ha⟩ : ∃ a, l[0]? = some a :=
        ⟨l[0], List.getElem?_eq_getElem (by omega)⟩
      obtain ⟨b, hb⟩ : ∃ b, l[l.length / 2]? = some b :=
        ⟨l[l.length / 2], List.getElem?_eq_getElem (by omega)⟩
      obtain ⟨c, hc⟩ : ∃ c, l[l.length - 1]? = some c :=
        ⟨l[l.length - 1], List.getElem?_eq_getElem (by omega)⟩
      simp only [ha, hb, hc]
      set pivot := pivotOf a b c with hpiv
      set s1 := std_partition (bind2nd less pivot) l with hs1
      set s2 := std_partition (bind2nd (non_strict less) pivot) s1.2 with hs2
      have hp1 : (s1.1 ++ s1.2).Perm l := std_partition_perm _ _
      have hp2 : (s2.1 ++ s2.2).Perm s1.2 := std_partition_perm _ _
      have hlo : ∀ x ∈ s1.1, x < pivot := fun x hx => by
        simpa [bind2nd, less] using std_partition_fst _ l x hx
      have hge : ∀ x ∈ s1.2, pivot ≤ x := fun x hx => by
        simpa [bind2nd, less] using std_partition_snd _ l x hx
      have hle : ∀ x ∈ s2.1, x ≤ pivot := fun x hx => by
        simpa [bind2nd, less, non_strict] using std_partition_fst _ s1.2 x hx
      have hhi : ∀ x ∈ s2.2, pivot < x := fun x hx => by
        simpa [bind2nd, less, non_strict] using std_partition_snd _ s1.2 x hx
      have hpl : pivot ∈ l := by
        rcases pivotOf_mem a b c with h1 | h1 | h1
        · rw [hpiv, h1]; exact List.getElem?_mem ha
        · rw [hpiv, h1]; exact List.getElem?_mem hb
        · rw [hpiv, h1]; exact List.getElem?_mem hc
      have hps1 : pivot ∈ s1.2 := by
        have : pivot ∈ s1.1 ++ s1.2 := hp1.mem_iff.2 hpl
        rcases List.mem_append.1 this with h1 | h1
        · exact absurd (hlo _ h1) (lt_irrefl _)
        · exact h1
      have hps2 : pivot ∈ s2.1 := by
        have : pivot ∈ s2.1 ++ s2.2 := hp2.mem_iff.2 hps1
        rcases List.mem_append.1 this with h1 | h1
        · exact h1
        · exact absurd (hhi _ h1) (lt_irrefl _)
      have hl1 := hp1.length_eq
      have hl2 := hp2.length_eq
      have hpos : 0 < s2.1.length := List.length_pos_of_mem hps2
      simp only [List.length_append] at hl1 hl2
      obtain ⟨lo, hlo_eq, hlo_perm, hlo_sorted⟩ := ih s1.1 (by omega)
      obtain ⟨hi, hhi_eq, hhi_perm, hhi_sorted⟩ := ih s2.2 (by omega)
      refine ⟨lo ++ s2.1 ++ hi, by simp [hlo_eq, hhi_eq], ?_, ?_⟩
      · refine List.Perm.trans ?_ hp1
        rw [List.append_assoc]
        exact hlo_perm.append ((hhi_perm.append_left s2.1).trans hp2)
      · have hmid : ∀ x ∈ s2.1, x = pivot := fun x hx =>
          le_antisymm (hle x hx) (hge x (hp2.subset (List.mem_append_left _ hx)))
        have hmid_sorted : s2.1.Sorted (· ≤ ·) := by
          rw [List.Sorted, List.pairwise_iff_forall_sublist]
          intro x y hxy
          have hx := hmid x (hxy.subset (by simp))
          have hy := hmid y (hxy.subset (by simp))
          rw [hx, hy]
        rw [List.Sorted, List.pairwise_append, List.pairwise_append]
        refine ⟨⟨hlo_sorted, hmid_sorted, ?_⟩, hhi_sorted, ?_⟩
        · intro x hx y hy
          rw [hmid y hy]
          exact le_of_lt (hlo x (hlo_perm.subset hx))
        · intro x hx y hy
          have hy2 := hhi y (hhi_perm.subset hy)
          rcases List.mem_append.1 hx with h1 | h1
          · exact le_of_lt (lt_trans (hlo x (hlo_perm.subset h1)) hy2)
          · rw [hmid x h1]; exact le_of_lt hy2
    · rw [if_neg hlen]
      refine ⟨l, rfl, List.Perm.refl _, ?_⟩
      have : l.length = 0 ∨ l.length = 1 := by omega
      rcases this with h0 | h1
      · rw [List.length_eq_zero] at h0; subst h0; exact List.sorted_nil
      · obtain ⟨x, rfl⟩ := List.length_eq_one.1 h1
        exact List.sorted_singleton x

/-- Claim C1.  For every finite sequence over a totally ordered element type,
`quick_sort` returns (in particular: terminates, within the fuel `length + 1`, with all
its accesses inside the range), and the sequence it leaves is a permutation of the input
in which no element is smaller than its predecessor. -/
theorem quick_sort_sorted_perm (l : List α) :
    ∃ r, quick_sort l = some r ∧ r.Perm l ∧ r.Sorted (· ≤ ·) ∧
      List.Chain' (fun x y => ¬ y < x) r := by
  obtain ⟨r, h1, h2, h3⟩ := quick_sort_go_spec (l.length + 1) l (by omega)
  refine ⟨r, h1, h2, h3, ?_⟩
  exact (List.chain'_iff_pairwise.2 h3).imp (fun {_ _} h => not_lt.2 h)

end QuickSortProofs

section ListLemmas

theorem getElem?_mid (pre : List α) (x : α) (rest : List α) :
    (pre ++ x :: rest)[pre.length]? = some x := by
  rw [List.getElem?_append_right (Nat.le_refl _)]
  simp

theorem getElem?_mid_succ (pre : List α) (x y : α) (rest : List α) :
    (pre ++ x :: y :: rest)[pre.length + 1]? = some y := by
  have := getElem?_mid (pre ++ [x]) y rest
  simp only [List.length_append, List.length_singleton, List.append_assoc,
    List.singleton_append] at this
  exact this

theorem set_mid (pre : List α) (x z : α) (rest : List α) :
    (pre ++ x :: rest).set pre.length z = pre ++ z :: rest := by
  simp

theorem set_mid_succ (pre : List α) (x y z : α) (rest : List α) :
    (pre ++ x :: y :: rest).set (pre.length + 1) z = pre ++ x :: z :: rest := by
  have := set_mid (pre ++ [x]) y z rest
  simp only [List.length_append, List.length_singleton, List.append_assoc,
    List.singleton_append] at this
  exact this

theorem iter_swap_adjacent (pre : List α) (x y : α) (rest : List α) :
    iter_swap (pre ++ x :: y :: rest) pre.length (pre.length + 1)
      = some (pre ++ y :: x :: rest) := by
  unfold iter_swap
  rw [getElem?_mid, getElem?_mid_succ]
  simp only [set_mid, set_mid_succ]

theorem iter_swap_adjacent_rev (pre : List α) (x y : α) (rest : List α) :
    iter_swap (pre ++ x :: y :: rest) (pre.length + 1) pre.length
      = some (pre ++ y :: x :: rest) := by
  unfold iter_swap
  rw [getElem?_mid, getElem?_mid_succ]
  simp only [set_mid, set_mid_succ]

end ListLemmas

section PassRefinement

variable [LT α] [DecidableRel ((· < ·) : α → α → Prop)]

/-- The forward pass over positions `|pre| .. |pre| + |seg|` acts on that segment as
`passList` does, and touches nothing else. -/
theorem forward_pass_eq (seg : List α) :
    ∀ (fuel : Nat) (pre : List α) (x : α) (post : List α) (sw : Bool),
      seg.length < fuel →
      forward_pass fuel (pre ++ x :: seg ++ post) pre.length (pre.length + seg.length) sw
        = some (pre ++ passList (· < ·) x seg ++ post, sw || passSwapped (· < ·) x seg) := by
  induction seg with
  | nil =>
    intro fuel pre x post sw hf
    cases fuel with
    | zero => simp at hf
    | succ fuel => simp [forward_pass, passList, passSwapped]
  | cons y ys ih =>
    intro fuel pre x post sw hf
    cases fuel with
    | zero => simp at hf
    | succ fuel =>
      have hf' : ys.length < fuel := by simpa using hf
      have hne : pre.length ≠ pre.length + (y :: ys).length := by simp
      unfold forward_pass
      rw [if_pos hne]
      have e1 : (pre ++ x :: (y :: ys) ++ post) = pre ++ x :: y :: (ys ++ post) := by simp
      rw [e1, getElem?_mid, getElem?_mid_succ]
      simp only []
      by_cases hyx : y < x
      · rw [if_pos hyx, iter_swap_adjacent]
        simp only []
        have := ih fuel (pre ++ [y]) x post true hf'
        simp only [List.length_append, List.length_singleton, List.append_assoc,
          List.singleton_append, List.cons_append, List.nil_append] at this
        simp only [List.length_cons]
        rw [show pre.length + (ys.length + 1) = pre.length + 1 + ys.length by omega, this]
        simp [passList, passSwapped, hyx]
      · rw [if_neg hyx]
        have := ih fuel (pre ++ [x]) y post sw hf'
        simp only [List.length_append, List.length_singleton, List.append_assoc,
          List.singleton_append, List.cons_append, List.nil_append] at this
        simp only [List.length_cons]
        rw [show pre.length + (ys.length + 1) = pre.length + 1 + ys.length by omega, this]
        simp [passList, passSwapped, hyx]

/-- The backward pass from position `|pre| + |rseg|` down to `|pre|` acts on the
segment, read from right to left, as `passList` for the reversed comparison does. -/
theorem backward_pass_eq (rseg : List α) :
    ∀ (fuel : Nat) (pre : List α) (x : α) (post : List α) (sw : Bool),
      rseg.length < fuel →
      backward_pass fuel (pre ++ rseg.reverse ++ x :: post) pre.length
          (pre.length + rseg.length) sw
        = some (pre ++ (passList (fun a b => b < a) x rseg).reverse ++ post,
            sw || passSwapped (fun a b => b < a) x rseg) := by
  induction rseg with
  | nil =>
    intro fuel pre x post sw hf
    cases fuel with
    | zero => simp at hf
    | succ fuel => simp [backward_pass, passList, passSwapped]
  | cons w ws ih =>
    intro fuel pre x post sw hf
    cases fuel with
    | zero => simp at hf
    | succ fuel =>
      have hf' : ws.length < fuel := by simpa using hf
      have hne : pre.length + (w :: ws).length ≠ pre.length := by simp
      have hne0 : ¬ pre.length + (w :: ws).length = 0 := by simp
      unfold backward_pass
      rw [if_pos hne, if_neg hne0]
      have e1 : (pre ++ (w :: ws).reverse ++ x :: post)
          = (pre ++ ws.reverse) ++ w :: x :: post := by simp
      have e2 : pre.length + (w :: ws).length = (pre ++ ws.reverse).length + 1 := by
        simp; omega
      rw [e1, e2, getElem?_mid_succ, Nat.add_sub_cancel, getElem?_mid]
      simp only []
      by_cases hxw : x < w
      · rw [if_pos hxw, iter_swap_adjacent_rev]
        simp only []
        have := ih fuel pre x (w :: post) true hf'
        simp only [List.length_append, List.length_reverse] at this ⊢
        rw [this]
        simp [passList, passSwapped, hxw]
      · rw [if_neg hxw]
        have := ih fuel pre w (x :: post) sw hf'
        simp only [List.length_append, List.length_reverse, List.append_assoc] at this ⊢
        rw [this]
        simp [passList, passSwapped, hxw]

end PassRefinement

section StablePermLemmas

variable {K : Type} [DecidableEq K] (key : α → K)

theorem StablePerm.refl (l : List α) : StablePerm key l l :=
  ⟨List.Perm.refl l, fun _ => rfl⟩

theorem StablePerm.trans {a b c : List α} (h1 : StablePerm key a b) (h2 : StablePerm key b c) :
    StablePerm key a c :=
  ⟨h1.1.trans h2.1, fun k => (h1.2 k).trans (h2.2 k)⟩

theorem StablePerm.append {a a' b b' : List α} (h1 : StablePerm key a a')
    (h2 : StablePerm key b b') : StablePerm key (a ++ b) (a' ++ b') :=
  ⟨h1.1.append h2.1, fun k => by rw [List.filter_append, List.filter_append, h1.2 k, h2.2 k]⟩

theorem StablePerm.cons (x : α) {a a' : List α} (h : StablePerm key a a') :
    StablePerm key (x :: a) (x :: a') :=
  StablePerm.append key (StablePerm.refl key [x]) h

theorem StablePerm.swap {x y : α} (hxy : key x ≠ key y) (l : List α) :
    StablePerm key (y :: x :: l) (x :: y :: l) := by
  refine ⟨List.Perm.swap x y l, fun k => ?_⟩
  by_cases hx : key x = k
  · have hy : key y ≠ k := fun h => hxy (hx.trans h.symm)
    simp [List.filter_cons, hx, hy]
  · simp [List.filter_cons, hx]

end StablePermLemmas

section PassListLemmas

variable {K : Type} [LinearOrder K] (key : α → K) (lt : α → α → Prop) [DecidableRel lt]

theorem passList_stable (hne : ∀ a b, lt a b → key a ≠ key b) (seg : List α) (x : α) :
    StablePerm key (passList lt x seg) (x :: seg) := by
  induction seg generalizing x with
  | nil => exact StablePerm.refl key _
  | cons y ys ih =>
    unfold passList
    split_ifs with h
    · exact (StablePerm.cons key y (ih x)).trans key (StablePerm.swap key (hne y x h).symm ys)
    · exact StablePerm.cons key x (ih y)

theorem passList_max (hlt : ∀ a b, lt a b ↔ key a < key b) (seg : List α) (x : α) :
    ∃ init m, passList lt x seg = init ++ [m] ∧ (∀ z ∈ init, key z ≤ key m) ∧
      key x ≤ key m := by
  induction seg generalizing x with
  | nil => exact ⟨[], x, rfl, by simp, le_refl _⟩
  | cons y ys ih =>
    unfold passList
    split_ifs with h
    · obtain ⟨init, m, e, h1, h2⟩ := ih x
      refine ⟨y :: init, m, by rw [e]; rfl, ?_, h2⟩
      intro z hz
      rcases List.mem_cons.1 hz with rfl | hz
      · exact le_trans (le_of_lt ((hlt _ _).1 h)) h2
      · exact h1 z hz
    · obtain ⟨init, m, e, h1, h2⟩ := ih y
      have hxy : key x ≤ key y := not_lt.1 (fun hc => h ((hlt _ _).2 hc))
      refine ⟨x :: init, m, by rw [e]; rfl, ?_, le_trans hxy h2⟩
      intro z hz
      rcases List.mem_cons.1 hz with rfl | hz
      · exact le_trans hxy h2
      · exact h1 z hz

theorem passList_not_swapped (hlt : ∀ a b, lt a b ↔ key a < key b) (seg : List α) (x : α)
    (h : passSwapped lt x seg = false) :
    passList lt x seg = x :: seg ∧ KeySorted key (x :: seg) := by
  induction seg generalizing x with
  | nil => exact ⟨rfl, List.pairwise_singleton _ _⟩
  | cons y ys ih =>
    unfold passSwapped at h
    split_ifs at h with hyx
    obtain ⟨e, hs⟩ := ih y h
    have hxy : key x ≤ key y := not_lt.1 (fun hc => hyx ((hlt _ _).2 hc))
    refine ⟨by unfold passList; rw [if_neg hyx, e], ?_⟩
    unfold KeySorted at hs ⊢
    refine List.pairwise_cons.2 ⟨?_, hs⟩
    intro z hz
    rcases List.mem_cons.1 hz with rfl | hz
    · exact hxy
    · exact le_trans hxy ((List.pairwise_cons.1 hs).1 z hz)

theorem passList_length (seg : List α) (x : α) :
    (passList lt x seg).length = seg.length + 1 := by
  induction seg generalizing x with
  | nil => rfl
  | cons y ys ih =>
    unfold passList
    split_ifs <;> simp [ih]

theorem keySorted_append {l₁ l₂ : List α} (h1 : KeySorted key l₁) (h2 : KeySorted key l₂)
    (h : ∀ x ∈ l₁, ∀ y ∈ l₂, key x ≤ key y) : KeySorted key (l₁ ++ l₂) :=
  List.pairwise_append.2 ⟨h1, h2, h⟩

end PassListLemmas
section BubbleProofs

variable [LT α] [DecidableRel ((· < ·) : α → α → Prop)]
variable {K : Type} [LinearOrder K] (key : α → K)

/-- Loop invariant of `bubble_sort`: the sequence is `work ++ done`, `last = |work|`,
`done` is sorted and bounds `work` from above, and a cleared flag means `work` is sorted. -/
theorem bubble_loop_spec (hk : ∀ a b : α, a < b ↔ key a < key b) (fuel : Nat) :
    ∀ (work done : List α) (sw : Bool), work.length < fuel →
      KeySorted key done → (∀ x ∈ work, ∀ y ∈ done, key x ≤ key y) →
      (sw = false → KeySorted key work) →
      ∃ r, bubble_loop fuel (work ++ done) 0 work.length sw = some r ∧
        StablePerm key r (work ++ done) ∧ KeySorted key r := by
  induction fuel with
  | zero => intro work done sw h; omega
  | succ fuel ih =>
    intro work done sw hf hdone hcross hsw
    unfold bubble_loop
    by_cases hc : 0 ≠ work.length ∧ sw = true
    · rw [if_pos hc]
      obtain ⟨x, seg, rfl⟩ : ∃ x seg, work = x :: seg := by
        cases work with
        | nil => exact absurd rfl hc.1
        | cons x seg => exact ⟨x, seg, rfl⟩
      have hfp := forward_pass_eq seg ((x :: seg ++ done).length + 1) [] x done false
        (by simp; omega)
      simp only [List.nil_append, List.length_nil, Nat.zero_add, Bool.false_or] at hfp
      simp only [List.length_cons, Nat.add_sub_cancel]
      rw [hfp]
      simp only []
      obtain ⟨init, m, e, hmax, -⟩ := passList_max key (· < ·) hk seg x
      have hst := passList_stable key (· < ·) (fun a b h => ne_of_lt ((hk a b).1 h)) seg x
      have hlen : init.length = seg.length := by
        have := passList_length (· < ·) seg x
        rw [e] at this
        simpa using this
      have hmem : m ∈ x :: seg := hst.1.subset (by rw [e]; simp)
      have hinit : ∀ z ∈ init, z ∈ x :: seg := fun z hz =>
        hst.1.subset (by rw [e]; exact List.mem_append_left _ hz)
      have hrec := ih init (m :: done) (passSwapped (· < ·) x seg)
        (by rw [hlen]; simp at hf; omega)
        (List.pairwise_cons.2 ⟨fun y hy => hcross m hmem y hy, hdone⟩)
        (by
          intro z hz y hy
          rcases List.mem_cons.1 hy with rfl | hy
          · exact hmax z hz
          · exact hcross z (hinit z hz) y hy)
        (by
          intro hs
          obtain ⟨e2, hs2⟩ := passList_not_swapped key (· < ·) hk seg x hs
          rw [e] at e2
          rw [← e2] at hs2
          exact (List.pairwise_append.1 hs2).1)
      obtain ⟨r, hr, hperm, hsorted⟩ := hrec
      rw [e, ← hlen]
      rw [List.append_assoc, List.singleton_append, hr]
      refine ⟨r, rfl, ?_, hsorted⟩
      refine hperm.trans key ?_
      have := StablePerm.append key hst (StablePerm.refl key done)
      rw [e] at this
      simpa using this
    · rw [if_neg hc]
      refine ⟨_, rfl, StablePerm.refl key _, ?_⟩
      have hw : KeySorted key work := by
        by_cases h0 : work.length = 0
        · rw [List.length_eq_zero] at h0
          subst h0
          exact List.Pairwise.nil
        · apply hsw
          by_contra hne
          exact hc ⟨fun h => h0 h.symm, by simpa using hne⟩
      exact keySorted_append key hw hdone hcross

/-- `bubble_sort` over any element type whose `<` compares a totally ordered key:
it returns a key-sorted rearrangement that keeps equal keys in their original order. -/
theorem bubble_sort_spec (hk : ∀ a b : α, a < b ↔ key a < key b) (a : List α) :
    ∃ r, bubble_sort a = some r ∧ StablePerm key r a ∧ KeySorted key r := by
  have := bubble_loop_spec key hk (a.length + 1) a [] true (by omega) List.Pairwise.nil
    (by simp) (by simp)
  simpa [bubble_sort] using this

end BubbleProofs
section CocktailProofs

variable [LT α] [DecidableRel ((· < ·) : α → α → Prop)]
variable {K : Type} [LinearOrder K] (key : α → K)

omit [LT α] [DecidableRel ((· < ·) : α → α → Prop)] in
theorem StablePerm.reverse {a b : List α} (h : StablePerm key a b) :
    StablePerm key a.reverse b.reverse :=
  ⟨(List.reverse_perm a).trans (h.1.trans (List.reverse_perm b).symm), fun k => by
    rw [List.filter_reverse, List.filter_reverse, h.2 k]⟩

/-- Loop invariant of `cocktail_sort`: the sequence is `lo ++ work ++ hi` with
`first = |lo|` and `last = |lo| + |work|`; `lo` and `hi` are sorted, `lo` bounds the rest
from below, `hi` bounds the rest from above, and a cleared flag means `work` is sorted. -/
theorem cocktail_loop_spec (hk : ∀ a b : α, a < b ↔ key a < key b) (fuel : Nat) :
    ∀ (lo work hi : List α) (sw : Bool), work.length < fuel →
      KeySorted key lo → KeySorted key hi →
      (∀ x ∈ lo, ∀ y ∈ work ++ hi, key x ≤ key y) →
      (∀ x ∈ work, ∀ y ∈ hi, key x ≤ key y) →
      (sw = false → KeySorted key work) →
      ∃ r, cocktail_loop fuel (lo ++ work ++ hi) lo.length (lo.length + work.length) sw
          = some r ∧
        StablePerm key r (lo ++ work ++ hi) ∧ KeySorted key r := by
  induction fuel with
  | zero => intro lo work hi sw h; omega
  | succ fuel ih =>
    intro lo work hi sw hf hlo hhi hlow hwhi hsw
    have hfinal : ∀ w : List α, KeySorted key w → (∀ z, z ∈ w ↔ z ∈ work) →
        KeySorted key (lo ++ w ++ hi) := by
      intro w hw hmem
      refine keySorted_append key (keySorted_append key hlo hw ?_) hhi ?_
      · intro a ha b hb
        exact hlow a ha b (List.mem_append_left _ ((hmem b).1 hb))
      · intro a ha b hb
        rcases List.mem_append.1 ha with h | h
        · exact hlow a h b (List.mem_append_right _ hb)
        · exact hwhi a ((hmem a).1 h) b hb
    unfold cocktail_loop
    by_cases hc : lo.length ≠ lo.length + work.length ∧ sw = true
    · rw [if_pos hc]
      obtain ⟨x, seg, rfl⟩ : ∃ x seg, work = x :: seg := by
        cases work with
        | nil => exact absurd rfl hc.1
        | cons x seg => exact ⟨x, seg, rfl⟩
      have hfp := forward_pass_eq seg ((lo ++ x :: seg ++ hi).length + 1) lo x hi false
        (by simp; omega)
      simp only [Bool.false_or] at hfp
      simp only [List.length_cons, ← Nat.add_assoc, Nat.add_sub_cancel]
      rw [hfp]
      simp only []
      obtain ⟨init, m, e, hmax, -⟩ := passList_max key (· < ·) hk seg x
      have hst := passList_stable key (· < ·) (fun a b h => ne_of_lt ((hk a b).1 h)) seg x
      have hlen : init.length = seg.length := by
        have := passList_length (· < ·) seg x
        rw [e] at this
        simpa using this
      have hW : ∀ z, z ∈ x :: seg ↔ z ∈ init ∨ z = m := by
        intro z
        rw [← hst.1.mem_iff, e]
        simp
      by_cases hsw1 : passSwapped (· < ·) x seg = false
      · rw [if_pos hsw1]
        obtain ⟨e2, hs2⟩ := passList_not_swapped key (· < ·) hk seg x hsw1
        rw [e2]
        exact ⟨_, rfl, StablePerm.refl key _, hfinal _ hs2 (fun _ => Iff.rfl)⟩
      · rw [if_neg hsw1]
        -- a swap happened, so the segment has at least two elements
        obtain ⟨y, rseg, hrev⟩ : ∃ y rseg, init.reverse = y :: rseg := by
          cases hr : init.reverse with
          | nil =>
            exfalso
            have h0 : init = [] := by simpa using hr
            have h1 : seg = [] := by
              rw [h0] at hlen
              exact List.length_eq_zero.1 hlen.symm
            subst h1
            exact hsw1 rfl
          | cons y rseg => exact ⟨y, rseg, rfl⟩
        have hinit : init = rseg.reverse ++ [y] := by
          have := congrArg List.reverse hrev
          simpa using this
        have hlen2 : seg.length = rseg.length + 1 := by
          rw [← hlen, hinit]; simp
        have hne0 : ¬ lo.length + seg.length = 0 := by omega
        rw [if_neg hne0]
        have hbp := backward_pass_eq rseg ((lo ++ x :: seg ++ hi).length + 1) lo y (m :: hi)
          false (by simp; omega)
        simp only [Bool.false_or] at hbp
        have earr : lo ++ passList (· < ·) x seg ++ hi
            = lo ++ rseg.reverse ++ y :: m :: hi := by
          rw [e, hinit]; simp
        have eidx : lo.length + seg.length - 1 = lo.length + rseg.length := by omega
        rw [earr, eidx, hbp]
        simp only []
        -- the backward pass
        let key' : α → Kᵒᵈ := fun a => OrderDual.toDual (key a)
        have hk' : ∀ a b : α, (fun a b => b < a) a b ↔ key' a < key' b := by
          intro a b
          show b < a ↔ OrderDual.toDual (key a) < OrderDual.toDual (key b)
          rw [OrderDual.toDual_lt_toDual]
          exact hk b a
        obtain ⟨init2, m2, e3, hmin, -⟩ := passList_max key' (fun a b => b < a) hk' rseg y
        have hmin' : ∀ z ∈ init2, key m2 ≤ key z := fun z hz =>
          OrderDual.toDual_le_toDual.1 (hmin z hz)
        have hst2 := passList_stable key (fun a b => b < a)
          (fun a b h => (ne_of_lt ((hk b a).1 h)).symm) rseg y
        have hlen3 : init2.length = rseg.length := by
          have := passList_length (fun a b => b < a) rseg y
          rw [e3] at this
          simpa using this
        have hI : ∀ z, z ∈ init ↔ z ∈ init2 ∨ z = m2 := by
          intro z
          have := hst2.1.mem_iff (a := z)
          rw [e3] at this
          rw [hinit]
          simp only [List.mem_append, List.mem_reverse, List.mem_singleton, List.mem_cons]
            at this ⊢
          tauto
        have hrec := ih (lo ++ [m2]) init2.reverse (m :: hi)
          (passSwapped (fun a b => b < a) y rseg)
          (by simp at hf ⊢; omega)
          (by
            refine keySorted_append key hlo (List.pairwise_singleton _ _) ?_
            intro a ha b hb
            rw [List.mem_singleton] at hb
            subst hb
            exact hlow a ha b (List.mem_append_left _ ((hW b).2 (Or.inl ((hI b).2 (Or.inr rfl))))))
          (by
            refine List.pairwise_cons.2 ⟨?_, hhi⟩
            intro b hb
            exact hwhi m ((hW m).2 (Or.inr rfl)) b hb)
          (by
            intro a ha b hb
            have hb' : b ∈ init2 ∨ b = m ∨ b ∈ hi := by
              simpa [List.mem_append, or_assoc] using hb
            rcases List.mem_append.1 ha with ha | ha
            · apply hlow a ha b
              rcases hb' with h | h | h
              · exact List.mem_append_left _ ((hW b).2 (Or.inl ((hI b).2 (Or.inl h))))
              · exact List.mem_append_left _ ((hW b).2 (Or.inr h))
              · exact List.mem_append_right _ h
            · rw [List.mem_singleton] at ha
              subst ha
              rcases hb' with h | h | h
              · exact hmin' b h
              · rw [h]; exact hmax a ((hI a).2 (Or.inr rfl))
              · exact hwhi a ((hW a).2 (Or.inl ((hI a).2 (Or.inr rfl)))) b h)
          (by
            intro a ha b hb
            have ha' : a ∈ init2 := by simpa using ha
            rcases List.mem_cons.1 hb with h | h
            · rw [h]; exact hmax a ((hI a).2 (Or.inl ha'))
            · exact hwhi a ((hW a).2 (Or.inl ((hI a).2 (Or.inl ha')))) b h)
          (by
            intro hs
            obtain ⟨e4, hs4⟩ := passList_not_swapped key' (fun a b => b < a) hk' rseg y hs
            rw [e3] at e4
            rw [← e4] at hs4
            have h5 := (List.pairwise_append.1 hs4).1
            unfold KeySorted
            rw [List.pairwise_reverse]
            exact h5.imp (fun {_ _} h => OrderDual.toDual_le_toDual.1 h))
        obtain ⟨r, hr, hperm, hsorted⟩ := hrec
        have earr2 : lo ++ (passList (fun a b => b < a) y rseg).reverse ++ m :: hi
            = lo ++ [m2] ++ init2.reverse ++ m :: hi := by
          rw [e3]; simp
        have eidx2 : lo.length + seg.length
            = (lo ++ [m2]).length + init2.reverse.length := by
          simp; omega
        rw [earr2, eidx2]
        have eidx3 : lo.length + 1 = (lo ++ [m2]).length := by simp
        rw [eidx3, hr]
        refine ⟨r, rfl, ?_, hsorted⟩
        refine hperm.trans key ?_
        rw [← earr2]
        -- both passes are stable rearrangements of the working segment
        have s1 : StablePerm key (passList (fun a b => b < a) y rseg).reverse init := by
          have := StablePerm.reverse key hst2
          rw [← hrev] at this
          simpa using this
        have s2 : StablePerm key ((passList (fun a b => b < a) y rseg).reverse ++ [m])
            (x :: seg) := by
          have := StablePerm.append key s1 (StablePerm.refl key [m])
          rw [← e] at this
          exact this.trans key hst
        have s3 := StablePerm.append key
          (StablePerm.append key (StablePerm.refl key lo) s2) (StablePerm.refl key hi)
        simpa using s3
    · rw [if_neg hc]
      refine ⟨_, rfl, StablePerm.refl key _, ?_⟩
      have hw : KeySorted key work := by
        by_cases h0 : work.length = 0
        · rw [List.length_eq_zero] at h0
          subst h0
          exact List.Pairwise.nil
        · apply hsw
          by_contra hne
          exact hc ⟨by omega, by simpa using hne⟩
      exact hfinal work hw (fun _ => Iff.rfl)

/-- `cocktail_sort` over any element type whose `<` compares a totally ordered key:
it returns a key-sorted rearrangement that keeps equal keys in their original order. -/
theorem cocktail_sort_spec (hk : ∀ a b : α, a < b ↔ key a < key b) (a : List α) :
    ∃ r, cocktail_sort a = some r ∧ StablePerm key r a ∧ KeySorted key r := by
  have := cocktail_loop_spec key hk (a.length + 1) [] a [] true (by omega)
    List.Pairwise.nil List.Pairwise.nil (by simp) (by simp) (by simp)
  simpa [cocktail_sort] using this

end CocktailProofs
section GnomeProofs

variable [LT α] [DecidableRel ((· < ·) : α → α → Prop)]
variable {K : Type} [LinearOrder K] (key : α → K)

omit [LT α] [DecidableRel ((· < ·) : α → α → Prop)] in
theorem keySorted_insert_mid {a b : List α} {x : α} (h : KeySorted key (a ++ b))
    (ha : ∀ z ∈ a, key z ≤ key x) (hb : ∀ z ∈ b, key x ≤ key z) :
    KeySorted key (a ++ x :: b) := by
  unfold KeySorted at h ⊢
  rw [List.pairwise_append] at h ⊢
  refine ⟨h.1, List.pairwise_cons.2 ⟨hb, h.2.1⟩, ?_⟩
  intro u hu v hv
  rcases List.mem_cons.1 hv with rfl | hv
  · exact ha u hu
  · exact h.2.2 u hu v hv

/-- Loop invariant of `gnome_sort` while the element `x` at position `i` travels
backward: the sequence is `lo ++ w :: x :: hi ++ rest` with `i = |lo| + 1` and
`j = |lo| + 2 + |hi|`; without `x` the first `j` elements are sorted, and `x` is bounded
above by the elements of `hi` it has already passed. -/
theorem gnome_loop_spec (hk : ∀ a b : α, a < b ↔ key a < key b) (n fuel : Nat) :
    ∀ (lo : List α) (w x : α) (hi rest : List α),
      n = lo.length + 2 + hi.length + rest.length →
      lo.length + rest.length * n + 3 ≤ fuel →
      KeySorted key (lo ++ w :: hi) → (∀ h ∈ hi, key x ≤ key h) →
      ∃ r, gnome_loop fuel (lo ++ w :: x :: hi ++ rest) 0 (lo.length + 1)
          (lo.length + 2 + hi.length) n = some r ∧
        StablePerm key r (lo ++ w :: x :: hi ++ rest) ∧ KeySorted key r := by
  induction fuel with
  | zero => intro lo w x hi rest _ h; omega
  | succ fuel ih =>
    intro lo w x hi rest hn hf hsorted hx
    -- the jump `i = j; ++j` onto a sorted prefix `pre`
    have jump : ∀ (pre rest' : List α), n = pre.length + rest'.length → 2 ≤ pre.length →
        rest'.length * n + 1 ≤ fuel → KeySorted key pre →
        ∃ r, gnome_loop fuel (pre ++ rest') 0 pre.length (pre.length + 1) n = some r ∧
          StablePerm key r (pre ++ rest') ∧ KeySorted key r := by
      intro pre rest' hn' hpre hf' hs
      cases rest' with
      | nil =>
        cases fuel with
        | zero => omega
        | succ fuel =>
          unfold gnome_loop
          have : ¬ pre.length < n := by simp at hn'; omega
          rw [if_neg this]
          exact ⟨_, rfl, StablePerm.refl key _, by simpa using hs⟩
      | cons y ys =>
        obtain ⟨pre', v, rfl⟩ : ∃ pre' v, pre = pre' ++ [v] := by
          rcases List.eq_nil_or_concat pre with h | ⟨pre', v, h⟩
          · subst h; simp at hpre
          · exact ⟨pre', v, by simpa using h⟩
        have := ih pre' v y [] ys (by simp at hn' ⊢; omega)
          (by
            simp only [List.length_cons, List.length_append, List.length_singleton] at hf' hn' ⊢
            have : (ys.length + 1) * n = ys.length * n + n := by ring
            omega)
          (by simpa using hs) (by simp)
        simpa using this
    unfold gnome_loop
    have hlt : lo.length + 1 < n := by omega
    have hi0 : ¬ lo.length + 1 = 0 := by omega
    rw [if_pos hlt, if_neg hi0]
    have earr : lo ++ w :: x :: hi ++ rest = lo ++ w :: x :: (hi ++ rest) := by simp
    rw [earr, getElem?_mid_succ, Nat.add_sub_cancel, getElem?_mid]
    simp only []
    have hlow : ∀ z ∈ lo, key z ≤ key w := by
      intro z hz
      have := (List.pairwise_append.1 hsorted).2.2 z hz w (List.mem_cons_self _ _)
      exact this
    have hwhi : ∀ z ∈ hi, key w ≤ key z := by
      intro z hz
      exact (List.pairwise_cons.1 (List.pairwise_append.1 hsorted).2.1).1 z hz
    by_cases hxw : x < w
    · -- exchange with the predecessor
      rw [if_neg (not_not.2 hxw), iter_swap_adjacent]
      simp only []
      have hkx : key x < key w := (hk x w).1 hxw
      have hstep : StablePerm key (lo ++ x :: w :: (hi ++ rest)) (lo ++ w :: x :: (hi ++ rest)) :=
        StablePerm.append key (StablePerm.refl key lo)
          (StablePerm.swap key (ne_of_gt hkx) (hi ++ rest))
      by_cases hfirst : lo.length = 0
      · rw [if_pos hfirst]
        have hlo : lo = [] := List.length_eq_zero.1 hfirst
        subst hlo
        have hs' : KeySorted key (x :: w :: hi) := by
          have hwh : KeySorted key (w :: hi) := hsorted
          refine List.pairwise_cons.2 ⟨?_, hwh⟩
          intro z hz
          rcases List.mem_cons.1 hz with rfl | hz
          · exact le_of_lt hkx
          · exact hx z hz
        obtain ⟨r, hr, hp, hs⟩ := jump (x :: w :: hi) rest (by simp at hn ⊢; omega)
          (by simp) (by simp at hf; omega) hs'
        simp only [List.length_nil, Nat.zero_add, List.nil_append, List.length_cons,
          List.cons_append] at hr hp ⊢
        rw [show 2 + hi.length = hi.length + 1 + 1 by omega, hr]
        exact ⟨r, rfl, hp.trans key (by simpa using hstep), hs⟩
      · rw [if_neg hfirst]
        obtain ⟨lo', w', rfl⟩ : ∃ lo' w', lo = lo' ++ [w'] := by
          rcases List.eq_nil_or_concat lo with h | ⟨lo', w', h⟩
          · subst h; simp at hfirst
          · exact ⟨lo', w', by simpa using h⟩
        obtain ⟨r, hr, hp, hs⟩ := ih lo' w' x (w :: hi) rest
          (by simp at hn ⊢; omega) (by simp at hf ⊢; omega)
          (by simpa using hsorted)
          (by
            intro h hh
            rcases List.mem_cons.1 hh with rfl | hh
            · exact le_of_lt hkx
            · exact hx h hh)
        simp only [List.length_append, List.length_singleton, List.length_cons,
          List.append_assoc, List.singleton_append, List.cons_append, List.nil_append,
          List.length_nil, Nat.zero_add] at hr hp ⊢
        rw [show lo'.length + 1 + 2 + hi.length = lo'.length + 2 + (hi.length + 1) by omega, hr]
        refine ⟨r, rfl, hp.trans key ?_, hs⟩
        simpa using hstep
    · -- in order: the first `j` elements are sorted, jump
      rw [if_pos hxw]
      have hkx : key w ≤ key x := not_lt.1 (fun h => hxw ((hk x w).2 h))
      have hs' : KeySorted key (lo ++ w :: x :: hi) := by
        have h1 : KeySorted key ((lo ++ [w]) ++ hi) := by simpa using hsorted
        have h2 := keySorted_insert_mid key (x := x) h1
          (by
            intro z hz
            rcases List.mem_append.1 hz with hz | hz
            · exact le_trans (hlow z hz) hkx
            · rw [List.mem_singleton] at hz; rw [hz]; exact hkx)
          hx
        simpa using h2
      obtain ⟨r, hr, hp, hs⟩ := jump (lo ++ w :: x :: hi) rest (by simp at hn ⊢; omega)
        (by simp; omega) (by omega) hs'
      simp only [List.length_append, List.length_cons, List.append_assoc,
        List.cons_append] at hr hp ⊢
      rw [show lo.length + 2 + hi.length = lo.length + (hi.length + 1 + 1) by omega, hr]
      exact ⟨r, rfl, hp, hs⟩

/-- `gnome_sort` over any element type whose `<` compares a totally ordered key:
it returns a key-sorted rearrangement that keeps equal keys in their original order. -/
theorem gnome_sort_spec (hk : ∀ a b : α, a < b ↔ key a < key b) (a : List α) :
    ∃ r, gnome_sort a = some r ∧ StablePerm key r a ∧ KeySorted key r := by
  unfold gnome_sort
  match a with
  | [] => exact ⟨[], by simp [gnome_loop], StablePerm.refl key _, List.Pairwise.nil⟩
  | [x] => exact ⟨[x], by simp [gnome_loop], StablePerm.refl key _, List.pairwise_singleton _ _⟩
  | w :: x :: rest =>
    have := gnome_loop_spec key hk (rest.length + 2)
      ((w :: x :: rest).length * (w :: x :: rest).length + 1) [] w x [] rest
      (by simp; omega)
      (by
        simp only [List.length_cons, List.length_nil]
        have : (rest.length + 1 + 1) * (rest.length + 1 + 1)
            = rest.length * (rest.length + 2) + 2 * rest.length + 4 := by ring
        omega)
      (List.pairwise_singleton _ _) (by simp)
    simpa using this

end GnomeProofs

section MergeProofs

variable [LT α] [DecidableRel ((· < ·) : α → α → Prop)]
variable {K : Type} [LinearOrder K] (key : α → K)

theorem inplace_merge_nil_left (ys : List α) : inplace_merge [] ys = ys := rfl

theorem inplace_merge_nil_right (xs : List α) : inplace_merge xs [] = xs := by
  cases xs <;> rfl

theorem inplace_merge_cons_cons (x y : α) (xs ys : List α) :
    inplace_merge (x :: xs) (y :: ys)
      = if y < x then y :: inplace_merge (x :: xs) ys else x :: inplace_merge xs (y :: ys) := by
  rfl

omit [LT α] [DecidableRel ((· < ·) : α → α → Prop)] in
/-- Moving an element in front of a block none of whose keys equals its own keeps the
order within every key class. -/
theorem StablePerm.move {y : α} {l : List α} (h : ∀ z ∈ l, key z ≠ key y) (t : List α) :
    StablePerm key (y :: (l ++ t)) (l ++ y :: t) := by
  refine ⟨List.perm_middle.symm, fun k => ?_⟩
  by_cases hy : key y = k
  · have hl : l.filter (fun x => decide (key x = k)) = [] := by
      rw [List.filter_eq_nil_iff]
      intro z hz
      have := h z hz
      simpa [← hy] using this
    simp [List.filter_cons, List.filter_append, hy, hl]
  · simp [List.filter_cons, List.filter_append, hy]

/-- The merge of two key-sorted lists is key-sorted and keeps, within every key class, the
elements of the first list before those of the second. -/
theorem inplace_merge_spec (hk : ∀ a b : α, a < b ↔ key a < key b) :
    ∀ (l r : List α), KeySorted key l → KeySorted key r →
      StablePerm key (inplace_merge l r) (l ++ r) ∧ KeySorted key (inplace_merge l r) := by
  intro l
  induction l with
  | nil =>
    intro r _ hr
    exact ⟨StablePerm.refl key _, hr⟩
  | cons x xs ihl =>
    intro r
    induction r with
    | nil =>
      intro hl _
      rw [inplace_merge_nil_right]
      exact ⟨by simpa using StablePerm.refl key (x :: xs), hl⟩
    | cons y ys ihr =>
      intro hl hr
      rw [inplace_merge_cons_cons]
      have hxs := List.pairwise_cons.1 hl
      have hys := List.pairwise_cons.1 hr
      by_cases hyx : y < x
      · rw [if_pos hyx]
        have hkyx : key y < key x := (hk y x).1 hyx
        obtain ⟨hp, hs⟩ := ihr hl hys.2
        refine ⟨?_, ?_⟩
        · refine (StablePerm.cons key y hp).trans key ?_
          refine StablePerm.move key ?_ ys
          intro z hz
          rcases List.mem_cons.1 hz with rfl | hz
          · exact ne_of_gt hkyx
          · exact ne_of_gt (lt_of_lt_of_le hkyx (hxs.1 z hz))
        · refine List.pairwise_cons.2 ⟨?_, hs⟩
          intro z hz
          have hz' : z ∈ x :: xs ++ ys := hp.1.subset hz
          rcases List.mem_append.1 hz' with h | h
          · rcases List.mem_cons.1 h with rfl | h
            · exact le_of_lt hkyx
            · exact le_of_lt (lt_of_lt_of_le hkyx (hxs.1 z h))
          · exact hys.1 z h
      · rw [if_neg hyx]
        have hkxy : key x ≤ key y := not_lt.1 (fun h => hyx ((hk y x).2 h))
        obtain ⟨hp, hs⟩ := ihl (y :: ys) hxs.2 hr
        refine ⟨StablePerm.cons key x hp, ?_⟩
        refine List.pairwise_cons.2 ⟨?_, hs⟩
        intro z hz
        have hz' : z ∈ xs ++ y :: ys := hp.1.subset hz
        rcases List.mem_append.1 hz' with h | h
        · exact hxs.1 z h
        · rcases List.mem_cons.1 h with rfl | h
          · exact hkxy
          · exact le_trans hkxy (hys.1 z h)

/-- With enough fuel `merge_sort_go` returns a stable key-sorted rearrangement. -/
theorem merge_sort_go_spec (hk : ∀ a b : α, a < b ↔ key a < key b) (fuel : Nat) :
    ∀ l : List α, l.length < fuel →
      ∃ r, merge_sort_go fuel l = some r ∧ StablePerm key r l ∧ KeySorted key r := by
  induction fuel with
  | zero => intro l h; omega
  | succ fuel ih =>
    intro l hf
    unfold merge_sort_go
    by_cases hlen : 1 < l.length
    · rw [if_pos hlen]
      have h2 : 0 < l.length / 2 := Nat.div_pos hlen (by decide)
      have h3 : l.length / 2 < l.length := Nat.div_lt_self (by omega) (by decide)
      obtain ⟨lo, hlo, hlop, hlos⟩ := ih (l.take (l.length / 2)) (by
        rw [List.length_take]; omega)
      obtain ⟨hi, hhi, hhip, hhis⟩ := ih (l.drop (l.length / 2)) (by
        rw [List.length_drop]; omega)
      simp only [hlo, hhi]
      obtain ⟨hp, hs⟩ := inplace_merge_spec key hk lo hi hlos hhis
      refine ⟨_, rfl, ?_, hs⟩
      have := hp.trans key (StablePerm.append key hlop hhip)
      rwa [List.take_append_drop] at this
    · rw [if_neg hlen]
      refine ⟨l, rfl, StablePerm.refl key l, ?_⟩
      match l, hlen with
      | [], _ => exact List.Pairwise.nil
      | [x], _ => exact List.pairwise_singleton _ _
      | _ :: _ :: _, h => simp at h

/-- `merge_sort` over any element type whose `<` compares a totally ordered key:
it returns a key-sorted rearrangement that keeps equal keys in their original order. -/
theorem merge_sort_spec (hk : ∀ a b : α, a < b ↔ key a < key b) (a : List α) :
    ∃ r, merge_sort a = some r ∧ StablePerm key r a ∧ KeySorted key r :=
  merge_sort_go_spec key hk (a.length + 1) a (by omega)

end MergeProofs

section InsertionProofs

variable [LT α] [DecidableRel ((· < ·) : α → α → Prop)]
variable {K : Type} [LinearOrder K] (key : α → K)

omit [LT α] [DecidableRel ((· < ·) : α → α → Prop)] in
theorem split_at_half (seg : List α) (h : seg ≠ []) :
    ∃ sA v sB, seg = sA ++ v :: sB ∧ sA.length = seg.length / 2 := by
  have hpos : 0 < seg.length := List.length_pos.2 h
  have hlt : seg.length / 2 < seg.length := Nat.div_lt_self hpos (by decide)
  refine ⟨seg.take (seg.length / 2), seg[seg.length / 2], seg.drop (seg.length / 2 + 1), ?_, ?_⟩
  · rw [← List.drop_eq_getElem_cons hlt, List.take_append_drop]
  · rw [List.length_take]; omega

/-- The binary search of `std::upper_bound` on a key-sorted segment returns the position
that splits it into the elements not greater than `value` and the elements greater. -/
theorem upper_bound_loop_spec (hk : ∀ a b : α, a < b ↔ key a < key b) (value : α)
    (fuel : Nat) :
    ∀ (pre seg post : List α), seg.length < fuel → KeySorted key seg →
      ∃ s1 s2, seg = s1 ++ s2 ∧
        upper_bound_loop fuel (pre ++ seg ++ post) pre.length seg.length value
          = some (pre.length + s1.length) ∧
        (∀ z ∈ s1, key z ≤ key value) ∧ (∀ z ∈ s2, key value < key z) := by
  induction fuel with
  | zero => intro pre seg post h; omega
  | succ fuel ih =>
    intro pre seg post hf hs
    unfold upper_bound_loop
    by_cases hseg : seg = []
    · subst hseg
      exact ⟨[], [], rfl, by simp, by simp, by simp⟩
    · obtain ⟨sA, v, sB, rfl, hstep⟩ := split_at_half seg hseg
      have hpos : 0 < (sA ++ v :: sB).length := by simp
      rw [if_pos hpos]
      simp only []
      rw [← hstep]
      have earr : pre ++ (sA ++ v :: sB) ++ post = (pre ++ sA) ++ v :: (sB ++ post) := by simp
      have eidx : pre.length + sA.length = (pre ++ sA).length := by simp
      rw [earr, eidx, getElem?_mid]
      simp only []
      have hsA : KeySorted key sA := (List.pairwise_append.1 hs).1
      have hsB : KeySorted key sB :=
        (List.pairwise_cons.1 (List.pairwise_append.1 hs).2.1).2
      have hAv : ∀ z ∈ sA, key z ≤ key v := fun z hz =>
        (List.pairwise_append.1 hs).2.2 z hz v (List.mem_cons_self _ _)
      have hvB : ∀ z ∈ sB, key v ≤ key z := fun z hz =>
        (List.pairwise_cons.1 (List.pairwise_append.1 hs).2.1).1 z hz
      by_cases hv : value < v
      · have hl : less value v = true := by simp [less, hv]
        rw [if_neg (not_not.2 hl)]
        obtain ⟨s1, s2, e, hr, h1, h2⟩ := ih pre sA (v :: sB ++ post)
          (by simp at hf; omega) hsA
        have earr2 : pre ++ sA ++ v :: (sB ++ post) = pre ++ sA ++ (v :: sB ++ post) := by simp
        rw [earr2, hr]
        refine ⟨s1, s2 ++ v :: sB, by rw [e]; simp, rfl, h1, ?_⟩
        have hkv : key value < key v := (hk _ _).1 hv
        intro z hz
        rcases List.mem_append.1 hz with h | h
        · exact h2 z h
        · rcases List.mem_cons.1 h with rfl | h
          · exact hkv
          · exact lt_of_lt_of_le hkv (hvB z h)
      · have hl : ¬ less value v = true := by simp [less, hv]
        rw [if_pos hl]
        obtain ⟨s1, s2, e, hr, h1, h2⟩ := ih (pre ++ sA ++ [v]) sB post
          (by simp at hf; omega) hsB
        have earr2 : pre ++ sA ++ v :: (sB ++ post) = pre ++ sA ++ [v] ++ sB ++ post := by simp
        have eidx2 : (pre ++ sA).length + 1 = (pre ++ sA ++ [v]).length := by
          simp only [List.length_append, List.length_singleton]
        have ecnt : (sA ++ v :: sB).length - (sA.length + 1) = sB.length := by
          simp only [List.length_append, List.length_cons]; omega
        rw [earr2, eidx2, ecnt, hr]
        refine ⟨sA ++ v :: s1, s2, by rw [e]; simp, ?_, ?_, h2⟩
        · simp only [List.length_append, List.length_cons, List.length_singleton,
            List.length_nil]
          congr 1; omega
        · have hkv : key v ≤ key value := not_lt.1 (fun h => hv ((hk _ _).2 h))
          intro z hz
          rcases List.mem_append.1 hz with h | h
          · exact le_trans (hAv z h) hkv
          · rcases List.mem_cons.1 h with rfl | h
            · exact hkv
            · exact h1 z h

omit [LT α] [DecidableRel ((· < ·) : α → α → Prop)] in
theorem rotate_insert (s1 s2 : List α) (v : α) (rest : List α) :
    rotate (s1 ++ s2 ++ v :: rest) s1.length (s1.length + s2.length)
        (s1.length + s2.length + 1)
      = some (s1 ++ v :: s2 ++ rest) := by
  unfold rotate
  have hc : s1.length ≤ s1.length + s2.length ∧
      s1.length + s2.length ≤ s1.length + s2.length + 1 ∧
      s1.length + s2.length + 1 ≤ (s1 ++ s2 ++ v :: rest).length := by
    simp; omega
  rw [if_pos hc]
  have e1 : (s1 ++ s2 ++ v :: rest).take s1.length = s1 := by
    rw [List.append_assoc, List.take_left']
    rfl
  have e2 : (s1 ++ s2 ++ v :: rest).drop (s1.length + s2.length) = v :: rest := by
    rw [List.drop_left']
    simp
  have e3 : (s1 ++ s2 ++ v :: rest).drop s1.length = s2 ++ v :: rest := by
    rw [List.append_assoc, List.drop_left']
    rfl
  have e4 : (s1 ++ s2 ++ v :: rest).drop (s1.length + s2.length + 1) = rest := by
    have : s1 ++ s2 ++ v :: rest = (s1 ++ s2 ++ [v]) ++ rest := by simp
    rw [this, List.drop_left']
    simp only [List.length_append, List.length_singleton]
  rw [e1, e2, e3, e4]
  have e5 : (s2 ++ v :: rest).take (s1.length + s2.length - s1.length) = s2 := by
    rw [Nat.add_sub_cancel_left, List.take_left']
    rfl
  have e6 : (v :: rest).take (s1.length + s2.length + 1 - (s1.length + s2.length)) = [v] := by
    rw [Nat.add_sub_cancel_left]
    rfl
  rw [e5, e6]
  simp

/-- Loop invariant of `insertion_sort`: the sequence is `pre ++ rest` with `i = |pre|`,
and `pre` is key-sorted. -/
theorem insertion_loop_spec (hk : ∀ a b : α, a < b ↔ key a < key b) (fuel : Nat) :
    ∀ (pre rest : List α), rest.length < fuel → KeySorted key pre →
      ∃ r, insertion_loop fuel (pre ++ rest) 0 pre.length (pre.length + rest.length) = some r ∧
        StablePerm key r (pre ++ rest) ∧ KeySorted key r := by
  induction fuel with
  | zero => intro pre rest h; omega
  | succ fuel ih =>
    intro pre rest hf hs
    unfold insertion_loop
    cases rest with
    | nil =>
      simp only [List.length_nil, Nat.add_zero, ne_eq, not_true_eq_false, if_false]
      exact ⟨_, rfl, StablePerm.refl key _, by simpa using hs⟩
    | cons v rest =>
      have hne : pre.length ≠ pre.length + (v :: rest).length := by simp
      rw [if_pos hne, getElem?_mid]
      simp only []
      obtain ⟨s1, s2, e, hub, h1, h2⟩ :=
        upper_bound_loop_spec key hk v (pre.length + 1) [] pre (v :: rest) (by omega) hs
      simp only [List.nil_append, List.length_nil, Nat.zero_add] at hub
      unfold upper_bound
      rw [Nat.sub_zero, hub]
      simp only []
      subst e
      have := rotate_insert s1 s2 v rest
      rw [List.length_append, this]
      simp only []
      have hs' : KeySorted key (s1 ++ v :: s2) :=
        keySorted_insert_mid key hs h1 (fun z hz => le_of_lt (h2 z hz))
      obtain ⟨r, hr, hp, hsr⟩ := ih (s1 ++ v :: s2) rest (by simp at hf; omega) hs'
      have eidx : s1.length + s2.length + 1 = (s1 ++ v :: s2).length := by simp; omega
      have eidx2 : s1.length + s2.length + (v :: rest).length
          = (s1 ++ v :: s2).length + rest.length := by simp; omega
      rw [eidx, eidx2, hr]
      refine ⟨r, rfl, hp.trans key ?_, hsr⟩
      have hm := StablePerm.move key (y := v) (l := s2)
        (fun z hz => ne_of_gt (h2 z hz)) rest
      have := StablePerm.append key (StablePerm.refl key s1) hm
      simpa using this

/-- `insertion_sort` over any element type whose `<` compares a totally ordered key:
it returns a key-sorted rearrangement that keeps equal keys in their original order. -/
theorem insertion_sort_spec (hk : ∀ a b : α, a < b ↔ key a < key b) (a : List α) :
    ∃ r, insertion_sort a = some r ∧ StablePerm key r a ∧ KeySorted key r := by
  have := insertion_loop_spec key hk (a.length + 1) [] a (by omega) List.Pairwise.nil
  simpa [insertion_sort] using this

end InsertionProofs

section StableClaims

/-- For a totally ordered element type compared directly (the key is the element itself),
a stable key-sorted rearrangement is a non-decreasing permutation. -/
theorem sorted_perm_of_stable [LinearOrder α] {r l : List α}
    (h : StablePerm (fun x : α => x) r l ∧ KeySorted (fun x : α => x) r) :
    r.Perm l ∧ r.Sorted (· ≤ ·) ∧ List.Chain' (fun x y => ¬ y < x) r := by
  have hs : r.Sorted (· ≤ ·) := h.2
  exact ⟨h.1.1, hs, (List.chain'_iff_pairwise.2 hs).imp (fun {_ _} hxy => not_lt.2 hxy)⟩

/-- A stable rearrangement has the equal-key order property. -/
theorem keepsEqualKeyOrder_of_stable {K T : Type} [DecidableEq K] {r l : List (Tagged K T)}
    (h : StablePerm Tagged.key r l) : KeepsEqualKeyOrder r l := by
  refine ⟨h.2, ?_⟩
  intro x y hxy hsub
  have h1 := hsub.filter (fun z => decide (z.key = x.key))
  have h2 : [x, y].filter (fun z => decide (z.key = x.key)) = [x, y] := by
    simp [List.filter_cons, hxy]
  rw [h2, h.2 x.key] at h1
  exact h1.trans (List.filter_sublist l)

/-- Claim C2.  For every finite sequence over a totally ordered element type (the empty
and the one-element sequence included), `gnome_sort` with its resume-point bookkeeping
(`i = j; ++j` both when the current element is not less than its predecessor and when a
backward exchange reaches `first`) returns, and leaves a non-decreasing permutation of
the input. -/
theorem gnome_sort_sorted_perm [LinearOrder α] (l : List α) :
    ∃ r, gnome_sort l = some r ∧ r.Perm l ∧ r.Sorted (· ≤ ·) ∧
      List.Chain' (fun x y => ¬ y < x) r := by
  obtain ⟨r, h, hp, hs⟩ := gnome_sort_spec (fun x : α => x) (fun _ _ => Iff.rfl) l
  exact ⟨r, h, sorted_perm_of_stable ⟨hp, hs⟩⟩

/-- Claim C3.  For every finite sequence over a totally ordered element type,
`cocktail_sort` returns and leaves a non-decreasing permutation of the input; the exits
taken when a forward pass made no exchange or the narrowed range became empty leave no
out-of-order pair. -/
theorem cocktail_sort_sorted_perm [LinearOrder α] (l : List α) :
    ∃ r, cocktail_sort l = some r ∧ r.Perm l ∧ r.Sorted (· ≤ ·) ∧
      List.Chain' (fun x y => ¬ y < x) r := by
  obtain ⟨r, h, hp, hs⟩ := cocktail_sort_spec (fun x : α => x) (fun _ _ => Iff.rfl) l
  exact ⟨r, h, sorted_perm_of_stable ⟨hp, hs⟩⟩

/-- Claim C4.  For every finite sequence over a totally ordered element type,
`bubble_sort` returns and leaves a non-decreasing permutation of the input; neither the
early exit after a pass without exchange nor the shrinking of the right boundary leaves
an out-of-order pair. -/
theorem bubble_sort_sorted_perm [LinearOrder α] (l : List α) :
    ∃ r, bubble_sort l = some r ∧ r.Perm l ∧ r.Sorted (· ≤ ·) ∧
      List.Chain' (fun x y => ¬ y < x) r := by
  obtain ⟨r, h, hp, hs⟩ := bubble_sort_spec (fun x : α => x) (fun _ _ => Iff.rfl) l
  exact ⟨r, h, sorted_perm_of_stable ⟨hp, hs⟩⟩

/-- Claim C5.  For every finite sequence over a totally ordered element type, both
`insertion_sort` (upper-bound search in the sorted prefix, then rotate) and `merge_sort`
(halving at `first + (last - first) / 2`, then in-place merge) return and leave a
non-decreasing permutation of the input. -/
theorem insertion_merge_sort_sorted_perm [LinearOrder α] (l : List α) :
    (∃ r, insertion_sort l = some r ∧ r.Perm l ∧ r.Sorted (· ≤ ·) ∧
      List.Chain' (fun x y => ¬ y < x) r) ∧
    (∃ r, merge_sort l = some r ∧ r.Perm l ∧ r.Sorted (· ≤ ·) ∧
      List.Chain' (fun x y => ¬ y < x) r) := by
  obtain ⟨r, h, hp, hs⟩ := insertion_sort_spec (fun x : α => x) (fun _ _ => Iff.rfl) l
  obtain ⟨r', h', hp', hs'⟩ := merge_sort_spec (fun x : α => x) (fun _ _ => Iff.rfl) l
  exact ⟨⟨r, h, sorted_perm_of_stable ⟨hp, hs⟩⟩, ⟨r', h', sorted_perm_of_stable ⟨hp', hs'⟩⟩⟩

/-- Claim C8.  Stability of the adjacent-exchange sorts.  On a sequence of (key, tag)
elements compared by key only, each of `bubble_sort`, `cocktail_sort` and `gnome_sort`
returns an output in which, for every key, the elements carrying that key form the same
sequence as in the input; hence two elements with equal keys that appear in some order
in the output appear in that order in the input. -/
theorem adjacent_swap_sorts_stable {K T : Type} [LinearOrder K] (l : List (Tagged K T)) :
    (∃ r, bubble_sort l = some r ∧ KeepsEqualKeyOrder r l) ∧
    (∃ r, cocktail_sort l = some r ∧ KeepsEqualKeyOrder r l) ∧
    (∃ r, gnome_sort l = some r ∧ KeepsEqualKeyOrder r l) := by
  obtain ⟨r1, h1, hp1, -⟩ := bubble_sort_spec Tagged.key (fun _ _ => Iff.rfl) l
  obtain ⟨r2, h2, hp2, -⟩ := cocktail_sort_spec Tagged.key (fun _ _ => Iff.rfl) l
  obtain ⟨r3, h3, hp3, -⟩ := gnome_sort_spec Tagged.key (fun _ _ => Iff.rfl) l
  exact ⟨⟨r1, h1, keepsEqualKeyOrder_of_stable hp1⟩, ⟨r2, h2, keepsEqualKeyOrder_of_stable hp2⟩,
    ⟨r3, h3, keepsEqualKeyOrder_of_stable hp3⟩⟩

/-- Claim C9.  Stability of `insertion_sort` and `merge_sort`.  On a sequence of
(key, tag) elements compared by key only, `insertion_sort` (inserting at the upper bound
of the sorted prefix) and `merge_sort` (whose merge takes equal elements from the left
half first) return an output in which, for every key, the elements carrying that key form
the same sequence as in the input; hence two elements with equal keys that appear in some
order in the output appear in that order in the input. -/
theorem insertion_merge_sorts_stable {K T : Type} [LinearOrder K] (l : List (Tagged K T)) :
    (∃ r, insertion_sort l = some r ∧ KeepsEqualKeyOrder r l) ∧
    (∃ r, merge_sort l = some r ∧ KeepsEqualKeyOrder r l) := by
  obtain ⟨r1, h1, hp1, -⟩ := insertion_sort_spec Tagged.key (fun _ _ => Iff.rfl) l
  obtain ⟨r2, h2, hp2, -⟩ := merge_sort_spec Tagged.key (fun _ _ => Iff.rfl) l
  exact ⟨⟨r1, h1, keepsEqualKeyOrder_of_stable hp1⟩, ⟨r2, h2, keepsEqualKeyOrder_of_stable hp2⟩⟩

end StableClaims

section SwapLemmas

theorem getElem?_some_of_lt {a : List α} {i : Nat} (h : i < a.length) :
    ∃ x, a[i]? = some x :=
  ⟨a[i], List.getElem?_eq_getElem h⟩

theorem lt_length_of_getElem? {a : List α} {i : Nat} {x : α} (h : a[i]? = some x) :
    i < a.length := by
  by_contra hc
  rw [List.getElem?_eq_none (by omega)] at h
  exact Option.noConfusion h

theorem iter_swap_eq {a : List α} {i j : Nat} {x y : α} (hx : a[i]? = some x)
    (hy : a[j]? = some y) : iter_swap a i j = some ((a.set i y).set j x) := by
  unfold iter_swap
  rw [hx, hy]

theorem iter_swap_inv {a a' : List α} {i j : Nat} (h : iter_swap a i j = some a') :
    ∃ x y, a[i]? = some x ∧ a[j]? = some y ∧ a' = (a.set i y).set j x := by
  unfold iter_swap at h
  cases hx : a[i]? with
  | none => rw [hx] at h; exact Option.noConfusion h
  | some x =>
    cases hy : a[j]? with
    | none => rw [hx, hy] at h; exact Option.noConfusion h
    | some y =>
      rw [hx, hy] at h
      exact ⟨x, y, rfl, rfl, (Option.some.inj h).symm⟩

theorem iter_swap_length {a a' : List α} {i j : Nat} (h : iter_swap a i j = some a') :
    a'.length = a.length := by
  obtain ⟨x, y, -, -, rfl⟩ := iter_swap_inv h
  simp

/-- After `iter_swap(i, j)` position `j` holds the old `a[i]`, position `i` the old `a[j]`,
and every other position is unchanged. -/
theorem iter_swap_getElem? {a a' : List α} {i j : Nat} (h : iter_swap a i j = some a')
    (q : Nat) : a'[q]? = if q = j then a[i]? else if q = i then a[j]? else a[q]? := by
  obtain ⟨x, y, hx, hy, rfl⟩ := iter_swap_inv h
  have hi := lt_length_of_getElem? hx
  have hj := lt_length_of_getElem? hy
  rw [List.getElem?_set, List.getElem?_set]
  by_cases h1 : q = j
  · subst h1
    simp [hj, hx]
  · by_cases h2 : q = i
    · subst h2
      simp [h1, hi, hy, Ne.symm h1]
    · simp [h1, h2, Ne.symm h1, Ne.symm h2]

theorem iter_swap_perm {a a' : List α} {i j : Nat} (h : iter_swap a i j = some a') :
    a'.Perm a := by
  classical
  obtain ⟨x, y, hx, hy, rfl⟩ := iter_swap_inv h
  have hi := lt_length_of_getElem? hx
  have hj := lt_length_of_getElem? hy
  have hxi : a[i] = x := by
    rw [List.getElem?_eq_getElem hi] at hx; exact Option.some.inj hx
  have hyj : a[j] = y := by
    rw [List.getElem?_eq_getElem hj] at hy; exact Option.some.inj hy
  rw [List.perm_iff_count]
  intro c
  have hj' : j < (a.set i y).length := by simpa using hj
  rw [List.count_set _ _ _ _ hj', List.count_set _ _ _ _ hi, List.getElem_set, hxi, hyj]
  have hxc : (if (x == c) = true then 1 else 0) ≤ a.count c := by
    split_ifs with hc
    · have : x = c := by simpa using hc
      subst this
      exact List.count_pos_iff.2 (List.getElem?_mem hx)
    · exact Nat.zero_le _
  by_cases hij : i = j
  · subst hij
    have : x = y := by rw [← hxi, ← hyj]
    subst this
    simp only [if_true]
    omega
  · simp only [hij, if_false]
    omega

end SwapLemmas

section SelectionProofs

variable [LinearOrder α]

/-- The scan of `std::min_element` keeps `smallest` at a minimum of the visited part
`[lo, first)` and ends at a minimum of `[lo, last)`. -/
theorem min_element_loop_spec (a : List α) (lo last : Nat) (hlast : last ≤ a.length)
    (fuel : Nat) :
    ∀ (s f : Nat), lo ≤ s → s < f → f ≤ last → last - f < fuel →
      (∀ (q : Nat) (x sv : α), lo ≤ q → q < f → a[q]? = some x → a[s]? = some sv → sv ≤ x) →
      ∃ m, min_element_loop fuel a s f last = some m ∧ lo ≤ m ∧ m < last ∧
        ∀ (q : Nat) (x mv : α), lo ≤ q → q < last → a[q]? = some x → a[m]? = some mv → mv ≤ x := by
  induction fuel with
  | zero => intro s f _ _ _ h; omega
  | succ fuel ih =>
    intro s f hs hsf hfl hfuel hmin
    unfold min_element_loop
    by_cases hne : f ≠ last
    · rw [if_pos hne]
      obtain ⟨x, hx⟩ := getElem?_some_of_lt (a := a) (i := f) (by omega)
      obtain ⟨sv, hsv⟩ := getElem?_some_of_lt (a := a) (i := s) (by omega)
      rw [hx, hsv]
      simp only []
      by_cases hlt : x < sv
      · rw [if_pos hlt]
        apply ih f (f + 1) (by omega) (by omega) (by omega) (by omega)
        intro q z fv hq1 hq2 hz hfv
        have : fv = x := Option.some.inj (hfv.symm.trans hx)
        subst this
        by_cases hqf : q = f
        · subst hqf
          have : z = fv := Option.some.inj (hz.symm.trans hx)
          rw [this]
        · exact le_trans (le_of_lt hlt) (hmin q z sv hq1 (by omega) hz hsv)
      · rw [if_neg hlt]
        apply ih s (f + 1) hs (by omega) (by omega) (by omega)
        intro q z sv' hq1 hq2 hz hsv'
        have : sv' = sv := Option.some.inj (hsv'.symm.trans hsv)
        subst this
        by_cases hqf : q = f
        · subst hqf
          have : z = x := Option.some.inj (hz.symm.trans hx)
          rw [this]
          exact not_lt.1 hlt
        · exact hmin q z sv' hq1 (by omega) hz hsv
    · rw [if_neg hne]
      have : f = last := not_not.1 hne
      subst this
      exact ⟨s, rfl, hs, hsf, hmin⟩

theorem min_element_spec (a : List α) (i last : Nat) (hlast : last ≤ a.length)
    (hi : i < last) :
    ∃ m, min_element a i last = some m ∧ i ≤ m ∧ m < last ∧
      ∀ (q : Nat) (x mv : α), i ≤ q → q < last → a[q]? = some x → a[m]? = some mv → mv ≤ x := by
  unfold min_element
  rw [if_neg (by omega)]
  apply min_element_loop_spec a i last hlast _ i (i + 1) (le_refl _) (by omega) (by omega)
    (by omega)
  intro q x sv hq1 hq2 hx hsv
  have : q = i := by omega
  subst this
  have : x = sv := Option.some.inj (hx.symm.trans hsv)
  rw [this]

/-- Loop invariant of `selection_sort`: every element before position `i` is not greater
than any element at a later position. -/
theorem selection_loop_spec (n fuel : Nat) :
    ∀ (a : List α) (i : Nat), a.length = n → i ≤ n → n - i < fuel →
      (∀ (p q : Nat) (x y : α), p < i → p < q → a[p]? = some x → a[q]? = some y → x ≤ y) →
      ∃ r, selection_loop fuel a i n = some r ∧ r.Perm a ∧
        ∀ (p q : Nat) (x y : α), p < q → r[p]? = some x → r[q]? = some y → x ≤ y := by
  induction fuel with
  | zero => intro a i _ _ h; omega
  | succ fuel ih =>
    intro a i hlen hin hfuel hinv
    unfold selection_loop
    by_cases hne : i ≠ n
    · rw [if_pos hne]
      obtain ⟨m, hm, hm1, hm2, hmin⟩ := min_element_spec a i n (by omega) (by omega)
      rw [hm]
      simp only []
      obtain ⟨x, hx⟩ := getElem?_some_of_lt (a := a) (i := i) (by omega)
      obtain ⟨mv, hmv⟩ := getElem?_some_of_lt (a := a) (i := m) (by omega)
      have hsw := iter_swap_eq hx hmv
      rw [hsw]
      simp only []
      have hget := iter_swap_getElem? hsw
      obtain ⟨r, hr, hperm, hsorted⟩ := ih ((a.set i mv).set m x) (i + 1)
        (by simpa using hlen) (by omega) (by omega)
        (by
          intro p q u v hp hpq hu hv
          rw [hget] at hu hv
          have hq : q < n := by
            have := lt_length_of_getElem? (a := (a.set i mv).set m x) (i := q)
              (by rw [hget]; exact hv)
            simpa [hlen] using this
          -- the source position `q'` of the element now at `q`
          have hv' : ∃ q', q' < n ∧ (p < i → p < q') ∧ (p = i → i ≤ q') ∧ a[q']? = some v := by
            by_cases h1 : q = m
            · rw [if_pos h1] at hv
              exact ⟨i, by omega, fun h => h, fun _ => le_refl _, hv⟩
            · rw [if_neg h1] at hv
              by_cases h2 : q = i
              · rw [if_pos h2] at hv
                exact ⟨m, hm2, fun h => by omega, fun _ => hm1, hv⟩
              · rw [if_neg h2] at hv
                exact ⟨q, hq, fun _ => hpq, fun h => by omega, hv⟩
          obtain ⟨q', hq2, hq3, hq1, hq4⟩ := hv'
          by_cases hpi : p = i
          · -- position `i` now holds the minimum of `[i, n)`
            have hu' : a[m]? = some u := by
              by_cases h1 : p = m
              · rw [if_pos h1] at hu
                rw [← h1, hpi]; exact hu
              · rw [if_neg h1, if_pos hpi] at hu
                exact hu
            exact hmin q' v u (hq1 hpi) hq2 hq4 hu'
          · have hp' : p < i := by omega
            have hu' : a[p]? = some u := by
              rw [if_neg (by omega), if_neg hpi] at hu
              exact hu
            exact hinv p q' u v hp' (hq3 hp') hu' hq4)
      exact ⟨r, hr, hperm.trans (iter_swap_perm hsw), hsorted⟩
    · rw [if_neg hne]
      have : i = n := not_not.1 hne
      subst this
      refine ⟨a, rfl, List.Perm.refl _, ?_⟩
      intro p q x y hpq hx hy
      have := lt_length_of_getElem? hy
      exact hinv p q x y (by omega) hpq hx hy

/-- A list whose entries are ordered along increasing positions is sorted. -/
theorem sorted_of_getElem? {r : List α}
    (h : ∀ (p q : Nat) (x y : α), p < q → r[p]? = some x → r[q]? = some y → x ≤ y) :
    r.Sorted (· ≤ ·) := by
  rw [List.Sorted, List.pairwise_iff_getElem]
  intro i j hi hj hij
  exact h i j _ _ hij (List.getElem?_eq_getElem hi) (List.getElem?_eq_getElem hj)

theorem selection_sort_spec (l : List α) :
    ∃ r, selection_sort l = some r ∧ r.Perm l ∧ r.Sorted (· ≤ ·) := by
  obtain ⟨r, hr, hp, hs⟩ := selection_loop_spec l.length (l.length + 1) l 0 rfl
    (Nat.zero_le _) (by omega) (by intro p q x y hp; omega)
  exact ⟨r, hr, hp, sorted_of_getElem? hs⟩

end SelectionProofs

section HeapProofs

variable [LinearOrder α]

theorem pick_child_spec (a : List α) (child n : Nat) (hn : n ≤ a.length) (hc : child < n) :
    ∃ c cv, pick_child a child n = some c ∧ a[c]? = some cv ∧
      (c = child ∨ (c = child + 1 ∧ child + 1 < n)) ∧
      (∀ x, a[child]? = some x → x ≤ cv) ∧
      (∀ x, child + 1 < n → a[child + 1]? = some x → x ≤ cv) := by
  unfold pick_child
  obtain ⟨x, hx⟩ := getElem?_some_of_lt (a := a) (i := child) (by omega)
  by_cases h1 : child + 1 < n
  · rw [if_pos h1]
    obtain ⟨y, hy⟩ := getElem?_some_of_lt (a := a) (i := child + 1) (by omega)
    rw [hx, hy]
    simp only []
    by_cases hxy : x < y
    · rw [if_pos hxy]
      refine ⟨child + 1, y, rfl, hy, Or.inr ⟨rfl, h1⟩, ?_, ?_⟩
      · intro z hz
        have : x = z := Option.some.inj hz
        rw [← this]; exact le_of_lt hxy
      · intro z _ hz
        have : y = z := Option.some.inj hz
        rw [this]
    · rw [if_neg hxy]
      refine ⟨child, x, rfl, hx, Or.inl rfl, ?_, ?_⟩
      · intro z hz
        have : x = z := Option.some.inj hz
        rw [this]
      · intro z _ hz
        have : y = z := Option.some.inj hz
        rw [← this]; exact not_lt.1 hxy
  · rw [if_neg h1]
    refine ⟨child, x, rfl, hx, Or.inl rfl, ?_, ?_⟩
    · intro z hz
      have : z = x := Option.some.inj (hz.symm.trans hx)
      rw [this]
    · intro z h; exact absurd h h1

/-- Sifting down at `r` restores the heap order for all parents from `s` on; it permutes
the sequence and leaves the positions before `r` and from `n` on untouched. -/
theorem sift_down_spec (n s fuel : Nat) :
    ∀ (a : List α) (r : Nat), n ≤ a.length → s ≤ r → n - r < fuel → SiftInv a s r n →
      ∃ a', sift_down fuel a r n = some a' ∧ a'.Perm a ∧
        (∀ q, (q < r ∨ n ≤ q) → a'[q]? = a[q]?) ∧ HeapFrom a' s n := by
  induction fuel with
  | zero => intro a r _ _ h; omega
  | succ fuel ih =>
    intro a r hn hsr hfuel hinv
    unfold sift_down
    simp only []
    by_cases hchild : 2 * r + 1 < n
    · rw [if_pos hchild]
      obtain ⟨c, cv, hpick, hcv, hc, hleft, hright⟩ := pick_child_spec a (2 * r + 1) n hn hchild
      obtain ⟨rv, hrv⟩ := getElem?_some_of_lt (a := a) (i := r) (by omega)
      have hcn : c < n := by omega
      have hcr : (c - 1) / 2 = r := by omega
      rw [hpick]
      simp only []
      rw [hrv, hcv]
      simp only []
      -- both children are bounded by the picked one
      have hkids : ∀ j x, 0 < j → j < n → (j - 1) / 2 = r → a[j]? = some x → x ≤ cv := by
        intro j x hj0 hjn hjr hx
        have : j = 2 * r + 1 ∨ j = 2 * r + 1 + 1 := by omega
        rcases this with h | h
        · subst h; exact hleft x hx
        · subst h; exact hright x hjn hx
      by_cases hlt : rv < cv
      · rw [if_pos hlt]
        have hsw := iter_swap_eq hrv hcv
        rw [hsw]
        simp only []
        have hget := iter_swap_getElem? hsw
        have hinv' : SiftInv ((a.set r cv).set c rv) s c n := by
          constructor
          · intro j x y hj0 hjn hsj hjc hx hy
            rw [hget] at hx hy
            by_cases hjr : (j - 1) / 2 = r
            · -- `j` is a child of `r`, which now holds `cv`
              rw [if_neg (by omega), if_pos hjr] at hy
              have hy' : y = cv := Option.some.inj (hy.symm.trans hcv)
              subst hy'
              by_cases hjc' : j = c
              · rw [if_pos hjc'] at hx
                have : x = rv := Option.some.inj (hx.symm.trans hrv)
                rw [this]; exact le_of_lt hlt
              · rw [if_neg hjc', if_neg (by omega)] at hx
                exact hkids j x hj0 hjn hjr hx
            · rw [if_neg hjc, if_neg hjr] at hy
              by_cases hj : j = r
              · -- `r` itself against its parent
                rw [if_neg (by omega), if_pos hj] at hx
                have hx' : x = cv := Option.some.inj (hx.symm.trans hcv)
                subst hx'
                subst hj
                exact hinv.2 c x y (by omega) hcn hcr hj0 hsj hcv hy
              · rw [if_neg (by omega), if_neg hj] at hx
                exact hinv.1 j x y hj0 hjn hsj hjr hx hy
          · intro j x y hj0 hjn hjc hc0 hsc hx hy
            rw [hget] at hx hy
            rw [if_neg (by omega), if_neg (by omega)] at hx
            rw [hcr, if_neg (by omega), if_pos rfl] at hy
            have hy' : y = cv := Option.some.inj (hy.symm.trans hcv)
            subst hy'
            have hcv' : a[(j - 1) / 2]? = some y := by rw [hjc]; exact hcv
            exact hinv.1 j x y hj0 hjn (by omega) (by omega) hx hcv'
        obtain ⟨a', ha', hperm, hframe, hheap⟩ := ih ((a.set r cv).set c rv) c
          (by simpa using hn) (by omega) (by omega) hinv'
        refine ⟨a', ha', hperm.trans (iter_swap_perm hsw), ?_, hheap⟩
        intro q hq
        rw [hframe q (by omega), hget, if_neg (by omega), if_neg (by omega)]
      · rw [if_neg hlt]
        refine ⟨a, rfl, List.Perm.refl _, fun _ _ => rfl, ?_⟩
        intro j x y hj0 hjn hsj hx hy
        by_cases hjr : (j - 1) / 2 = r
        · rw [hjr] at hy
          have : y = rv := Option.some.inj (hy.symm.trans hrv)
          rw [this]
          exact le_trans (hkids j x hj0 hjn hjr hx) (not_lt.1 hlt)
        · exact hinv.1 j x y hj0 hjn hsj hjr hx hy
    · rw [if_neg hchild]
      refine ⟨a, rfl, List.Perm.refl _, fun _ _ => rfl, ?_⟩
      intro j x y hj0 hjn hsj hx hy
      exact hinv.1 j x y hj0 hjn hsj (by omega) hx hy

/-- `std::make_heap` loop: once the parents from `start` on are in heap order, sifting
the remaining parents down in decreasing order yields a heap. -/
theorem make_heap_loop_spec (n : Nat) (start : Nat) :
    ∀ (a : List α), n ≤ a.length → HeapFrom a start n →
      ∃ a', make_heap_loop start a n = some a' ∧ a'.Perm a ∧
        (∀ q, n ≤ q → a'[q]? = a[q]?) ∧ HeapFrom a' 0 n := by
  induction start with
  | zero =>
    intro a _ h
    exact ⟨a, rfl, List.Perm.refl _, fun _ _ => rfl, h⟩
  | succ start ih =>
    intro a hn h
    unfold make_heap_loop
    have hinv : SiftInv a start start n := by
      constructor
      · intro j x y hj0 hjn hsj hne hx hy
        exact h j x y hj0 hjn (by omega) hx hy
      · intro j x y _ _ _ h0 hs _ _
        omega
    obtain ⟨a1, h1, hp1, hf1, hh1⟩ := sift_down_spec n start (n + 1) a start hn (le_refl _)
      (by omega) hinv
    rw [h1]
    simp only []
    obtain ⟨a2, h2, hp2, hf2, hh2⟩ := ih a1 (by rw [hp1.length_eq]; exact hn) hh1
    refine ⟨a2, h2, hp2.trans hp1, ?_, hh2⟩
    intro q hq
    rw [hf2 q hq, hf1 q (Or.inr hq)]

theorem make_heap_spec (a : List α) :
    ∃ a', make_heap a = some a' ∧ a'.Perm a ∧ HeapFrom a' 0 a.length := by
  obtain ⟨a', h, hp, -, hh⟩ := make_heap_loop_spec a.length (a.length / 2) a (le_refl _)
    (by
      intro j x y hj0 hjn hs _ _
      omega)
  exact ⟨a', h, hp, hh⟩

/-- In a heap the root is a maximum. -/
theorem heap_root_max (a : List α) (n : Nat) (hn : n ≤ a.length) (h : HeapFrom a 0 n) :
    ∀ (j : Nat) (x y : α), j < n → a[j]? = some x → a[0]? = some y → x ≤ y := by
  intro j
  induction j using Nat.strong_induction_on with
  | _ j ih =>
    intro x y hjn hx hy
    by_cases hj0 : j = 0
    · subst hj0
      have : x = y := Option.some.inj (hx.symm.trans hy)
      rw [this]
    · obtain ⟨z, hz⟩ := getElem?_some_of_lt (a := a) (i := (j - 1) / 2) (by omega)
      exact le_trans (h j x z (by omega) hjn (Nat.zero_le _) hx hz)
        (ih ((j - 1) / 2) (by omega) z y (by omega) hz hy)

omit [LinearOrder α] in
/-- A permutation that leaves the positions from `n` on untouched permutes the first `n`
elements among themselves. -/
theorem perm_take_of_frame {a a' : List α} (n : Nat) (hp : a'.Perm a)
    (hf : ∀ q, n ≤ q → a'[q]? = a[q]?) : (a'.take n).Perm (a.take n) := by
  have hd : a'.drop n = a.drop n := by
    apply List.ext_getElem?
    intro i
    rw [List.getElem?_drop, List.getElem?_drop]
    exact hf (n + i) (by omega)
  have h1 : (a'.take n ++ a'.drop n).Perm (a.take n ++ a.drop n) := by
    rw [List.take_append_drop, List.take_append_drop]
    exact hp
  rw [hd] at h1
  exact (List.perm_append_right_iff _).1 h1

omit [LinearOrder α] in
theorem mem_take_iff_getElem? {a : List α} {n : Nat} {z : α} :
    z ∈ a.take n ↔ ∃ p, p < n ∧ a[p]? = some z := by
  rw [List.mem_iff_getElem?]
  constructor
  · rintro ⟨p, hp⟩
    rw [List.getElem?_take] at hp
    by_cases h : p < n
    · rw [if_pos h] at hp
      exact ⟨p, h, hp⟩
    · rw [if_neg h] at hp
      exact Option.noConfusion hp
  · rintro ⟨p, h, hp⟩
    refine ⟨p, ?_⟩
    rw [List.getElem?_take, if_pos h]
    exact hp

/-- Loop invariant of `std::sort_heap`: `[0, n)` is a heap, the part from `n` on is
sorted, and every element of the heap is bounded by every element from `n` on. -/
theorem sort_heap_loop_spec (n : Nat) :
    ∀ (a : List α), n ≤ a.length → HeapFrom a 0 n →
      (∀ (q : Nat) (y : α), n ≤ q → a[q]? = some y → ∀ z ∈ a.take n, z ≤ y) →
      (∀ (p q : Nat) (x y : α), n ≤ p → p < q → a[p]? = some x → a[q]? = some y → x ≤ y) →
      ∃ r, sort_heap_loop n a = some r ∧ r.Perm a ∧
        ∀ (p q : Nat) (x y : α), p < q → r[p]? = some x → r[q]? = some y → x ≤ y := by
  induction n with
  | zero =>
    intro a _ _ _ h2
    exact ⟨a, rfl, List.Perm.refl _, fun p q x y hpq hx hy => h2 p q x y (Nat.zero_le _) hpq hx hy⟩
  | succ n ih =>
    intro a hn hheap h1 h2
    unfold sort_heap_loop
    -- the state after `pop_heap`
    have hpop : ∃ a', pop_heap a (n + 1) = some a' ∧ a'.Perm a ∧ HeapFrom a' 0 n ∧
        (∀ q, n + 1 ≤ q → a'[q]? = a[q]?) ∧ a'[n]? = a[0]? := by
      unfold pop_heap
      by_cases hn1 : 1 < n + 1
      · rw [if_pos hn1]
        obtain ⟨x0, hx0⟩ := getElem?_some_of_lt (a := a) (i := 0) (by omega)
        obtain ⟨xn, hxn⟩ := getElem?_some_of_lt (a := a) (i := n) (by omega)
        have hsw := iter_swap_eq hx0 hxn
        rw [Nat.add_sub_cancel, hsw]
        simp only []
        have hget := iter_swap_getElem? hsw
        have hinv : SiftInv ((a.set 0 xn).set n x0) 0 0 n := by
          constructor
          · intro j x y hj0 hjn _ hne hx hy
            rw [hget] at hx hy
            rw [if_neg (by omega), if_neg (by omega)] at hx hy
            exact hheap j x y hj0 (by omega) (Nat.zero_le _) hx hy
          · intro j x y _ _ _ h0 _ _ _
            omega
        obtain ⟨a', ha', hp, hf, hh⟩ := sift_down_spec n 0 (n + 1 + 1) _ 0
          (by simp; omega) (le_refl _) (by omega) hinv
        refine ⟨a', ha', hp.trans (iter_swap_perm hsw), hh, ?_, ?_⟩
        · intro q hq
          rw [hf q (Or.inr (by omega)), hget, if_neg (by omega), if_neg (by omega)]
        · rw [hf n (Or.inr (le_refl _)), hget, if_pos rfl]
      · rw [if_neg hn1]
        have hn0 : n = 0 := by omega
        subst hn0
        refine ⟨a, rfl, List.Perm.refl _, ?_, fun _ _ => rfl, rfl⟩
        intro j x y hj0 hjn
        omega
    obtain ⟨a', ha', hp, hh, hf, hroot⟩ := hpop
    rw [ha']
    simp only []
    -- the first `n + 1` elements are permuted among themselves
    have htake : (a'.take (n + 1)).Perm (a.take (n + 1)) := perm_take_of_frame (n + 1) hp hf
    have hsub : ∀ z ∈ a'.take n, z ∈ a.take (n + 1) := by
      intro z hz
      apply htake.subset
      obtain ⟨p, hp1, hp2⟩ := mem_take_iff_getElem?.1 hz
      exact mem_take_iff_getElem?.2 ⟨p, by omega, hp2⟩
    obtain ⟨x0, hx0⟩ := getElem?_some_of_lt (a := a) (i := 0) (by omega)
    have hmax : ∀ z ∈ a.take (n + 1), z ≤ x0 := by
      intro z hz
      obtain ⟨p, hp1, hp2⟩ := mem_take_iff_getElem?.1 hz
      exact heap_root_max a (n + 1) hn hheap p z x0 hp1 hp2 hx0
    have hx0mem : x0 ∈ a.take (n + 1) := mem_take_iff_getElem?.2 ⟨0, by omega, hx0⟩
    obtain ⟨r, hr, hrp, hrs⟩ := ih a' (by rw [hp.length_eq]; omega) hh
      (by
        intro q y hq hy z hz
        by_cases hqn : q = n
        · subst hqn
          rw [hroot, hx0] at hy
          have : x0 = y := Option.some.inj hy
          rw [← this]
          exact hmax z (hsub z hz)
        · rw [hf q (by omega)] at hy
          exact h1 q y (by omega) hy z (hsub z hz))
      (by
        intro p q x y hp1 hpq hx hy
        rw [hf q (by omega)] at hy
        by_cases hpn : p = n
        · subst hpn
          rw [hroot, hx0] at hx
          have : x0 = x := Option.some.inj hx
          rw [← this]
          exact h1 q y (by omega) hy x0 hx0mem
        · rw [hf p (by omega)] at hx
          exact h2 p q x y (by omega) hpq hx hy)
    exact ⟨r, hr, hrp.trans hp, hrs⟩

theorem heap_sort_spec (l : List α) :
    ∃ r, heap_sort l = some r ∧ r.Perm l ∧ r.Sorted (· ≤ ·) := by
  obtain ⟨h, hh, hp, hheap⟩ := make_heap_spec l
  have hlen : h.length = l.length := hp.length_eq
  obtain ⟨r, hr, hrp, hrs⟩ := sort_heap_loop_spec h.length h (le_refl _)
    (by rw [hlen]; exact hheap)
    (by
      intro q y hq hy
      have := lt_length_of_getElem? hy
      omega)
    (by
      intro p q x y hp1 _ hx
      have := lt_length_of_getElem? hx
      omega)
  refine ⟨r, ?_, hrp.trans hp, sorted_of_getElem? hrs⟩
  unfold heap_sort
  rw [hh]
  exact hr

/-- Claim C6.  For every finite sequence over a totally ordered element type, both
`selection_sort` (exchange the minimum of the unsorted remainder into each position in
turn) and `heap_sort` (build a binary max-heap, then repeatedly move the maximum to the
end) return and leave a non-decreasing permutation of the input. -/
theorem selection_heap_sort_sorted_perm (l : List α) :
    (∃ r, selection_sort l = some r ∧ r.Perm l ∧ r.Sorted (· ≤ ·) ∧
      List.Chain' (fun x y => ¬ y < x) r) ∧
    (∃ r, heap_sort l = some r ∧ r.Perm l ∧ r.Sorted (· ≤ ·) ∧
      List.Chain' (fun x y => ¬ y < x) r) := by
  obtain ⟨r1, h1, hp1, hs1⟩ := selection_sort_spec l
  obtain ⟨r2, h2, hp2, hs2⟩ := heap_sort_spec l
  exact ⟨⟨r1, h1, hp1, hs1, (List.chain'_iff_pairwise.2 hs1).imp (fun {_ _} h => not_lt.2 h)⟩,
    ⟨r2, h2, hp2, hs2, (List.chain'_iff_pairwise.2 hs2).imp (fun {_ _} h => not_lt.2 h)⟩⟩

end HeapProofs

section PermutationProofs

variable [LinearOrder α]

theorem is_sorted_until_pos (x : α) (t : List α) : 0 < is_sorted_until (x :: t) := by
  cases t with
  | nil => simp [is_sorted_until]
  | cons y t =>
    unfold is_sorted_until
    split_ifs <;> omega

/-- `std::is_sorted_until` splits the range into its longest non-decreasing prefix and
the rest; the rest, if any, starts with an element smaller than the last of the prefix. -/
theorem is_sorted_until_spec : ∀ l : List α, ∃ s rest, l = s ++ rest ∧
    is_sorted_until l = s.length ∧ s.Sorted (· ≤ ·) ∧
    (∀ p rest', rest = p :: rest' → ∃ s0 w, s = s0 ++ [w] ∧ p < w)
  | [] => ⟨[], [], rfl, rfl, List.sorted_nil, fun _ _ h => List.noConfusion h⟩
  | [x] => ⟨[x], [], rfl, rfl, List.sorted_singleton x, fun _ _ h => List.noConfusion h⟩
  | x :: y :: t => by
    unfold is_sorted_until
    by_cases hyx : y < x
    · rw [if_pos hyx]
      refine ⟨[x], y :: t, rfl, rfl, List.sorted_singleton x, ?_⟩
      intro p rest' h
      have : y = p := (List.cons.inj h).1
      exact ⟨[], x, rfl, this ▸ hyx⟩
    · rw [if_neg hyx]
      obtain ⟨s, rest, e, hlen, hs, hrest⟩ := is_sorted_until_spec (y :: t)
      have hpos := is_sorted_until_pos y t
      obtain ⟨s', rfl⟩ : ∃ s', s = y :: s' := by
        cases s with
        | nil => rw [hlen] at hpos; simp at hpos
        | cons z s' =>
          have : y = z := (List.cons.inj e).1
          exact ⟨s', by rw [this]⟩
      refine ⟨x :: y :: s', rest, by rw [e]; rfl, by rw [hlen]; rfl, ?_, ?_⟩
      · have hxy : x ≤ y := not_lt.1 hyx
        refine List.Sorted.cons hxy hs
      · intro p rest' h
        obtain ⟨s0, w, e2, hpw⟩ := hrest p rest' h
        exact ⟨x :: s0, w, by rw [e2]; rfl, hpw⟩

omit [LinearOrder α] in
theorem iter_swap_far (s1 : List α) (q : α) (s2 : List α) (v : α) (rest : List α) :
    iter_swap (s1 ++ q :: s2 ++ v :: rest) (s1.length + 1 + s2.length) s1.length
      = some (s1 ++ v :: s2 ++ q :: rest) := by
  have hlen : (s1 ++ q :: s2).length = s1.length + 1 + s2.length := by
    simp only [List.length_append, List.length_cons]; omega
  have hassoc : ∀ z : α, s1 ++ q :: s2 ++ z :: rest = s1 ++ q :: (s2 ++ z :: rest) := by
    intro z; simp
  have e1 : (s1 ++ q :: s2 ++ v :: rest)[s1.length + 1 + s2.length]? = some v := by
    rw [← hlen]; exact getElem?_mid (s1 ++ q :: s2) v rest
  have e2 : (s1 ++ q :: s2 ++ v :: rest)[s1.length]? = some q := by
    rw [hassoc]; exact getElem?_mid s1 q (s2 ++ v :: rest)
  rw [iter_swap_eq e1 e2]
  have e3 : (s1 ++ q :: s2 ++ v :: rest).set (s1.length + 1 + s2.length) q
      = s1 ++ q :: s2 ++ q :: rest := by
    rw [← hlen]; exact set_mid (s1 ++ q :: s2) v q rest
  have e4 : (s1 ++ q :: s2 ++ q :: rest).set s1.length v = s1 ++ v :: s2 ++ q :: rest := by
    rw [hassoc, set_mid]; simp
  rw [e3, e4]

/-- Specification of `std::next_permutation`: the result is a rearrangement; when `false`
is returned it is sorted in non-decreasing order; when `true` is returned it is
lexicographically greater than the argument. -/
theorem next_permutation_spec (l : List α) :
    ∃ l' b, next_permutation l = some (l', b) ∧ l'.Perm l ∧
      (b = false → l'.Sorted (· ≤ ·)) ∧ (b = true → List.Lex (· < ·) l l') := by
  unfold next_permutation
  simp only []
  obtain ⟨s, rest, e, hleft, hs, hrest⟩ := is_sorted_until_spec l.reverse
  have hl : l = rest.reverse ++ s.reverse := by
    have := congrArg List.reverse e
    simpa using this
  rw [hleft, e]
  cases rest with
  | nil =>
    have hlen : ¬ s.length ≠ (s ++ []).length := by simp
    rw [if_neg hlen]
    refine ⟨_, false, rfl, ?_, ?_, fun h => Bool.noConfusion h⟩
    · rw [hl]; simp
      exact (List.reverse_perm s).symm
    · intro _
      simpa using hs
  | cons v rest' =>
    have hlen : s.length ≠ (s ++ v :: rest').length := by simp
    rw [if_pos hlen, getElem?_mid]
    simp only []
    obtain ⟨s0, w, es, hvw⟩ := hrest v rest' rfl
    obtain ⟨s1, s2, e12, hub, h1, h2⟩ := upper_bound_loop_spec (fun x : α => x)
      (fun _ _ => Iff.rfl) v (s.length + 1) [] s (v :: rest') (by omega) hs
    simp only [List.nil_append, List.length_nil, Nat.zero_add] at hub
    unfold upper_bound
    rw [Nat.sub_zero, hub]
    simp only []
    -- the last element of the sorted prefix is greater than `v`, so `s2` is not empty
    obtain ⟨q, s2', rfl⟩ : ∃ q s2', s2 = q :: s2' := by
      cases s2 with
      | nil =>
        exfalso
        have hw : w ∈ s1 := by
          have : w ∈ s := by rw [es]; simp
          rw [e12] at this
          simpa using this
        exact absurd (h1 w hw) (not_le.2 hvw)
      | cons q s2' => exact ⟨q, s2', rfl⟩
    subst e12
    have hvq : v < q := h2 q (List.mem_cons_self _ _)
    have hidx : (s1 ++ q :: s2').length = s1.length + 1 + s2'.length := by
      simp; omega
    rw [hidx, iter_swap_far]
    simp only []
    have hdrop : (s1 ++ v :: s2' ++ q :: rest').drop (s1.length + 1 + s2'.length)
        = q :: rest' := by
      rw [← hidx]
      have : (s1 ++ q :: s2').length = (s1 ++ v :: s2').length := by simp
      rw [this, List.drop_left']
      rfl
    have htake : (s1 ++ v :: s2' ++ q :: rest').take (s1.length + 1 + s2'.length)
        = s1 ++ v :: s2' := by
      rw [← hidx]
      have : (s1 ++ q :: s2').length = (s1 ++ v :: s2').length := by simp
      rw [this, List.take_left']
      rfl
    rw [hdrop, htake]
    refine ⟨_, true, rfl, ?_, fun h => Bool.noConfusion h, ?_⟩
    · rw [hl]
      simp only [List.reverse_cons, List.append_assoc, List.singleton_append]
      refine List.Perm.append_left _ ?_
      have p1 : (q :: (s1 ++ v :: s2')).Perm (v :: (s1 ++ q :: s2')) := by
        have a1 : (q :: (s1 ++ v :: s2')).Perm (q :: v :: (s1 ++ s2')) :=
          List.Perm.cons q List.perm_middle
        have a2 : (v :: (s1 ++ q :: s2')).Perm (v :: q :: (s1 ++ s2')) :=
          List.Perm.cons v List.perm_middle
        exact a1.trans ((List.Perm.swap v q _).trans a2.symm)
      exact p1.trans (List.Perm.cons v (List.reverse_perm _).symm)
    · intro _
      rw [hl]
      simp only [List.reverse_cons, List.append_assoc, List.singleton_append]
      exact List.Lex.append_left _ (List.Lex.rel hvq) _

omit [LinearOrder α] in
theorem countP_lt_countP {β : Type} (p q : β → Bool) (l : List β)
    (hpq : ∀ x ∈ l, p x = true → q x = true) (x : β) (hx : x ∈ l) (hq : q x = true)
    (hp : p x = false) : l.countP p < l.countP q := by
  induction l with
  | nil => exact absurd hx (List.not_mem_nil x)
  | cons y t ih =>
    rw [List.countP_cons, List.countP_cons]
    rcases List.mem_cons.1 hx with rfl | hxt
    · have hle : t.countP p ≤ t.countP q :=
        List.countP_mono_left (fun z hz => hpq z (List.mem_cons_of_mem _ hz))
      simp only [hq, hp, if_true, Bool.false_eq_true, if_false]
      omega
    · have hlt := ih (fun z hz => hpq z (List.mem_cons_of_mem _ hz)) hxt
      have hy : (if p y = true then 1 else 0) ≤ (if q y = true then 1 else 0) := by
        by_cases hpy : p y = true
        · rw [if_pos hpy, if_pos (hpq y (List.mem_cons_self _ _) hpy)]
        · rw [if_neg hpy]
          exact Nat.zero_le _
      omega

/-- The loop of `permutation_sort` ends: every round that continues moves to a
lexicographically greater rearrangement, of which fewer than `fuel` remain. -/
theorem permutation_loop_spec (l₀ : List α) (fuel : Nat) :
    ∀ cur : List α, cur.Perm l₀ → lexAbove l₀ cur < fuel →
      ∃ r, permutation_loop fuel cur = some r ∧ r.Perm l₀ ∧ r.Sorted (· ≤ ·) := by
  induction fuel with
  | zero => intro cur _ h; omega
  | succ fuel ih =>
    intro cur hcur hfuel
    unfold permutation_loop
    obtain ⟨l', b, hnp, hperm, hfalse, htrue⟩ := next_permutation_spec cur
    rw [hnp]
    cases b with
    | false => exact ⟨l', rfl, hperm.trans hcur, hfalse rfl⟩
    | true =>
      simp only []
      have hlex := htrue rfl
      apply ih l' (hperm.trans hcur)
      have hlt : lexAbove l₀ l' < lexAbove l₀ cur := by
        unfold lexAbove
        apply countP_lt_countP _ _ _ _ l'
        · exact List.mem_permutations.2 (hperm.trans hcur)
        · exact decide_eq_true hlex
        · exact decide_eq_false (irrefl_of (List.Lex (· < ·)) l')
        · intro p _ hp
          have hp' : List.Lex (· < ·) l' p := of_decide_eq_true hp
          exact decide_eq_true (trans_of (List.Lex (· < ·)) hlex hp')
      omega

/-- Claim C7.  For every finite sequence over a totally ordered element type (duplicates
and a descending start included), the loop `while(std::next_permutation(first, last)) {}`
of `permutation_sort` ends, within `length !` rounds, and leaves the sequence sorted
ascending: a non-decreasing permutation of the input. -/
theorem permutation_sort_sorted_perm (l : List α) :
    ∃ r, permutation_sort l = some r ∧ r.Perm l ∧ r.Sorted (· ≤ ·) ∧
      List.Chain' (fun x y => ¬ y < x) r := by
  have hfuel : lexAbove l l < l.length.factorial + 1 := by
    unfold lexAbove
    have h1 := List.countP_le_length (fun p => decide (List.Lex (· < ·) l p))
      (l := l.permutations)
    rw [List.length_permutations] at h1
    omega
  obtain ⟨r, hr, hp, hs⟩ := permutation_loop_spec l (l.length.factorial + 1) l
    (List.Perm.refl l) hfuel
  exact ⟨r, hr, hp, hs, (List.chain'_iff_pairwise.2 hs).imp (fun {_ _} h => not_lt.2 h)⟩

end PermutationProofs

section RunLoopProofs

variable {VT : Type}

theorem contains_eq_decide (vect : List String) (alg : String) :
    contains vect alg = decide (alg ∈ vect) := by
  unfold contains
  induction vect with
  | nil => simp
  | cons s t ih =>
    rw [List.any_cons, ih]
    by_cases h : s = alg
    · subst h; simp
    · have h' : ¬ alg = s := fun e => h e.symm
      simp [h, h']

/-- The loop condition of the inner loop is the selection policy. -/
theorem condition_eq_selected (args : program_args VT) (j : Descriptor) :
    ((args.alg_all || j.use) && !contains args.alg_except j.name) = decide (selected args j) := by
  rw [contains_eq_decide, Bool.eq_iff_iff]
  simp [selected]

/-- The inner loop makes exactly the invocations the policy prescribes for the
descriptors it visits, pairing the descriptor at position `pos` with entry `i` of the
dispatch table. -/
theorem trial_calls_eq (args : program_args VT) :
    ∀ (rest : List Descriptor) (pos i : Nat), rest.length + i ≤ lambs.length →
      trial_calls args rest pos i
        = some ((((rest.zip (lambs.drop i)).enumFrom pos).filter
            (fun p => decide (selected args p.2.1))).map
              (fun p => ⟨args.avg_count, p.2.2, p.2.1.label, p.1⟩)) := by
  intro rest
  induction rest with
  | nil => intro pos i _; simp [trial_calls]
  | cons j rest ih =>
    intro pos i hlen
    have hi : i < lambs.length := by simp at hlen; omega
    unfold trial_calls
    rw [condition_eq_selected, ih (pos + 1) (i + 1) (by simp at hlen; omega),
      List.getElem?_eq_getElem hi, List.drop_eq_getElem_cons hi]
    simp only [List.zip_cons_cons, List.enumFrom_cons, List.filter_cons]
    by_cases hsel : selected args j
    · simp [hsel]
    · simp [hsel]

theorem trials_step (args : program_args VT) (h : args.avg_count < args.avg) :
    trials args = args.avg_count :: trials { args with avg_count := args.avg_count + 1 } := by
  unfold trials
  obtain ⟨k, hk⟩ : ∃ k : Nat, (args.avg - args.avg_count).toNat = k + 1 :=
    ⟨(args.avg - args.avg_count).toNat - 1, by omega⟩
  have hk' : (args.avg - (args.avg_count + 1)).toNat = k := by omega
  simp only [hk, hk']
  rw [List.range_succ_eq_map, List.map_cons, List.map_map]
  refine congrArg₂ List.cons (by simp) ?_
  apply List.map_congr_left
  intro a _
  simp only [Function.comp, Int.ofNat_eq_coe, Nat.succ_eq_add_one, Nat.cast_add, Nat.cast_one]
  omega

/-- The run loop makes, trial after trial, the invocations the policy prescribes. -/
theorem run_loop_eq (fuel : Nat) :
    ∀ (args : program_args VT), args.algs.length ≤ lambs.length →
      (args.avg - args.avg_count).toNat < fuel →
      run_loop fuel args = some ((trials args).flatMap (policy_calls args)) := by
  induction fuel with
  | zero => intro args _ h; omega
  | succ fuel ih =>
    intro args hlen hfuel
    unfold run_loop
    by_cases hlt : args.avg_count < args.avg
    · rw [if_pos hlt, trial_calls_eq args args.algs 0 0 (by simpa using hlen)]
      simp only []
      rw [ih { args with avg_count := args.avg_count + 1 } hlen (by simp only []; omega)]
      simp only []
      rw [trials_step args hlt, List.flatMap_cons]
      rfl
    · rw [if_neg hlt]
      have : (args.avg - args.avg_count).toNat = 0 := by omega
      simp [trials, this]

theorem list_of_length_ten {β : Type} {l : List β} (h : l.length = 10) :
    ∃ d0 d1 d2 d3 d4 d5 d6 d7 d8 d9, l = [d0, d1, d2, d3, d4, d5, d6, d7, d8, d9] := by
  rcases l with _ | ⟨d0, l⟩
  · simp at h
  rcases l with _ | ⟨d1, l⟩
  · simp at h
  rcases l with _ | ⟨d2, l⟩
  · simp at h
  rcases l with _ | ⟨d3, l⟩
  · simp at h
  rcases l with _ | ⟨d4, l⟩
  · simp at h
  rcases l with _ | ⟨d5, l⟩
  · simp at h
  rcases l with _ | ⟨d6, l⟩
  · simp at h
  rcases l with _ | ⟨d7, l⟩
  · simp at h
  rcases l with _ | ⟨d8, l⟩
  · simp at h
  rcases l with _ | ⟨d9, l⟩
  · simp at h
  rcases l with _ | ⟨d10, l⟩
  · exact ⟨d0, d1, d2, d3, d4, d5, d6, d7, d8, d9, rfl⟩
  · simp at h

theorem length_of_wellFormed (args : program_args VT) (hwf : args.WellFormed) :
    args.algs.length = 10 := by
  have := congrArg List.length hwf
  simpa using this

/-- Claim C10.  Selection policy.  `lambs` lists, position by position, the routines
whose names are the short names of the descriptors; the run loop makes, in every trial
`avg_count, ..., avg - 1`, exactly the harness invocations `policy_calls`: the descriptors
with (`alg_all` or enable flag) and short name not in `alg_except`, in declared order,
each with the dispatch-table entry at its own position, its own label and its own sum.
With `alg_all` and the exclusions `quick-sort`, `heap-sort` the other eight routines run
in declared order; with `alg_all` off, no exclusions and only `bubble-sort` and
`merge-sort` enabled exactly those two run. -/
theorem run_selection_policy (args : program_args VT) (hwf : args.WellFormed) :
    lambs.map Routine.shortName = args.algs.map (fun d => d.name.toList) ∧
    run args = some ((trials args).flatMap (policy_calls args)) ∧
    (∀ t c, c ∈ policy_calls args t ↔
      ∃ d, args.algs[c.sumOf]? = some d ∧ lambs[c.sumOf]? = some c.sorter ∧
        c.msg = d.label ∧ c.trial = t ∧ selected args d) ∧
    (args.alg_all = true → args.alg_except = ["quick-sort", "heap-sort"] →
      ∀ t, (policy_calls args t).map (fun c => c.sorter)
        = [.bogosort, .bubble_sort, .cocktail_sort, .gnome_sort, .insertion_sort,
            .merge_sort, .permutation_sort, .selection_sort]) ∧
    (args.alg_all = false → args.alg_except = [] →
      args.algs.map (fun d => d.use)
        = [false, true, false, false, false, false, true, false, false, false] →
      ∀ t, (policy_calls args t).map (fun c => c.sorter) = [.bubble_sort, .merge_sort]) := by
  have hlen := length_of_wellFormed args hwf
  have hnames : args.algs.map (fun d => d.name) = declared_algs.map (fun d => d.name) := by
    have := congrArg (List.map Prod.fst) hwf
    simpa [List.map_map, Function.comp] using this
  refine ⟨?_, ?_, ?_, ?_, ?_⟩
  · have h1 : args.algs.map (fun d => d.name.toList)
        = (args.algs.map (fun d => d.name)).map String.toList := by
      rw [List.map_map]; rfl
    rw [h1, hnames]
    decide
  · exact run_loop_eq _ args (by rw [hlen]; decide) (by omega)
  · intro t c
    unfold policy_calls
    simp only [List.mem_map, List.mem_filter, decide_eq_true_eq]
    constructor
    · rintro ⟨⟨i, d, r⟩, ⟨hmem, hsel⟩, rfl⟩
      have h1 := List.mk_mem_enum_iff_getElem?.1 hmem
      have h2 := List.getElem?_zip_eq_some.1 h1
      exact ⟨d, h2.1, h2.2, rfl, rfl, hsel⟩
    · rintro ⟨d, hd, hr, hmsg, ht, hsel⟩
      refine ⟨⟨c.sumOf, d, c.sorter⟩, ⟨?_, hsel⟩, ?_⟩
      · exact List.mk_mem_enum_iff_getElem?.2 (List.getElem?_zip_eq_some.2 ⟨hd, hr⟩)
      · cases c
        simp only [HarnessCall.mk.injEq] at hmsg ht ⊢
        exact ⟨ht.symm, trivial, hmsg.symm, trivial⟩
  · intro hall hexc t
    obtain ⟨d0, d1, d2, d3, d4, d5, d6, d7, d8, d9, halgs⟩ := list_of_length_ten hlen
    rw [halgs] at hnames
    simp only [declared_algs, mt, List.map_cons, List.map_nil, List.cons.injEq, and_true]
      at hnames
    obtain ⟨n0, n1, n2, n3, n4, n5, n6, n7, n8, n9⟩ := hnames
    simp [policy_calls, halgs, lambs, List.enum, List.enumFrom, selected, hall, hexc,
      n0, n1, n2, n3, n4, n5, n6, n7, n8, n9]
  · intro hall hexc huse t
    obtain ⟨d0, d1, d2, d3, d4, d5, d6, d7, d8, d9, halgs⟩ := list_of_length_ten hlen
    rw [halgs] at hnames huse
    simp only [declared_algs, mt, List.map_cons, List.map_nil, List.cons.injEq, and_true]
      at hnames huse
    obtain ⟨u0, u1, u2, u3, u4, u5, u6, u7, u8, u9⟩ := huse
    simp [policy_calls, halgs, lambs, List.enum, List.enumFrom, selected, hall, hexc,
      u0, u1, u2, u3, u4, u5, u6, u7, u8, u9]

/-- Witness for claim C10: the configuration with `--alg-all` and the exclusions
`quick-sort`, `heap-sort` is well formed, and its run makes the policy's invocations. -/
theorem run_selection_policy_witness :
    args_all_except.WellFormed ∧
    run args_all_except
      = some ((trials args_all_except).flatMap (policy_calls args_all_except)) :=
  ⟨rfl, (run_selection_policy args_all_except rfl).2.1⟩

end RunLoopProofs

section QuickClaims
variable [LinearOrder α]

/-- One level of `quick_sort` on a range of length at least two: the pivot is
`quick_sort_pivot`, the blocks are `quick_sort_split`, and the two outer blocks are
sorted recursively. -/
theorem quick_sort_go_unfold (fuel : Nat) (l : List α) (h : 2 ≤ l.length) :
    ∃ pivot, quick_sort_pivot l = some pivot ∧
      quick_sort_go (fuel + 1) l =
        match quick_sort_go fuel (quick_sort_split pivot l).1,
          quick_sort_go fuel (quick_sort_split pivot l).2.2 with
        | some lo, some hi => some (lo ++ (quick_sort_split pivot l).2.1 ++ hi)
        | _, _ => none := by
  obtain ⟨a, ha⟩ := getElem?_some_of_lt (a := l) (i := 0) (by omega)
  obtain ⟨b, hb⟩ := getElem?_some_of_lt (a := l) (i := l.length / 2) (by omega)
  obtain ⟨c, hc⟩ := getElem?_some_of_lt (a := l) (i := l.length - 1) (by omega)
  refine ⟨pivotOf a b c, by simp [quick_sort_pivot, ha, hb, hc], ?_⟩
  have hlen : l.length ≠ 0 ∧ l.length ≠ 1 := by omega
  rw [quick_sort_go, if_pos hlen]
  simp only [ha, hb, hc, quick_sort_split]

theorem pivotOf_eq_max_min (a b c : α) :
    pivotOf a b c = max (min a b) (min (max a b) c) := by
  unfold pivotOf stdMax stdMin
  rcases lt_trichotomy a b with h | h | h <;> rcases lt_trichotomy a c with h2 | h2 | h2 <;>
    rcases lt_trichotomy b c with h3 | h3 | h3 <;>
    simp [h, h2, h3, max_def, min_def, le_of_lt, not_lt_of_gt, not_le_of_gt]

theorem pivotOf_median (a b c : α) :
    ∃ x z, [a, b, c].Perm [x, pivotOf a b c, z] ∧ x ≤ pivotOf a b c ∧ pivotOf a b c ≤ z := by
  rw [pivotOf_eq_max_min]
  rcases le_total a b with hab | hab
  · rcases le_total b c with hbc | hbc
    · have hp : max (min a b) (min (max a b) c) = b := by
        rw [min_eq_left hab, max_eq_right hab, min_eq_left hbc, max_eq_right hab]
      rw [hp]
      exact ⟨a, c, List.Perm.refl _, hab, hbc⟩
    · rcases le_total a c with hac | hac
      · have hp : max (min a b) (min (max a b) c) = c := by
          rw [min_eq_left hab, max_eq_right hab, min_eq_right hbc, max_eq_right hac]
        rw [hp]
        exact ⟨a, b, List.Perm.cons a (List.Perm.swap c b []), hac, hbc⟩
      · have hp : max (min a b) (min (max a b) c) = a := by
          rw [min_eq_left hab, max_eq_right hab, min_eq_right hbc, max_eq_left hac]
        rw [hp]
        exact ⟨c, b, (List.Perm.cons a (List.Perm.swap c b [])).trans (List.Perm.swap c a [b]),
          hac, hab⟩
  · rcases le_total a c with hac | hac
    · have hp : max (min a b) (min (max a b) c) = a := by
        rw [min_eq_right hab, max_eq_left hab, min_eq_left hac, max_eq_right hab]
      rw [hp]
      exact ⟨b, c, List.Perm.swap b a [c], hab, hac⟩
    · rcases le_total b c with hbc | hbc
      · have hp : max (min a b) (min (max a b) c) = c := by
          rw [min_eq_right hab, max_eq_left hab, min_eq_right hac, max_eq_right hbc]
        rw [hp]
        exact ⟨b, a, (List.Perm.swap b a [c]).trans (List.Perm.cons b (List.Perm.swap c a [])),
          hbc, hac⟩
      · have hp : max (min a b) (min (max a b) c) = b := by
          rw [min_eq_right hab, max_eq_left hab, min_eq_right hac, max_eq_left hbc]
        rw [hp]
        exact ⟨c, a, ((List.Perm.cons a (List.Perm.swap c b [])).trans
          (List.Perm.swap c a [b])).trans (List.Perm.cons c (List.Perm.swap b a [])), hbc, hab⟩

theorem quick_sort_pivot_eq (l : List α) (h : 2 ≤ l.length) :
    ∃ a b c, l[0]? = some a ∧ l[l.length / 2]? = some b ∧ l[l.length - 1]? = some c ∧
      quick_sort_pivot l = some (pivotOf a b c) := by
  obtain ⟨a, ha⟩ := getElem?_some_of_lt (a := l) (i := 0) (by omega)
  obtain ⟨b, hb⟩ := getElem?_some_of_lt (a := l) (i := l.length / 2) (by omega)
  obtain ⟨c, hc⟩ := getElem?_some_of_lt (a := l) (i := l.length - 1) (by omega)
  exact ⟨a, b, c, ha, hb, hc, by simp [quick_sort_pivot, ha, hb, hc]⟩

/-- Claim C17.  Median-of-three pivot.  On every range of length at least two over a
totally ordered element type, the pivot `quick_sort` computes from the first element `a`,
the element `b` at index `(last - first) / 2` and the last element `c` is
`max(min(a, b), min(max(a, b), c))`; it is one of the three, and the three can be arranged
as `x, pivot, z` with `x ≤ pivot ≤ z`: the pivot is the middle element of the sorted
triple. -/
theorem median_of_three_pivot (l : List α) (h : 2 ≤ l.length) :
    ∃ a b c, l[0]? = some a ∧ l[l.length / 2]? = some b ∧ l[l.length - 1]? = some c ∧
      quick_sort_pivot l = some (pivotOf a b c) ∧
      pivotOf a b c = max (min a b) (min (max a b) c) ∧
      (pivotOf a b c = a ∨ pivotOf a b c = b ∨ pivotOf a b c = c) ∧
      ∃ x z, [a, b, c].Perm [x, pivotOf a b c, z] ∧ x ≤ pivotOf a b c ∧ pivotOf a b c ≤ z := by
  obtain ⟨a, b, c, ha, hb, hc, hp⟩ := quick_sort_pivot_eq l h
  exact ⟨a, b, c, ha, hb, hc, hp, pivotOf_eq_max_min a b c, pivotOf_mem a b c,
    pivotOf_median a b c⟩

/-- Witness for claim C17 on the range `[3, 1, 2]`, whose pivot is `2`. -/
theorem median_of_three_pivot_witness :
    2 ≤ [3, 1, 2].length ∧ quick_sort_pivot [3, 1, 2] = some 2 ∧
    ∃ a b c, [3, 1, 2][0]? = some a ∧ [3, 1, 2][[3, 1, 2].length / 2]? = some b ∧
      [3, 1, 2][[3, 1, 2].length - 1]? = some c ∧
      quick_sort_pivot [3, 1, 2] = some (pivotOf a b c) ∧
      pivotOf a b c = max (min a b) (min (max a b) c) ∧
      (pivotOf a b c = a ∨ pivotOf a b c = b ∨ pivotOf a b c = c) ∧
      ∃ x z, [a, b, c].Perm [x, pivotOf a b c, z] ∧ x ≤ pivotOf a b c ∧ pivotOf a b c ≤ z :=
  ⟨by decide, by decide, median_of_three_pivot [3, 1, 2] (by decide)⟩

/-- The blocks left by the two partition passes of `quick_sort`. -/
theorem quick_sort_split_spec (pivot : α) (l : List α) :
    ((quick_sort_split pivot l).1 ++ (quick_sort_split pivot l).2.1
        ++ (quick_sort_split pivot l).2.2).Perm l ∧
      (∀ x ∈ (quick_sort_split pivot l).1, x < pivot) ∧
      (∀ x ∈ (quick_sort_split pivot l).2.1, x = pivot) ∧
      (∀ x ∈ (quick_sort_split pivot l).2.2, pivot < x) := by
  unfold quick_sort_split
  simp only []
  have hp1 := std_partition_perm (bind2nd less pivot) l
  have hp2 := std_partition_perm (bind2nd (non_strict less) pivot)
    (std_partition (bind2nd less pivot) l).2
  refine ⟨?_, ?_, ?_, ?_⟩
  · rw [List.append_assoc]
    exact (List.Perm.append_left _ hp2).trans hp1
  · intro x hx
    simpa [bind2nd, less] using std_partition_fst _ l x hx
  · intro x hx
    have h1 : x ≤ pivot := by
      simpa [bind2nd, less, non_strict] using std_partition_fst _ _ x hx
    have h2 : pivot ≤ x := by
      have hmem : x ∈ (std_partition (bind2nd less pivot) l).2 :=
        hp2.subset (List.mem_append_left _ hx)
      simpa [bind2nd, less] using std_partition_snd _ l x hmem
    exact le_antisymm h1 h2
  · intro x hx
    simpa [bind2nd, less, non_strict] using std_partition_snd _ _ x hx

/-- Claim C18.  Three-way partition and progress of `quick_sort`.  On every range of
length at least two over a totally ordered element type, the two partition passes leave
the blocks `lo ++ eq ++ hi` (a rearrangement of the range) with every element of `lo`
smaller than the pivot, every element of `eq` equal to it, every element of `hi` greater,
and `eq` not empty; so `lo` and `hi` are strictly shorter than the range, one level of
`quick_sort` recurses exactly on them, and `quick_sort` returns.  On an all-equal range
both `lo` and `hi` are empty. -/
theorem quick_sort_partition_progress (l : List α) (h : 2 ≤ l.length) :
    ∃ pivot lo eq hi, quick_sort_pivot l = some pivot ∧
      quick_sort_split pivot l = (lo, eq, hi) ∧
      (lo ++ eq ++ hi).Perm l ∧
      (∀ x ∈ lo, x < pivot) ∧ (∀ x ∈ eq, x = pivot) ∧ (∀ x ∈ hi, pivot < x) ∧
      eq ≠ [] ∧ lo.length < l.length ∧ hi.length < l.length ∧
      (∀ fuel, quick_sort_go (fuel + 1) l =
        match quick_sort_go fuel lo, quick_sort_go fuel hi with
        | some lo', some hi' => some (lo' ++ eq ++ hi')
        | _, _ => none) ∧
      (∃ r, quick_sort l = some r) ∧
      ((∀ x ∈ l, ∀ y ∈ l, x = y) → lo = [] ∧ hi = []) := by
  obtain ⟨a, b, c, ha, hb, hc, hpiv⟩ := quick_sort_pivot_eq l h
  have hmem := pivotOf_mem a b c
  obtain ⟨hperm, hlo, heq, hhi⟩ := quick_sort_split_spec (pivotOf a b c) l
  have hpl : pivotOf a b c ∈ l := by
    rcases hmem with h1 | h1 | h1
    · rw [h1]; exact List.getElem?_mem ha
    · rw [h1]; exact List.getElem?_mem hb
    · rw [h1]; exact List.getElem?_mem hc
  have hpe : pivotOf a b c ∈ (quick_sort_split (pivotOf a b c) l).2.1 := by
    have := hperm.mem_iff.2 hpl
    simp only [List.mem_append] at this
    rcases this with (h1 | h1) | h1
    · exact absurd (hlo _ h1) (lt_irrefl _)
    · exact h1
    · exact absurd (hhi _ h1) (lt_irrefl _)
  have hlen := hperm.length_eq
  simp only [List.length_append] at hlen
  have hpos : 0 < (quick_sort_split (pivotOf a b c) l).2.1.length := List.length_pos_of_mem hpe
  refine ⟨pivotOf a b c, (quick_sort_split (pivotOf a b c) l).1,
    (quick_sort_split (pivotOf a b c) l).2.1, (quick_sort_split (pivotOf a b c) l).2.2,
    hpiv, rfl, hperm, hlo, heq, hhi, List.ne_nil_of_mem hpe, by omega, by omega, ?_, ?_, ?_⟩
  · intro fuel
    obtain ⟨p, hp, hgo⟩ := quick_sort_go_unfold fuel l h
    have : p = pivotOf a b c := Option.some.inj (hp.symm.trans hpiv)
    subst this
    exact hgo
  · obtain ⟨r, hr, -⟩ := quick_sort_go_spec (l.length + 1) l (by omega)
    exact ⟨r, hr⟩
  · intro hall
    constructor
    · rw [List.eq_nil_iff_forall_not_mem]
      intro x hx
      have hxl : x ∈ l := hperm.subset (by simp [hx])
      have := hlo x hx
      rw [hall x hxl _ hpl] at this
      exact lt_irrefl _ this
    · rw [List.eq_nil_iff_forall_not_mem]
      intro x hx
      have hxl : x ∈ l := hperm.subset (by simp [hx])
      have := hhi x hx
      rw [hall x hxl _ hpl] at this
      exact lt_irrefl _ this

/-- Witness for claim C18 on the all-equal range `[5, 5, 5]`. -/
theorem quick_sort_partition_progress_witness :
    2 ≤ [5, 5, 5].length ∧
    ∃ pivot lo eq hi, quick_sort_pivot [5, 5, 5] = some pivot ∧
      quick_sort_split pivot [5, 5, 5] = (lo, eq, hi) ∧ eq ≠ [] ∧
      lo.length < [5, 5, 5].length ∧ hi.length < [5, 5, 5].length :=
  ⟨by decide,
    let ⟨pivot, lo, eq, hi, h1, h2, _, _, _, _, h3, h4, h5, _⟩ :=
      quick_sort_partition_progress [5, 5, 5] (by decide)
    ⟨pivot, lo, eq, hi, h1, h2, h3, h4, h5⟩⟩

/-- Claim C19.  Comparator adapter.  For every binary predicate `order`,
`non_strict(order)(a, b)` is `!order(b, a)`; for the strict less-than of a total order this
is `a ≤ b`, that is `a < b` or `a = b`; so binding the pivot as second argument gives the
predicate `x ≤ pivot`, and the partition pass with it selects exactly the elements of the
range that are not greater than the pivot. -/
theorem non_strict_adapter :
    (∀ (order : α → α → Bool) (a b : α), non_strict order a b = !order b a) ∧
    (∀ a b : α, non_strict less a b = true ↔ a ≤ b) ∧
    (∀ a b : α, non_strict less a b = true ↔ (a < b ∨ a = b)) ∧
    (∀ pivot x : α, bind2nd (non_strict less) pivot x = true ↔ x ≤ pivot) ∧
    (∀ (pivot : α) (l : List α) (x : α),
      x ∈ (std_partition (bind2nd (non_strict less) pivot) l).1 ↔ x ∈ l ∧ x ≤ pivot) := by
  have h2 : ∀ a b : α, non_strict less a b = true ↔ a ≤ b := by
    intro a b
    simp [non_strict, less]
  refine ⟨fun _ _ _ => rfl, h2, fun a b => (h2 a b).trans le_iff_lt_or_eq,
    fun pivot x => h2 x pivot, ?_⟩
  intro pivot l x
  have hperm := std_partition_perm (bind2nd (non_strict less) pivot) l
  constructor
  · intro hx
    exact ⟨hperm.subset (List.mem_append_left _ hx),
      (h2 x pivot).1 (std_partition_fst _ l x hx)⟩
  · rintro ⟨hx, hle⟩
    have := hperm.mem_iff.2 hx
    rcases List.mem_append.1 this with h | h
    · exact h
    · have hf := std_partition_snd (bind2nd (non_strict less) pivot) l x h
      have ht : bind2nd (non_strict less) pivot x = true := (h2 x pivot).2 hle
      rw [hf] at ht
      exact Bool.noConfusion ht

end QuickClaims

section IdempotenceProofs

variable [LinearOrder α]

theorem is_sorted_of_sorted (l : List α) (hs : l.Sorted (· ≤ ·)) : is_sorted l = true := by
  obtain ⟨s, rest, e, hlen, -, hrest⟩ := is_sorted_until_spec l
  unfold is_sorted
  cases rest with
  | nil =>
    rw [hlen]
    simp [e]
  | cons p rest' =>
    exfalso
    obtain ⟨s0, w, es, hpw⟩ := hrest p rest' rfl
    rw [e, es] at hs
    have : w ≤ p := by
      have h1 := (List.pairwise_append.1 hs).2.2 w (by simp) p (by simp)
      exact h1
    exact absurd hpw (not_lt.2 this)

/-- A routine that returns a sorted rearrangement leaves a sorted input as it is. -/
theorem unchanged_of_sorted_perm {l : List α} (hs : l.Sorted (· ≤ ·))
    {out : Option (List α)} (h : ∃ r, out = some r ∧ r.Perm l ∧ r.Sorted (· ≤ ·)) :
    out = some l := by
  obtain ⟨r, hr, hp, hrs⟩ := h
  rw [hr, List.eq_of_perm_of_sorted hp hrs hs]

/-- Claim C13.  Idempotence on sorted input.  On every sequence over a totally ordered
element type that is already non-decreasing (the empty, the one-element and the all-equal
sequences included), each of the ten routines returns, and the sequence it leaves equals
the input element for element; `bogosort` does so for every shuffle and generator, its
loop body never being entered. -/
theorem sorted_input_unchanged (l : List α) (hs : l.Sorted (· ≤ ·)) :
    (∀ (G : Type) (shuffle : G → List α → List α × G) (fuel : Nat) (g : G),
      bogosort shuffle (fuel + 1) g l = some l) ∧
    bubble_sort l = some l ∧ cocktail_sort l = some l ∧ gnome_sort l = some l ∧
    heap_sort l = some l ∧ insertion_sort l = some l ∧ merge_sort l = some l ∧
    permutation_sort l = some l ∧ quick_sort l = some l ∧ selection_sort l = some l := by
  have key : ∀ {r : List α}, StablePerm (fun x : α => x) r l ∧ KeySorted (fun x : α => x) r →
      r.Perm l ∧ r.Sorted (· ≤ ·) := fun h => ⟨h.1.1, h.2⟩
  refine ⟨?_, ?_, ?_, ?_, ?_, ?_, ?_, ?_, ?_, ?_⟩
  · intro G shuffle fuel g
    unfold bogosort
    simp [is_sorted_of_sorted l hs]
  · obtain ⟨r, h, hp, hs'⟩ := bubble_sort_spec (fun x : α => x) (fun _ _ => Iff.rfl) l
    exact unchanged_of_sorted_perm hs ⟨r, h, key ⟨hp, hs'⟩⟩
  · obtain ⟨r, h, hp, hs'⟩ := cocktail_sort_spec (fun x : α => x) (fun _ _ => Iff.rfl) l
    exact unchanged_of_sorted_perm hs ⟨r, h, key ⟨hp, hs'⟩⟩
  · obtain ⟨r, h, hp, hs'⟩ := gnome_sort_spec (fun x : α => x) (fun _ _ => Iff.rfl) l
    exact unchanged_of_sorted_perm hs ⟨r, h, key ⟨hp, hs'⟩⟩
  · exact unchanged_of_sorted_perm hs (heap_sort_spec l)
  · obtain ⟨r, h, hp, hs'⟩ := insertion_sort_spec (fun x : α => x) (fun _ _ => Iff.rfl) l
    exact unchanged_of_sorted_perm hs ⟨r, h, key ⟨hp, hs'⟩⟩
  · obtain ⟨r, h, hp, hs'⟩ := merge_sort_spec (fun x : α => x) (fun _ _ => Iff.rfl) l
    exact unchanged_of_sorted_perm hs ⟨r, h, key ⟨hp, hs'⟩⟩
  · obtain ⟨r, h, hp, hs'⟩ := permutation_loop_spec l (l.length.factorial + 1) l
      (List.Perm.refl l) (by
        unfold lexAbove
        have h1 := List.countP_le_length (fun p => decide (List.Lex (· < ·) l p))
          (l := l.permutations)
        rw [List.length_permutations] at h1
        omega)
    exact unchanged_of_sorted_perm hs ⟨r, h, hp, hs'⟩
  · exact unchanged_of_sorted_perm hs (quick_sort_go_spec (l.length + 1) l (by omega))
  · exact unchanged_of_sorted_perm hs (selection_sort_spec l)

/-- Witness for claim C13 on the all-equal sequence `[5, 5, 5]`. -/
theorem sorted_input_unchanged_witness :
    [5, 5, 5].Sorted (· ≤ ·) ∧ bubble_sort [5, 5, 5] = some [5, 5, 5] ∧
    quick_sort [5, 5, 5] = some [5, 5, 5] :=
  ⟨by decide, (sorted_input_unchanged [5, 5, 5] (by decide)).2.1,
    (sorted_input_unchanged [5, 5, 5] (by decide)).2.2.2.2.2.2.2.2.1⟩

end IdempotenceProofs

section LogProofs

variable [LT α] [DecidableRel ((· < ·) : α → α → Prop)]

theorem forward_pass_log_fst (fuel : Nat) :
    ∀ (a : List α) (i last : Nat) (sw : Bool),
      (forward_pass_log fuel a i last sw).1 = forward_pass fuel a i last sw := by
  induction fuel with
  | zero => intro a i last sw; rfl
  | succ fuel ih =>
    intro a i last sw
    unfold forward_pass_log forward_pass
    split_ifs with h1
    · cases h2 : a[i + 1]? <;> cases h3 : a[i]? <;> simp only []
      split_ifs with h4
      · cases h5 : iter_swap a i (i + 1) <;> simp only []
        exact ih _ _ _ _
      · exact ih _ _ _ _
    · rfl

theorem backward_pass_log_fst (fuel : Nat) :
    ∀ (a : List α) (first i : Nat) (sw : Bool),
      (backward_pass_log fuel a first i sw).1 = backward_pass fuel a first i sw := by
  induction fuel with
  | zero => intro a first i sw; rfl
  | succ fuel ih =>
    intro a first i sw
    unfold backward_pass_log backward_pass
    split_ifs with h1 h0
    · rfl
    · cases h2 : a[i]? <;> cases h3 : a[i - 1]? <;> simp only []
      split_ifs with h4
      · cases h5 : iter_swap a i (i - 1) <;> simp only []
        exact ih _ _ _ _
      · exact ih _ _ _ _
    · rfl

/-- A forward pass that returns has accessed positions inside the sequence only, started
at or before `last`, and kept the length. -/
theorem forward_pass_log_safe (fuel : Nat) :
    ∀ (a : List α) (i last : Nat) (sw : Bool) (r : List α × Bool),
      (forward_pass_log fuel a i last sw).1 = some r →
      (∀ k ∈ (forward_pass_log fuel a i last sw).2, k < a.length) ∧ i ≤ last ∧
        r.1.length = a.length := by
  induction fuel with
  | zero => intro a i last sw r h; exact Option.noConfusion h
  | succ fuel ih =>
    intro a i last sw r
    unfold forward_pass_log
    split_ifs with h1
    · cases h2 : a[i + 1]? with
      | none => intro h; exact Option.noConfusion h
      | some y =>
        cases h3 : a[i]? with
        | none => intro h; exact Option.noConfusion h
        | some x =>
          simp only []
          have hi1 := lt_length_of_getElem? h2
          split_ifs with h4
          · cases h5 : iter_swap a i (i + 1) with
            | none => intro h; exact Option.noConfusion h
            | some a' =>
              simp only []
              intro h
              have hlen := iter_swap_length h5
              obtain ⟨hlog, hle, hr⟩ := ih a' (i + 1) last true r h
              refine ⟨?_, by omega, by omega⟩
              intro k hk
              simp only [List.mem_append, List.mem_cons, List.mem_singleton,
                List.not_mem_nil, or_false] at hk
              rcases hk with (hk | hk | hk | hk) | hk
              · omega
              · omega
              · omega
              · omega
              · have := hlog k hk; omega
          · intro h
            obtain ⟨hlog, hle, hr⟩ := ih a (i + 1) last sw r h
            refine ⟨?_, by omega, hr⟩
            intro k hk
            simp only [List.mem_append, List.mem_cons, List.mem_singleton,
              List.not_mem_nil, or_false] at hk
            rcases hk with (hk | hk) | hk
            · omega
            · omega
            · exact hlog k hk
    · intro h
      have : r = (a, sw) := (Option.some.inj h).symm
      subst this
      exact ⟨by simp, by omega, rfl⟩

/-- A backward pass that returns has accessed positions inside the sequence only, started
at or after `first`, and kept the length. -/
theorem backward_pass_log_safe (fuel : Nat) :
    ∀ (a : List α) (first i : Nat) (sw : Bool) (r : List α × Bool),
      (backward_pass_log fuel a first i sw).1 = some r →
      (∀ k ∈ (backward_pass_log fuel a first i sw).2, k < a.length) ∧ first ≤ i ∧
        r.1.length = a.length := by
  induction fuel with
  | zero => intro a first i sw r h; exact Option.noConfusion h
  | succ fuel ih =>
    intro a first i sw r
    unfold backward_pass_log
    split_ifs with h1 h0
    · intro h; cases h
    · cases h2 : a[i]? with
      | none => intro h; exact Option.noConfusion h
      | some x =>
        cases h3 : a[i - 1]? with
        | none => intro h; exact Option.noConfusion h
        | some w =>
          simp only []
          have hi1 := lt_length_of_getElem? h2
          split_ifs with h4
          · cases h5 : iter_swap a i (i - 1) with
            | none => intro h; exact Option.noConfusion h
            | some a' =>
              simp only []
              intro h
              have hlen := iter_swap_length h5
              obtain ⟨hlog, hle, hr⟩ := ih a' first (i - 1) true r h
              refine ⟨?_, by omega, by omega⟩
              intro k hk
              simp only [List.mem_append, List.mem_cons, List.mem_singleton,
                List.not_mem_nil, or_false] at hk
              rcases hk with (hk | hk | hk | hk) | hk
              · omega
              · omega
              · omega
              · omega
              · have := hlog k hk; omega
          · intro h
            obtain ⟨hlog, hle, hr⟩ := ih a first (i - 1) sw r h
            refine ⟨?_, by omega, hr⟩
            intro k hk
            simp only [List.mem_append, List.mem_cons, List.mem_singleton,
              List.not_mem_nil, or_false] at hk
            rcases hk with (hk | hk) | hk
            · omega
            · omega
            · exact hlog k hk
    · intro h
      have : r = (a, sw) := (Option.some.inj h).symm
      subst this
      exact ⟨by simp, by omega, rfl⟩

theorem bubble_loop_log_fst (fuel : Nat) :
    ∀ (a : List α) (first last : Nat) (sw : Bool),
      (bubble_loop_log fuel a first last sw).1 = bubble_loop fuel a first last sw := by
  induction fuel with
  | zero => intro a first last sw; rfl
  | succ fuel ih =>
    intro a first last sw
    unfold bubble_loop_log bubble_loop
    split_ifs with h1
    · simp only []
      rw [← forward_pass_log_fst]
      rcases forward_pass_log (a.length + 1) a first (last - 1) false with ⟨res, log⟩
      cases res with
      | none => rfl
      | some r => exact ih _ _ _ _
    · rfl

/-- A run of the `bubble_sort` loop that returns has accessed positions inside the
sequence only. -/
theorem bubble_loop_log_safe (fuel : Nat) :
    ∀ (a : List α) (first last : Nat) (sw : Bool) (r : List α),
      (bubble_loop_log fuel a first last sw).1 = some r →
      ∀ k ∈ (bubble_loop_log fuel a first last sw).2, k < a.length := by
  induction fuel with
  | zero => intro a first last sw r h; exact Option.noConfusion h
  | succ fuel ih =>
    intro a first last sw r
    unfold bubble_loop_log
    split_ifs with h1
    · simp only []
      have hsafe := forward_pass_log_safe (a.length + 1) a first (last - 1) false
      generalize forward_pass_log (a.length + 1) a first (last - 1) false = fp at hsafe ⊢
      rcases fp with ⟨res, log⟩
      cases res with
      | none => intro h; exact Option.noConfusion h
      | some p =>
        simp only []
        intro h k hk
        obtain ⟨hlog, -, hlen⟩ := hsafe p rfl
        rcases List.mem_append.1 hk with hk | hk
        · exact hlog k hk
        · have := ih p.1 first (last - 1) p.2 r h k hk
          omega
    · intro _ k hk
      exact absurd hk (List.not_mem_nil k)

theorem cocktail_loop_log_fst (fuel : Nat) :
    ∀ (a : List α) (first last : Nat) (sw : Bool),
      (cocktail_loop_log fuel a first last sw).1 = cocktail_loop fuel a first last sw := by
  induction fuel with
  | zero => intro a first last sw; rfl
  | succ fuel ih =>
    intro a first last sw
    unfold cocktail_loop_log cocktail_loop
    split_ifs with h1
    · simp only []
      rw [← forward_pass_log_fst]
      rcases forward_pass_log (a.length + 1) a first (last - 1) false with ⟨res, log⟩
      cases res with
      | none => rfl
      | some r =>
        simp only []
        split_ifs with h2 h3
        · rfl
        · rfl
        · rw [← backward_pass_log_fst]
          rcases backward_pass_log (a.length + 1) r.1 first (last - 1 - 1) false
            with ⟨res', log'⟩
          cases res' with
          | none => rfl
          | some r' => exact ih _ _ _ _
    · rfl

/-- A run of the `cocktail_sort` loop that returns has accessed positions inside the
sequence only, and every pass ran with `first ≤ last`. -/
theorem cocktail_loop_log_safe (fuel : Nat) :
    ∀ (a : List α) (first last : Nat) (sw : Bool) (r : List α),
      (cocktail_loop_log fuel a first last sw).1 = some r →
      (∀ k ∈ (cocktail_loop_log fuel a first last sw).2.1, k < a.length) ∧
      (∀ p ∈ (cocktail_loop_log fuel a first last sw).2.2, p.1 ≤ p.2) := by
  induction fuel with
  | zero => intro a first last sw r h; exact Option.noConfusion h
  | succ fuel ih =>
    intro a first last sw r
    unfold cocktail_loop_log
    split_ifs with h1
    · simp only []
      have hsafe := forward_pass_log_safe (a.length + 1) a first (last - 1) false
      generalize forward_pass_log (a.length + 1) a first (last - 1) false = fp at hsafe ⊢
      rcases fp with ⟨res, log⟩
      cases res with
      | none => intro h; exact Option.noConfusion h
      | some p =>
        simp only []
        obtain ⟨hlog, hfl, hlen⟩ := hsafe p rfl
        split_ifs with h2 h3
        · intro _
          refine ⟨hlog, ?_⟩
          intro q hq
          rw [List.mem_singleton] at hq
          rw [hq]
          exact hfl
        · intro h; cases h
        · have hsafe' := backward_pass_log_safe (a.length + 1) p.1 first (last - 1 - 1) false
          generalize backward_pass_log (a.length + 1) p.1 first (last - 1 - 1) false = bp
            at hsafe' ⊢
          rcases bp with ⟨res', log'⟩
          cases res' with
          | none => intro h; exact Option.noConfusion h
          | some p' =>
            simp only []
            intro h
            obtain ⟨hlog', -, hlen'⟩ := hsafe' p' rfl
            obtain ⟨hrec1, hrec2⟩ := ih p'.1 (first + 1) (last - 1) p'.2 r h
            constructor
            · intro k hk
              simp only [List.mem_append] at hk
              rcases hk with (hk | hk) | hk
              · exact hlog k hk
              · have := hlog' k hk; omega
              · have := hrec1 k hk; omega
            · intro q hq
              simp only [List.mem_append, List.mem_cons, List.mem_singleton,
                List.not_mem_nil, or_false] at hq
              rcases hq with (hq | hq) | hq
              · rw [hq]; exact hfl
              · rw [hq]; exact hfl
              · exact hrec2 q hq
    · intro _
      exact ⟨fun k hk => absurd hk (List.not_mem_nil k), fun q hq => absurd hq (List.not_mem_nil q)⟩

theorem gnome_loop_log_fst (fuel : Nat) :
    ∀ (a : List α) (first i j last : Nat),
      (gnome_loop_log fuel a first i j last).1 = gnome_loop fuel a first i j last := by
  induction fuel with
  | zero => intro a first i j last; rfl
  | succ fuel ih =>
    intro a first i j last
    unfold gnome_loop_log gnome_loop
    by_cases h1 : i < last
    · simp only [if_pos h1]
      by_cases h0 : i = 0
      · simp only [if_pos h0]
      · simp only [if_neg h0]
        cases h2 : a[i]? <;> cases h3 : a[i - 1]? <;> simp only []
        rename_i x w
        by_cases h4 : ¬ (x < w)
        · simp only [if_pos h4]
          exact ih _ _ _ _ _
        · simp only [if_neg h4]
          cases h5 : iter_swap a (i - 1) i <;> simp only []
          by_cases h6 : i - 1 = first
          · simp only [if_pos h6]
            exact ih _ _ _ _ _
          · simp only [if_neg h6]
            exact ih _ _ _ _ _
    · simp only [if_neg h1]

/-- A run of the `gnome_sort` loop that returns has accessed positions inside the
sequence only. -/
theorem gnome_loop_log_safe (fuel : Nat) :
    ∀ (a : List α) (first i j last : Nat) (r : List α),
      (gnome_loop_log fuel a first i j last).1 = some r →
      ∀ k ∈ (gnome_loop_log fuel a first i j last).2, k < a.length := by
  induction fuel with
  | zero => intro a first i j last r h; exact Option.noConfusion h
  | succ fuel ih =>
    intro a first i j last r
    unfold gnome_loop_log
    by_cases h1 : i < last
    · simp only [if_pos h1]
      by_cases h0 : i = 0
      · simp only [if_pos h0]
        intro h; cases h
      · simp only [if_neg h0]
        cases h2 : a[i]? with
        | none => intro h; exact Option.noConfusion h
        | some x =>
          cases h3 : a[i - 1]? with
          | none => intro h; exact Option.noConfusion h
          | some w =>
            simp only []
            have hi1 := lt_length_of_getElem? h2
            have step : ∀ (a' : List α) (i' j' : Nat) (pre : List Nat),
                a'.length = a.length → (∀ k ∈ pre, k < a.length) →
                (gnome_loop_log fuel a' first i' j' last).1 = some r →
                ∀ k ∈ pre ++ (gnome_loop_log fuel a' first i' j' last).2, k < a.length := by
              intro a' i' j' pre hlen hpre h k hk
              rcases List.mem_append.1 hk with hk | hk
              · exact hpre k hk
              · have := ih a' first i' j' last r h k hk
                omega
            by_cases h4 : ¬ (x < w)
            · simp only [if_pos h4]
              intro h
              exact step a j (j + 1) [i, i - 1] rfl
                (by intro k hk; simp at hk; omega) h
            · simp only [if_neg h4]
              cases h5 : iter_swap a (i - 1) i with
              | none => intro h; exact Option.noConfusion h
              | some a' =>
                simp only []
                have hlen := iter_swap_length h5
                by_cases h6 : i - 1 = first
                · simp only [if_pos h6]
                  intro h
                  exact step a' j (j + 1) [i, i - 1, i - 1, i] hlen
                    (by intro k hk; simp at hk; omega) h
                · simp only [if_neg h6]
                  intro h
                  exact step a' (i - 1) j [i, i - 1, i - 1, i] hlen
                    (by intro k hk; simp at hk; omega) h
    · simp only [if_neg h1]
      intro _ k hk
      exact absurd hk (List.not_mem_nil k)

end LogProofs

section IndexSafetyClaim

variable [LinearOrder α]

/-- Claim C20.  Index safety of the hand-written loops.  For every input (of any length
`n`, zero and one included), `bubble_sort`, `cocktail_sort` and `gnome_sort` return, and
every position at which they read, compare or swap an element lies in `[0, n)`; every
pass of `cocktail_sort` runs with boundaries `first ≤ last`.  The logged runs are the
runs of the routines: their results agree. -/
theorem hand_written_loops_index_safe (l : List α) :
    ((bubble_sort_log l).1 = bubble_sort l ∧ (∃ r, bubble_sort l = some r) ∧
      ∀ k ∈ (bubble_sort_log l).2, k < l.length) ∧
    ((cocktail_sort_log l).1 = cocktail_sort l ∧ (∃ r, cocktail_sort l = some r) ∧
      (∀ k ∈ (cocktail_sort_log l).2.1, k < l.length) ∧
      ∀ p ∈ (cocktail_sort_log l).2.2, p.1 ≤ p.2) ∧
    ((gnome_sort_log l).1 = gnome_sort l ∧ (∃ r, gnome_sort l = some r) ∧
      ∀ k ∈ (gnome_sort_log l).2, k < l.length) := by
  obtain ⟨r1, h1, -⟩ := bubble_sort_spec (fun x : α => x) (fun _ _ => Iff.rfl) l
  obtain ⟨r2, h2, -⟩ := cocktail_sort_spec (fun x : α => x) (fun _ _ => Iff.rfl) l
  obtain ⟨r3, h3, -⟩ := gnome_sort_spec (fun x : α => x) (fun _ _ => Iff.rfl) l
  have e1 : (bubble_sort_log l).1 = bubble_sort l := bubble_loop_log_fst _ _ _ _ _
  have e2 : (cocktail_sort_log l).1 = cocktail_sort l := cocktail_loop_log_fst _ _ _ _ _
  have e3 : (gnome_sort_log l).1 = gnome_sort l := gnome_loop_log_fst _ _ _ _ _ _
  refine ⟨⟨e1, ⟨r1, h1⟩, ?_⟩, ⟨e2, ⟨r2, h2⟩, ?_⟩, ⟨e3, ⟨r3, h3⟩, ?_⟩⟩
  · exact bubble_loop_log_safe _ _ _ _ _ r1 (e1.trans h1)
  · exact cocktail_loop_log_safe _ _ _ _ _ r2 (e2.trans h2)
  · exact gnome_loop_log_safe _ _ _ _ _ _ r3 (e3.trans h3)

end IndexSafetyClaim

section RenderingProofs

variable {VT : Type}

theorem string_join_cons (s : String) (ss : List String) :
    String.join (s :: ss) = s ++ String.join ss := by
  apply String.ext
  simp [String.join_eq]

theorem printVect_foldl (render : Int → VT → String) (prec : Int) (delim : String)
    (list : List VT) (acc : String) :
    list.foldl (fun out i => out ++ render prec i ++ delim) acc
      = acc ++ String.join (list.map (fun x => render prec x ++ delim)) := by
  induction list generalizing acc with
  | nil => simp [String.join]
  | cons x l ih =>
    rw [List.foldl_cons, ih, List.map_cons, string_join_cons, String.append_assoc,
      String.append_assoc, String.append_assoc]

/-- Claim C14.  Sequence rendering.  `printVect` writes the concatenation, in list order,
of the fixed-notation rendering of each element at the given precision followed by the
delimiter: nothing for the empty list, and the delimiter once after every element, the
last included.  With `insertion_sort` applied to `[3, 1, 2]`, delimiter `" "` and
precision `0` the text is `"1 2 3 "`. -/
theorem printVect_rendering (render : Int → VT → String) (list : List VT) (prec : Int)
    (delim : String) :
    printVect render list prec delim
      = String.join (list.map (fun x => render prec x ++ delim)) ∧
    printVect render [] prec delim = "" ∧
    (∀ x, printVect render (list ++ [x]) prec delim
      = printVect render list prec delim ++ render prec x ++ delim) ∧
    (insertion_sort [(3 : Int), 1, 2]).map (fun s => printVect render_whole s 0 " ")
      = some "1 2 3 " := by
  refine ⟨?_, rfl, ?_, by decide⟩
  · unfold printVect
    rw [printVect_foldl]
    simp
  · intro x
    unfold printVect
    rw [List.foldl_append]
    rfl

end RenderingProofs

section HarnessLayout

variable {VT : Type}

theorem max_strlen_eq (vect : List Descriptor) :
    max_strlen vect
      = (vect.map (fun d => d.label)).foldl
          (fun len s => if s.length > len then s.length else len) 0 := by
  unfold max_strlen
  rw [List.foldl_map]

theorem labels_of_wellFormed (args : program_args VT) (hwf : args.WellFormed) :
    args.algs.map (fun d => d.label) = declared_algs.map (fun d => d.label) := by
  have := congrArg (List.map Prod.snd) hwf
  simpa [List.map_map, Function.comp] using this

theorem mstr_of_labels (a b : program_args VT)
    (h : a.algs.map (fun d => d.label) = b.algs.map (fun d => d.label)) : a.mstr = b.mstr := by
  unfold program_args.mstr
  rw [max_strlen_eq, max_strlen_eq, h]

theorem mstr_of_wellFormed (args : program_args VT) (hwf : args.WellFormed) :
    args.mstr = 18 := by
  unfold program_args.mstr
  rw [max_strlen_eq, labels_of_wellFormed args hwf]
  decide

theorem pad_left_length (w : Nat) (s : String) :
    (pad_left w s).length = s.length + (w - s.length) := by
  unfold pad_left
  rw [String.length_append]
  show _ + (List.replicate _ _).length = _
  rw [List.length_replicate]

theorem label_of_wellFormed (args : program_args VT) (hwf : args.WellFormed) (d : Descriptor)
    (hd : d ∈ args.algs) : d.label ∈ declared_algs.map (fun d => d.label) := by
  rw [← labels_of_wellFormed args hwf]
  exact List.mem_map_of_mem _ hd

theorem label_length_le (s : String) (hs : s ∈ declared_algs.map (fun d => d.label)) :
    s.length ≤ 18 := by
  have : ∀ s ∈ declared_algs.map (fun d => d.label), s.length ≤ 18 := by decide
  exact this s hs

/-- The text of a reporting harness call (`avg == 1` or `avg_count == avg - 1`). -/
theorem harness_output_report (E : Env VT) (args : program_args VT) (msg : String)
    (sum time : Rat) (list_cp : List VT)
    (hrep : args.avg = 1 ∨ args.avg_count = args.avg - 1) :
    harness_output E args msg sum time list_cp
      = (if args.quiet then "" else "\n\n") ++ pad_left args.mstr msg ++
        (if args.time then
          (if args.avg = 1 then "CPU time: " ++ E.render_time time ++ " s"
           else "Average CPU time: " ++ E.render_time (sum / (args.avg : Rat)) ++ " s")
         else "") ++ "\n" ++
        (if args.quiet then "" else printVect E.render list_cp args.prec args.delim) := by
  unfold harness_output
  have hd : decide (args.avg = 1 ∨ args.avg_count = args.avg - 1) = true := by simpa using hrep
  simp only [hd, if_pos hrep]
  cases hq : args.quiet <;> cases ht : args.time <;> by_cases h1 : args.avg = 1
  all_goals first
    | (simp [h1]; done)
    | (have h2 : args.avg_count = args.avg - 1 := by
        rcases hrep with h | h
        · exact absurd h h1
        · exact h
       simp [h1, h2])

/-- Claim C15.  Report line layout.  In a well-formed configuration the field width
`mstr` is the largest label length, 18, the length of `"Permutation Sort: "`; every label
padded to that width is the label followed by spaces and is exactly 18 characters long.
On a reporting harness call (`avg == 1` or `avg_count == avg - 1`) the text written is:
a blank-line separator unless quiet, the message left-justified in 18 columns, the timing
text iff timing display is on (`CPU time: <time> s` when `avg == 1`, otherwise
`Average CPU time: <sum/avg> s` with the sum just accumulated), a newline, and the
rendered sorted sequence iff quiet is off. -/
theorem report_line_layout (E : Env VT) (args : program_args VT)
    (sorter : List VT → Option (List VT)) (msg : String) (sum time : Rat) (sorted : List VT)
    (hwf : args.WellFormed) (hrep : args.avg = 1 ∨ args.avg_count = args.avg - 1)
    (hsorted : sorter args.list = some sorted) :
    args.mstr = 18 ∧
    (∀ d ∈ args.algs, d.label.length ≤ args.mstr) ∧
    (∃ d ∈ args.algs, d.label = "Permutation Sort: " ∧ d.label.length = args.mstr) ∧
    (∀ d ∈ args.algs,
      pad_left args.mstr d.label
        = d.label ++ String.mk (List.replicate (18 - d.label.length) ' ') ∧
      (pad_left args.mstr d.label).length = 18) ∧
    (sort E args sorter msg sum time).map (fun res => res.text)
      = some ((if args.quiet then "" else "\n\n") ++
          (msg ++ String.mk (List.replicate (18 - msg.length) ' ')) ++
          (if args.time then
            (if args.avg = 1 then "CPU time: " ++ E.render_time time ++ " s"
             else "Average CPU time: " ++ E.render_time ((sum + time) / (args.avg : Rat))
                ++ " s")
           else "") ++ "\n" ++
          (if args.quiet then "" else printVect E.render sorted args.prec args.delim)) := by
  have hm := mstr_of_wellFormed args hwf
  refine ⟨hm, ?_, ?_, ?_, ?_⟩
  · intro d hd
    rw [hm]
    exact label_length_le _ (label_of_wellFormed args hwf d hd)
  · have hl := labels_of_wellFormed args hwf
    have hmem : "Permutation Sort: " ∈ args.algs.map (fun d => d.label) := by
      rw [hl]; decide
    obtain ⟨d, hd, hdl⟩ := List.mem_map.1 hmem
    refine ⟨d, hd, hdl, ?_⟩
    rw [hm, hdl]
    decide
  · intro d hd
    have hle := label_length_le _ (label_of_wellFormed args hwf d hd)
    refine ⟨by rw [hm]; rfl, ?_⟩
    rw [pad_left_length, hm]
    omega
  · unfold sort
    simp only [hsorted, Option.map]
    rw [harness_output_report E args msg (sum + time) time sorted hrep, hm]
    rfl

/-- Witness for claim C15: the configuration with `--alg-all`, `avg = 1`, timing display
off and quiet off, reporting the call of `insertion_sort` on `[3, 1, 2]`. -/
theorem report_line_layout_witness :
    args_all_except.WellFormed ∧
    (args_all_except.avg = 1 ∨ args_all_except.avg_count = args_all_except.avg - 1) ∧
    insertion_sort args_all_except.list = some [1, 2, 3] ∧
    (sort env_demo args_all_except insertion_sort "Insertion Sort: " 0 1).map
        (fun res => res.text)
      = some "\n\nInsertion Sort:   \n1 2 3 " :=
  ⟨rfl, Or.inl rfl, by decide,
    ((report_line_layout env_demo args_all_except insertion_sort "Insertion Sort: " 0 1
      [1, 2, 3] rfl (Or.inl rfl) (by decide)).2.2.2.2).trans (by decide)⟩

end HarnessLayout

section ValidationProofs

variable {VT : Type}

theorem known_name_no_dashes (algs : List Descriptor)
    (h : algs.map (fun d => d.name) = declared_algs.map (fun d => d.name)) (n : String)
    (hn : n ∈ algs.map (fun d => d.name)) : n.toList.take 2 ≠ ['-', '-'] := by
  rw [h] at hn
  have : ∀ s ∈ declared_algs.map (fun d => d.name), s.toList.take 2 ≠ ['-', '-'] := by decide
  exact this n hn

theorem any_name_eq (algs : List Descriptor) (i : String) :
    algs.any (fun e => e.name == i) = decide (i ∈ algs.map (fun d => d.name)) := by
  induction algs with
  | nil => simp
  | cons e t ih =>
    rw [List.any_cons, ih, List.map_cons]
    by_cases he : e.name = i
    · simp [he]
    · have he2 : ¬ i = e.name := fun h => he h.symm
      simp [he, he2]

theorem check_except_success (algs : List Descriptor)
    (h : algs.map (fun d => d.name) = declared_algs.map (fun d => d.name)) :
    ∀ l : List String, check_except algs l = .success ↔ ∀ n ∈ l, n ∈ algs.map (fun d => d.name)
  | [] => by simp [check_except]
  | i :: rest => by
    unfold check_except
    rw [any_name_eq]
    by_cases hk : i ∈ algs.map (fun d => d.name)
    · have hd := known_name_no_dashes algs h i hk
      rw [if_neg hd]
      simp only [hk, decide_True, Bool.not_true, Bool.false_eq_true, if_false]
      rw [check_except_success algs h rest]
      constructor
      · intro hr n hn
        rcases List.mem_cons.1 hn with rfl | hn
        · exact hk
        · exact hr n hn
      · intro hr n hn
        exact hr n (List.mem_cons_of_mem _ hn)
    · have hne : ¬ ∀ n ∈ i :: rest, n ∈ algs.map (fun d => d.name) := by
        intro hall; exact hk (hall i (List.mem_cons_self _ _))
      by_cases hd : i.toList.take 2 = ['-', '-']
      · rw [if_pos hd]; simp only [hne, iff_false]; intro hc; cases hc
      · rw [if_neg hd]
        simp only [hk, decide_False, Bool.not_false, if_true, hne, iff_false]
        intro hc; cases hc

theorem check_except_invalid (algs : List Descriptor)
    (h : algs.map (fun d => d.name) = declared_algs.map (fun d => d.name)) (bad : String)
    (post : List String) (hbad : bad ∉ algs.map (fun d => d.name))
    (hd : bad.toList.take 2 ≠ ['-', '-']) :
    ∀ pre : List String, (∀ n ∈ pre, n ∈ algs.map (fun d => d.name)) →
      check_except algs (pre ++ bad :: post) = .alg_invalid
  | [], _ => by
    simp only [List.nil_append, check_except, if_neg hd, any_name_eq, hbad, decide_False,
      Bool.not_false, if_true]
  | i :: pre, hpre => by
    have hk : i ∈ algs.map (fun d => d.name) := hpre i (List.mem_cons_self _ _)
    have hdi := known_name_no_dashes algs h i hk
    rw [List.cons_append]
    unfold check_except
    rw [if_neg hdi, any_name_eq]
    simp only [hk, decide_True, Bool.not_true, Bool.false_eq_true, if_false]
    exact check_except_invalid algs h bad post hbad hd pre
      (fun n hn => hpre n (List.mem_cons_of_mem _ hn))

theorem check_except_code (algs : List Descriptor) :
    ∀ l : List String, check_except algs l = .success ∨ check_except algs l = .alg_empty ∨
      check_except algs l = .alg_invalid
  | [] => Or.inl rfl
  | i :: rest => by
    unfold check_except
    split_ifs
    · exact Or.inr (Or.inl rfl)
    · exact Or.inr (Or.inr rfl)
    · exact check_except_code algs rest

theorem validate_code_pos (m : Int) (args : program_args VT) (h : validate m args ≠ .success) :
    0 < (validate m args).code := by
  unfold validate at h ⊢
  split_ifs at h ⊢
  all_goals first
    | decide
    | (rcases check_except_code args.algs args.alg_except with hc | hc | hc
       · exact absurd hc h
       · rw [hc]; decide
       · rw [hc]; decide)

theorem main_from_failure (r : returnID) (args : program_args VT) (h : r ≠ .success)
    (hh : r ≠ .success_help) : main_from r args = some (r.code, []) := by
  cases r <;> first | rfl | exact absurd rfl h | exact absurd rfl hh

theorem validate_ne_help (m : Int) (args : program_args VT) :
    validate m args ≠ .success_help := by
  unfold validate
  split_ifs
  all_goals first
    | (intro hc; cases hc)
    | (rcases check_except_code args.algs args.alg_except with hc | hc | hc <;> rw [hc] <;>
        intro hc2 <;> cases hc2)

/-- Claim C16.  Validation.  With help not requested and no conflicting-options
exception, in a well-formed configuration the validation stage returns `success` iff
`0 ≤ prec ≤ max_digits10`, `avg ≥ 1`, the three fill counts are non-negative and every
name in `alg_except` is one of the ten known short names.  Otherwise it returns a
non-zero code, which `main` returns without making any harness call: `avg_under = 3`
when the precision is valid and `avg ≤ 0`; `alg_invalid = 8` when all numeric checks
pass, an exclusion name not starting with `--` is unknown and the names before it are
known. -/
theorem validation_codes (m : Int) (args : program_args VT) (hwf : args.WellFormed) :
    (validate m args = .success ↔
      (0 ≤ args.prec ∧ args.prec ≤ m ∧ 1 ≤ args.avg ∧ 0 ≤ args.fill_rand ∧
        0 ≤ args.fill_forward ∧ 0 ≤ args.fill_backward ∧
        ∀ n ∈ args.alg_except, n ∈ declared_algs.map (fun d => d.name))) ∧
    (validate m args ≠ .success →
      (validate m args).code ≠ 0 ∧
      main_from (validate m args) args = some ((validate m args).code, [])) ∧
    (validate m args = .success →
      main_from (validate m args) args
        = some (0, (trials args).flatMap (policy_calls args))) ∧
    (0 ≤ args.prec → args.prec ≤ m → args.avg ≤ 0 →
      validate m args = .avg_under ∧ (validate m args).code = 3) ∧
    (0 ≤ args.prec → args.prec ≤ m → 1 ≤ args.avg → 0 ≤ args.fill_rand →
      0 ≤ args.fill_forward → 0 ≤ args.fill_backward →
      ∀ pre bad post, args.alg_except = pre ++ bad :: post →
        (∀ n ∈ pre, n ∈ declared_algs.map (fun d => d.name)) →
        bad ∉ declared_algs.map (fun d => d.name) → bad.toList.take 2 ≠ ['-', '-'] →
        validate m args = .alg_invalid ∧ (validate m args).code = 8) := by
  have hnames : args.algs.map (fun d => d.name) = declared_algs.map (fun d => d.name) := by
    have := congrArg (List.map Prod.fst) hwf
    simpa [List.map_map, Function.comp] using this
  refine ⟨?_, ?_, ?_, ?_, ?_⟩
  · unfold validate
    split_ifs with h1 h2 h3 h4 h5 h6
    · constructor
      · intro hc; cases hc
      · rintro ⟨h, -⟩; omega
    · constructor
      · intro hc; cases hc
      · rintro ⟨-, h, -⟩; omega
    · constructor
      · intro hc; cases hc
      · rintro ⟨-, -, h, -⟩; omega
    · constructor
      · intro hc; cases hc
      · rintro ⟨-, -, -, h, -⟩; omega
    · constructor
      · intro hc; cases hc
      · rintro ⟨-, -, -, -, h, -⟩; omega
    · constructor
      · intro hc; cases hc
      · rintro ⟨-, -, -, -, -, h, -⟩; omega
    · rw [check_except_success args.algs hnames, hnames]
      constructor
      · intro h; exact ⟨by omega, by omega, by omega, by omega, by omega, by omega, h⟩
      · intro h; exact h.2.2.2.2.2.2
  · intro h
    exact ⟨(validate_code_pos m args h).ne', main_from_failure _ args h (validate_ne_help m args)⟩
  · intro h
    rw [h]
    have hrun := run_loop_eq ((args.avg - args.avg_count).toNat + 1) args
      (by rw [length_of_wellFormed args hwf]; decide) (Nat.lt_succ_self _)
    simp only [main_from, run, hrun, Option.map]
    rfl
  · intro h1 h2 h3
    have : validate m args = .avg_under := by
      unfold validate
      rw [if_neg (by omega), if_neg (by omega), if_pos h3]
    exact ⟨this, by rw [this]; rfl⟩
  · intro h1 h2 h3 h4 h5 h6 pre bad post hex hpre hbad hd
    have : validate m args = .alg_invalid := by
      unfold validate
      rw [if_neg (by omega), if_neg (by omega), if_neg (by omega), if_neg (by omega),
        if_neg (by omega), if_neg (by omega), hex]
      exact check_except_invalid args.algs hnames bad post (by rw [hnames]; exact hbad) hd pre
        (by rw [hnames]; exact hpre)
    exact ⟨this, by rw [this]; rfl⟩

/-- Witness for claim C16: the configuration with `--alg-all` and the exclusions
`quick-sort`, `heap-sort` is well formed and passes validation for `max_digits10 = 21`. -/
theorem validation_codes_witness :
    args_all_except.WellFormed ∧ validate 21 args_all_except = .success :=
  ⟨rfl, (validation_codes 21 args_all_except rfl).1.2 (by decide)⟩

end ValidationProofs

section FrameProofs

variable {VT : Type}

theorem sort_eq_some (E : Env VT) (args : program_args VT)
    (sorter : List VT → Option (List VT)) (msg : String) (sum time : Rat)
    (res : SortResult VT) (h : sort E args sorter msg sum time = some res) :
    res.input = args.list ∧ sorter args.list = some res.output ∧ res.sum = sum + time ∧
    res.text = harness_output E args msg (sum + time) time res.output := by
  unfold sort at h
  cases hs : sorter args.list with
  | none => simp [hs] at h
  | some sorted =>
    simp only [hs, Option.some.injEq] at h
    subst h
    exact ⟨rfl, rfl, rfl, rfl⟩

theorem map_set_same {β γ : Type} (f : β → γ) (l : List β) (pos : Nat) (j j' : β)
    (hj : l[pos]? = some j) (hf : f j' = f j) : (l.set pos j').map f = l.map f := by
  apply List.ext_getElem?
  intro n
  rw [List.getElem?_map, List.getElem?_map, List.getElem?_set]
  by_cases hn : pos = n
  · subst hn
    rw [if_pos rfl, hj]
    have hlt := lt_length_of_getElem? hj
    simp [hlt, hf]
  · rw [if_neg hn]

theorem harness_step_eq_some (E : Env VT) (st st' : RunState VT) (pos i : Nat)
    (j : Descriptor) (h : harness_step E st pos i j = some st') :
    ∃ f res, lambs[i]? = some f ∧
      sort E st.args (E.routine f) j.label j.sum (E.sample st.args.avg_count pos) = some res ∧
      st' = { args := { st.args with
                        algs := st.args.algs.set pos { j with sum := res.sum } },
              log := st.log ++ [⟨⟨st.args.avg_count, f, j.label, pos⟩, res.input, res.text⟩] } := by
  unfold harness_step at h
  cases hf : lambs[i]? with
  | none => simp [hf] at h
  | some f =>
    cases hs : sort E st.args (E.routine f) j.label j.sum (E.sample st.args.avg_count pos) with
    | none => simp [hf, hs] at h
    | some res =>
      simp only [hf, hs, Option.some.injEq] at h
      exact ⟨f, res, by simp [hf], hs, h.symm⟩

theorem harness_step_frame (E : Env VT) (st st' : RunState VT) (pos i : Nat)
    (j : Descriptor) (hj : st.args.algs[pos]? = some j)
    (h : harness_step E st pos i j = some st') :
    config_of st'.args = config_of st.args ∧ st'.args.avg_count = st.args.avg_count ∧
    (∀ q, q ≠ pos → st'.args.algs[q]? = st.args.algs[q]?) ∧
    st'.args.algs[pos]? = some { j with sum := j.sum + E.sample st.args.avg_count pos } ∧
    ∃ f sorted text, lambs[i]? = some f ∧ E.routine f st.args.list = some sorted ∧
      st'.log = st.log ++ [⟨⟨st.args.avg_count, f, j.label, pos⟩, st.args.list, text⟩] := by
  obtain ⟨f, res, hf, hs, rfl⟩ := harness_step_eq_some E st st' pos i j h
  obtain ⟨hin, hout, hsum, -⟩ := sort_eq_some E st.args _ _ _ _ res hs
  have hlt := lt_length_of_getElem? hj
  refine ⟨?_, rfl, ?_, ?_, f, res.output, res.text, hf, hout, ?_⟩
  · unfold config_of
    simp only
    rw [map_set_same (fun d : Descriptor => (d.name, d.label, d.use)) _ pos j
      { j with sum := res.sum } hj rfl]
  · intro q hq
    simp only
    rw [List.getElem?_set, if_neg (fun h => hq h.symm)]
  · simp only
    rw [List.getElem?_set, if_pos rfl, hsum]
    simp [hlt]
  · simp only [hin]

theorem trial_exec_frame (E : Env VT) :
    ∀ (k pos i : Nat) (st st' : RunState VT), trial_exec E k pos i st = some st' →
      config_of st'.args = config_of st.args ∧ st'.args.avg_count = st.args.avg_count ∧
      ∀ r ∈ st'.log, r ∈ st.log ∨ r.input = st.args.list := by
  intro k
  induction k with
  | zero =>
    intro pos i st st' h
    simp only [trial_exec, Option.some.injEq] at h
    subst h
    exact ⟨rfl, rfl, fun r hr => Or.inl hr⟩
  | succ k ih =>
    intro pos i st st' h
    unfold trial_exec at h
    cases hj : st.args.algs[pos]? with
    | none => simp [hj] at h
    | some j =>
      simp only [hj] at h
      by_cases hc : ((st.args.alg_all || j.use) && !contains st.args.alg_except j.name) = true
      · rw [if_pos hc] at h
        cases hstep : harness_step E st pos i j with
        | none => simp [hstep] at h
        | some st1 =>
          simp only [hstep] at h
          obtain ⟨hcfg, hcnt, -, -, f, sorted, text, -, -, hlog⟩ :=
            harness_step_frame E st st1 pos i j hj hstep
          obtain ⟨hcfg2, hcnt2, hlog2⟩ := ih _ _ st1 st' h
          have hlist : st1.args.list = st.args.list := by
            have := congrArg (fun c => c.2.2.2.2.2.2.1) hcfg
            exact this
          refine ⟨hcfg2.trans hcfg, hcnt2.trans hcnt, ?_⟩
          intro r hr
          rcases hlog2 r hr with h1 | h1
          · rw [hlog] at h1
            rcases List.mem_append.1 h1 with h2 | h2
            · exact Or.inl h2
            · rw [List.mem_singleton] at h2
              subst h2
              exact Or.inr rfl
          · exact Or.inr (h1.trans hlist)
      · rw [if_neg hc] at h
        exact ih _ _ st st' h

theorem run_exec_loop_frame (E : Env VT) :
    ∀ (fuel : Nat) (st st' : RunState VT), run_exec_loop E fuel st = some st' →
      config_of st'.args = config_of st.args ∧
      ∀ r ∈ st'.log, r ∈ st.log ∨ r.input = st.args.list := by
  intro fuel
  induction fuel with
  | zero => intro st st' h; simp [run_exec_loop] at h
  | succ fuel ih =>
    intro st st' h
    unfold run_exec_loop at h
    by_cases hc : st.args.avg_count < st.args.avg
    · rw [if_pos hc] at h
      cases ht : trial_exec E st.args.algs.length 0 0 st with
      | none => simp [ht] at h
      | some st1 =>
        simp only [ht] at h
        obtain ⟨hcfg, -, hlog⟩ := trial_exec_frame E _ _ _ st st1 ht
        obtain ⟨hcfg2, hlog2⟩ := ih _ st' h
        have hcfg3 : config_of st'.args = config_of st1.args := hcfg2
        have hlist : st1.args.list = st.args.list := by
          have := congrArg (fun c => c.2.2.2.2.2.2.1) hcfg
          exact this
        refine ⟨hcfg3.trans hcfg, ?_⟩
        intro r hr
        rcases hlog2 r hr with h1 | h1
        · exact hlog r h1
        · exact Or.inr (h1.trans hlist)
    · rw [if_neg hc, Option.some.injEq] at h
      subst h
      exact ⟨rfl, fun r hr => Or.inl hr⟩

/-- Claim C12.  Non-mutation of the canonical input.  A harness call hands the routine a
copy equal to `args.list`; a harness call made by the run loop changes nothing in the
state but the accumulated sum of the invoked algorithm (and the output): the flags, the
settings, `args.list`, the trial counter and every other descriptor stay as they were.
After a whole run the configuration apart from counter and sums is the initial one, in
particular `args.list` is, and every harness call of every trial received the original
input. -/
theorem canonical_input_preserved (E : Env VT) :
    (∀ (args : program_args VT) (sorter : List VT → Option (List VT)) (msg : String)
        (sum time : Rat) (res : SortResult VT),
      sort E args sorter msg sum time = some res →
        res.input = args.list ∧ sorter args.list = some res.output ∧
        res.sum = sum + time) ∧
    (∀ (st st' : RunState VT) (pos i : Nat) (j : Descriptor),
      st.args.algs[pos]? = some j → harness_step E st pos i j = some st' →
        config_of st'.args = config_of st.args ∧ st'.args.list = st.args.list ∧
        st'.args.avg_count = st.args.avg_count ∧
        (∀ q, q ≠ pos → st'.args.algs[q]? = st.args.algs[q]?) ∧
        st'.args.algs[pos]? = some { j with sum := j.sum + E.sample st.args.avg_count pos } ∧
        ∃ f sorted text, lambs[i]? = some f ∧ E.routine f st.args.list = some sorted ∧
          st'.log
            = st.log ++ [⟨⟨st.args.avg_count, f, j.label, pos⟩, st.args.list, text⟩]) ∧
    (∀ (args : program_args VT) (st : RunState VT), run_exec E args = some st →
      config_of st.args = config_of args ∧ st.args.list = args.list ∧
      ∀ r ∈ st.log, r.input = args.list) := by
  refine ⟨?_, ?_, ?_⟩
  · intro args sorter msg sum time res h
    obtain ⟨h1, h2, h3, -⟩ := sort_eq_some E args sorter msg sum time res h
    exact ⟨h1, h2, h3⟩
  · intro st st' pos i j hj h
    obtain ⟨h1, h2, h3, h4, h5⟩ := harness_step_frame E st st' pos i j hj h
    exact ⟨h1, congrArg (fun c => c.2.2.2.2.2.2.1) h1, h2, h3, h4, h5⟩
  · intro args st h
    obtain ⟨h1, h2⟩ := run_exec_loop_frame E _ ⟨args, []⟩ st h
    refine ⟨h1, congrArg (fun c => c.2.2.2.2.2.2.1) h1, ?_⟩
    intro r hr
    rcases h2 r hr with h3 | h3
    · simp at h3
    · exact h3

end FrameProofs

section AveragingProofs

variable {VT : Type}

theorem harness_output_congr (E : Env VT) (a b : program_args VT) (msg : String)
    (sum time : Rat) (l : List VT) (hq : a.quiet = b.quiet) (ht : a.time = b.time)
    (havg : a.avg = b.avg) (hcnt : a.avg_count = b.avg_count) (hprec : a.prec = b.prec)
    (hdelim : a.delim = b.delim) (hm : a.mstr = b.mstr) :
    harness_output E a msg sum time l = harness_output E b msg sum time l := by
  unfold harness_output
  rw [hq, ht, havg, hcnt, hprec, hdelim, hm]

theorem harness_step_eq (E : Env VT) (st : RunState VT) (pos i : Nat) (j : Descriptor)
    (f : Routine) (out : List VT) (hf : lambs[i]? = some f)
    (hout : E.routine f st.args.list = some out) :
    harness_step E st pos i j
      = some { args := { st.args with
                         algs := st.args.algs.set pos
                           { j with sum := j.sum + E.sample st.args.avg_count pos } },
               log := st.log ++ [⟨⟨st.args.avg_count, f, j.label, pos⟩, st.args.list,
                 harness_output E st.args j.label (j.sum + E.sample st.args.avg_count pos)
                   (E.sample st.args.avg_count pos) out⟩] } := by
  unfold harness_step sort
  simp only [hf, hout]

theorem trial_exec_succ (E : Env VT) (k pos i : Nat) (st : RunState VT) (j : Descriptor)
    (hj : st.args.algs[pos]? = some j) :
    trial_exec E (k + 1) pos i st
      = if selected st.args j then
          (harness_step E st pos i j).bind (trial_exec E k (pos + 1) (i + 1))
        else trial_exec E k (pos + 1) (i + 1) st := by
  rw [trial_exec]
  simp only [hj]
  rw [condition_eq_selected]
  by_cases hs : selected st.args j
  · simp only [hs, decide_True, if_true]
    cases harness_step E st pos i j <;> rfl
  · simp only [hs, decide_False, if_false, Bool.false_eq_true]

theorem bump_name (E : Env VT) (a : program_args VT) (p : Nat) (d : Descriptor) :
    (bump E a p d).name = d.name ∧ (bump E a p d).label = d.label ∧
    (bump E a p d).use = d.use := by
  unfold bump
  split_ifs <;> exact ⟨rfl, rfl, rfl⟩

theorem bumpFrom_length (E : Env VT) (a : program_args VT) :
    ∀ (ds : List Descriptor) (k : Nat), (bumpFrom E a k ds).length = ds.length
  | [], _ => rfl
  | d :: ds, k => by simp [bumpFrom, bumpFrom_length E a ds (k + 1)]

theorem bumpFrom_labels (E : Env VT) (a : program_args VT) :
    ∀ (ds : List Descriptor) (k : Nat),
      (bumpFrom E a k ds).map (fun d => d.label) = ds.map (fun d => d.label)
  | [], _ => rfl
  | d :: ds, k => by
    simp only [bumpFrom, List.map_cons, bumpFrom_labels E a ds (k + 1), (bump_name E a k d).2.1]

theorem getElem?_bumpFrom (E : Env VT) (a : program_args VT) :
    ∀ (ds : List Descriptor) (k i : Nat),
      (bumpFrom E a k ds)[i]? = (ds[i]?).map (bump E a (k + i))
  | [], _, _ => by simp [bumpFrom]
  | d :: ds, k, 0 => by simp [bumpFrom]
  | d :: ds, k, i + 1 => by
    simp only [bumpFrom, List.getElem?_cons_succ, getElem?_bumpFrom E a ds (k + 1) i]
    rw [show k + 1 + i = k + (i + 1) by omega]

/-- One trial: the inner loop started at position `done.length` with the descriptors
`rest` still to visit adds to every selected descriptor its sample and logs one record
for each of them. -/
theorem trial_exec_eq (E : Env VT) (sorted : Routine → List VT) (base : program_args VT) :
    ∀ (rest done' : List Descriptor) (log : List (HarnessRecord VT)),
      (done' ++ rest).map (fun d => d.label) = base.algs.map (fun d => d.label) →
      done'.length + rest.length ≤ lambs.length →
      (∀ i d f, rest[i]? = some d → lambs[done'.length + i]? = some f → selected base d →
        E.routine f base.list = some (sorted f)) →
      trial_exec E rest.length done'.length done'.length
          ⟨{ base with algs := done' ++ rest }, log⟩
        = some ⟨{ base with algs := done' ++ bumpFrom E base done'.length rest },
            log ++ recsFrom E sorted base done'.length rest⟩ := by
  intro rest
  induction rest with
  | nil =>
    intro done' log _ _ _
    simp [trial_exec, bumpFrom, recsFrom]
  | cons j rest ih =>
    intro done' log hlab hlen hret
    rw [List.length_cons, trial_exec_succ E _ _ _ _ j (getElem?_mid done' j rest)]
    have hlt : done'.length < lambs.length := by
      simp only [List.length_cons] at hlen; omega
    obtain ⟨f, hf⟩ := getElem?_some_of_lt hlt
    have hlab' : ∀ j' : Descriptor, j'.label = j.label →
        ((done' ++ [j']) ++ rest).map (fun d => d.label) = base.algs.map (fun d => d.label) := by
      intro j' hj'
      rw [← hlab]
      simp [hj']
    have hlen' : (done' ++ [j]).length + rest.length ≤ lambs.length := by
      simp only [List.length_cons, List.length_append, List.length_nil] at hlen ⊢; omega
    have hret' : ∀ i d f, rest[i]? = some d → lambs[done'.length + 1 + i]? = some f →
        selected base d → E.routine f base.list = some (sorted f) := by
      intro i d f hd hf hs
      apply hret (i + 1) d f
      · simpa using hd
      · rw [show done'.length + (i + 1) = done'.length + 1 + i by omega]; exact hf
      · exact hs
    by_cases hs : selected base j
    · have hs' : selected ({ base with algs := done' ++ j :: rest } : program_args VT) j := hs
      rw [if_pos hs']
      have hout : E.routine f base.list = some (sorted f) :=
        hret 0 j f (by simp) (by simpa using hf) hs
      rw [harness_step_eq E _ _ _ j f (sorted f) hf hout]
      simp only [Option.bind]
      rw [set_mid]
      have hb : bump E base done'.length j
          = { j with sum := j.sum + E.sample base.avg_count done'.length } := by
        unfold bump; rw [if_pos hs]
      have ih' := ih (done' ++ [bump E base done'.length j])
        (log ++ [record_of E sorted base done'.length j f])
        (hlab' _ (bump_name E base done'.length j).2.1)
        (by simp only [List.length_append, List.length_cons, List.length_nil] at hlen' ⊢
            exact hlen')
        (by simpa using hret')
      have hm : program_args.mstr ({ base with algs := done' ++ j :: rest } : program_args VT)
          = base.mstr := mstr_of_labels _ _ hlab
      have hrec : (⟨⟨base.avg_count, f, j.label, done'.length⟩, base.list,
          harness_output E ({ base with algs := done' ++ j :: rest } : program_args VT) j.label
            (j.sum + E.sample base.avg_count done'.length)
            (E.sample base.avg_count done'.length) (sorted f)⟩ : HarnessRecord VT)
          = record_of E sorted base done'.length j f := by
        unfold record_of
        rw [harness_output_congr E ({ base with algs := done' ++ j :: rest } : program_args VT)
          base _ _ _ _ rfl rfl rfl rfl rfl rfl hm]
      simp only [List.length_append, List.length_cons, List.length_nil, zero_add,
        List.append_assoc, List.singleton_append] at ih'
      rw [hb] at ih'
      simp only [hrec]
      rw [ih']
      simp only [bumpFrom, recsFrom, if_pos hs, hf, hb, List.singleton_append]
    · have hs' : ¬ selected ({ base with algs := done' ++ j :: rest } : program_args VT) j := hs
      rw [if_neg hs']
      have hb : bump E base done'.length j = j := by
        unfold bump; rw [if_neg hs]
      have ih' := ih (done' ++ [j]) log (hlab' j rfl) hlen' (by simpa using hret')
      simp only [List.length_append, List.length_cons, List.length_nil, zero_add,
        List.append_assoc, List.singleton_append] at ih'
      rw [ih']
      simp only [bumpFrom, recsFrom, if_neg hs, hb, List.nil_append]

theorem after_trial_selected (E : Env VT) (a : program_args VT) (p : Nat) (d : Descriptor) :
    selected (after_trial E a) (bump E a p d) ↔ selected a d := by
  unfold selected after_trial
  simp only [(bump_name E a p d).1, (bump_name E a p d).2.2]

theorem after_trial_mstr (E : Env VT) (a : program_args VT) :
    (after_trial E a).mstr = a.mstr :=
  mstr_of_labels _ _ (bumpFrom_labels E a a.algs 0)

theorem after_trial_getElem? (E : Env VT) (a : program_args VT) (p : Nat) :
    (after_trial E a).algs[p]? = (a.algs[p]?).map (bump E a p) := by
  have := getElem?_bumpFrom E a a.algs 0 p
  rw [Nat.zero_add] at this
  exact this

/-- The run loop: with enough fuel, and when every selected routine returns on the
canonical input, the run returns the state `spec_run` describes. -/
theorem run_exec_loop_eq (E : Env VT) (sorted : Routine → List VT) :
    ∀ (fuel : Nat) (a : program_args VT) (log : List (HarnessRecord VT)),
      (a.avg - a.avg_count).toNat < fuel → a.algs.length ≤ lambs.length →
      (∀ (p : Nat) (d : Descriptor) (f : Routine), a.algs[p]? = some d →
        lambs[p]? = some f → selected a d → E.routine f a.list = some (sorted f)) →
      run_exec_loop E fuel ⟨a, log⟩
        = some (spec_run E sorted (a.avg - a.avg_count).toNat a log) := by
  intro fuel
  induction fuel with
  | zero => intro a log h; omega
  | succ fuel ih =>
    intro a log hfuel hlen hret
    unfold run_exec_loop
    by_cases hc : a.avg_count < a.avg
    · simp only [if_pos hc]
      have hret0 : ∀ (i : Nat) (d : Descriptor) (f : Routine), a.algs[i]? = some d →
          lambs[([] : List Descriptor).length + i]? = some f → selected a d →
          E.routine f a.list = some (sorted f) := by
        intro i d f hd hf hs
        rw [List.length_nil, Nat.zero_add] at hf
        exact hret i d f hd hf hs
      have ht := trial_exec_eq E sorted a a.algs [] log rfl (by simpa using hlen) hret0
      simp only [List.nil_append, List.length_nil] at ht
      have hst : (⟨a, log⟩ : RunState VT) = ⟨{ a with algs := a.algs }, log⟩ := rfl
      rw [hst, ht]
      simp only
      obtain ⟨m, hm⟩ : ∃ m : Nat, (a.avg - a.avg_count).toNat = m + 1 :=
        ⟨(a.avg - a.avg_count).toNat - 1, by omega⟩
      have hm' : ((after_trial E a).avg - (after_trial E a).avg_count).toNat = m := by
        show (a.avg - (a.avg_count + 1)).toNat = m
        omega
      have ih' := ih (after_trial E a) (log ++ recsFrom E sorted a 0 a.algs)
        (by rw [hm']; omega)
        (by show (bumpFrom E a 0 a.algs).length ≤ lambs.length
            rw [bumpFrom_length]; exact hlen)
        (by
          intro p d' f hd' hf hs
          rw [after_trial_getElem?] at hd'
          cases hd : a.algs[p]? with
          | none => rw [hd] at hd'; simp at hd'
          | some d =>
            rw [hd] at hd'
            simp only [Option.map, Option.some.injEq] at hd'
            subst hd'
            exact hret p d f hd hf ((after_trial_selected E a p d).1 hs))
      rw [hm, spec_run, ← hm']
      exact ih'
    · simp only [if_neg hc]
      have h0 : (a.avg - a.avg_count).toNat = 0 := by omega
      rw [h0]
      rfl

theorem samples_sum_zero (E : Env VT) (t : Int) (p : Nat) : samples_sum E t 0 p = 0 := rfl

theorem samples_sum_succ (E : Env VT) (t : Int) (n p : Nat) :
    samples_sum E t (n + 1) p = E.sample t p + samples_sum E (t + 1) n p := by
  unfold samples_sum
  rw [List.range_succ_eq_map, List.map_cons, List.sum_cons, List.map_map]
  congr 1
  · simp
  · congr 1
    apply List.map_congr_left
    intro k _
    simp only [Function.comp]
    congr 1
    show t + ((k + 1 : Nat) : Int) = t + 1 + (k : Int)
    push_cast
    ring

theorem samples_sum_one (E : Env VT) (t : Int) (p : Nat) :
    samples_sum E t 1 p = E.sample t p := by
  rw [samples_sum_succ, samples_sum_zero, add_zero]

/-- The sums after `n` trials. -/
theorem spec_run_sums (E : Env VT) (sorted : Routine → List VT) :
    ∀ (n : Nat) (a : program_args VT) (log : List (HarnessRecord VT)) (p : Nat)
      (d : Descriptor), a.algs[p]? = some d →
      (spec_run E sorted n a log).args.algs[p]?
        = some (if selected a d then
            { d with sum := d.sum + samples_sum E a.avg_count n p } else d) := by
  intro n
  induction n with
  | zero =>
    intro a log p d hd
    simp only [spec_run, samples_sum_zero, add_zero, hd]
    split_ifs <;> rfl
  | succ n ih =>
    intro a log p d hd
    rw [spec_run]
    have hd' : (after_trial E a).algs[p]? = some (bump E a p d) := by
      rw [after_trial_getElem?, hd]; rfl
    rw [ih _ _ p _ hd']
    by_cases hs : selected a d
    · rw [if_pos ((after_trial_selected E a p d).2 hs), if_pos hs]
      have hb : bump E a p d = { d with sum := d.sum + E.sample a.avg_count p } := by
        unfold bump; rw [if_pos hs]
      rw [hb, samples_sum_succ]
      have hassoc : d.sum + E.sample a.avg_count p + samples_sum E (a.avg_count + 1) n p
          = d.sum + (E.sample a.avg_count p + samples_sum E (a.avg_count + 1) n p) :=
        add_assoc _ _ _
      exact congrArg (fun q : Rat => some (Descriptor.mk d.name d.label q d.use)) hassoc
    · rw [if_neg (fun h => hs ((after_trial_selected E a p d).1 h)), if_neg hs]
      unfold bump; rw [if_neg hs]

/-- The configuration after `n` trials apart from sums and counter. -/
theorem spec_run_list (E : Env VT) (sorted : Routine → List VT) :
    ∀ (n : Nat) (a : program_args VT) (log : List (HarnessRecord VT)),
      (spec_run E sorted n a log).args.list = a.list
  | 0, _, _ => rfl
  | n + 1, a, log => by
    rw [spec_run, spec_run_list E sorted n]
    rfl

theorem mem_recsFrom (E : Env VT) (sorted : Routine → List VT) (a : program_args VT)
    (r : HarnessRecord VT) :
    ∀ (ds : List Descriptor) (k : Nat), r ∈ recsFrom E sorted a k ds →
      ∃ i d f, ds[i]? = some d ∧ lambs[k + i]? = some f ∧ selected a d ∧
        r = record_of E sorted a (k + i) d f
  | [], _, h => by simp [recsFrom] at h
  | d :: ds, k, h => by
    rw [recsFrom, List.mem_append] at h
    rcases h with h | h
    · by_cases hs : selected a d
      · rw [if_pos hs] at h
        cases hf : lambs[k]? with
        | none => rw [hf] at h; simp at h
        | some f =>
          rw [hf] at h
          simp only [List.mem_singleton] at h
          exact ⟨0, d, f, by simp, hf, hs, h⟩
      · rw [if_neg hs] at h; simp at h
    · obtain ⟨i, d', f, h1, h2, h3, h4⟩ := mem_recsFrom E sorted a r ds (k + 1) h
      refine ⟨i + 1, d', f, by simpa using h1, ?_, h3, ?_⟩
      · rw [show k + (i + 1) = k + 1 + i by omega]; exact h2
      · rw [show k + (i + 1) = k + 1 + i by omega]; exact h4

/-- Every record of the `n` trials from `a`: it belongs to a trial `a.avg_count + k` with
`k < n` and to a selected descriptor; it holds the canonical input and the text of the
harness for the sum accumulated up to and including that trial. -/
theorem spec_run_records (E : Env VT) (sorted : Routine → List VT) :
    ∀ (n : Nat) (a : program_args VT) (log : List (HarnessRecord VT)) (r : HarnessRecord VT),
      r ∈ (spec_run E sorted n a log).log → r ∈ log ∨
      ∃ (k : Nat) (d : Descriptor), k < n ∧ r.call.trial = a.avg_count + Int.ofNat k ∧
        a.algs[r.call.sumOf]? = some d ∧ selected a d ∧
        lambs[r.call.sumOf]? = some r.call.sorter ∧ r.call.msg = d.label ∧
        r.input = a.list ∧
        r.text = harness_output E { a with avg_count := a.avg_count + Int.ofNat k } d.label
          (d.sum + samples_sum E a.avg_count (k + 1) r.call.sumOf)
          (E.sample (a.avg_count + Int.ofNat k) r.call.sumOf) (sorted r.call.sorter) := by
  intro n
  induction n with
  | zero => intro a log r h; exact Or.inl h
  | succ n ih =>
    intro a log r h
    rw [spec_run] at h
    rcases ih _ _ r h with h1 | ⟨k, d', hk, htr, hd', hs', hf, hmsg, hin, htext⟩
    · rcases List.mem_append.1 h1 with h2 | h2
      · exact Or.inl h2
      · right
        obtain ⟨i, d, f, hd, hf, hs, rfl⟩ := mem_recsFrom E sorted a r a.algs 0 h2
        refine ⟨0, d, Nat.succ_pos _, ?_, ?_, hs, ?_, rfl, rfl, ?_⟩
        · simp [record_of]
        · simpa [record_of] using hd
        · simpa [record_of] using hf
        · simp only [record_of, Nat.zero_add, samples_sum_one]
          have h0 : a.avg_count + Int.ofNat 0 = a.avg_count := by simp
          rw [h0]
    · right
      rw [after_trial_getElem?] at hd'
      cases hd : a.algs[r.call.sumOf]? with
      | none => rw [hd] at hd'; simp at hd'
      | some d =>
        rw [hd] at hd'
        simp only [Option.map, Option.some.injEq] at hd'
        subst hd'
        have hs : selected a d := (after_trial_selected E a _ d).1 hs'
        have hb : bump E a r.call.sumOf d
            = { d with sum := d.sum + E.sample a.avg_count r.call.sumOf } := by
          unfold bump; rw [if_pos hs]
        have hcnt : a.avg_count + 1 + Int.ofNat k = a.avg_count + Int.ofNat (k + 1) := by
          show a.avg_count + 1 + (k : Int) = a.avg_count + ((k + 1 : Nat) : Int)
          push_cast; ring
        refine ⟨k + 1, d, Nat.succ_lt_succ hk, ?_, rfl, hs, hf, ?_, hin, ?_⟩
        · rw [htr]; exact hcnt
        · rw [hmsg, (bump_name E a _ d).2.1]
        · rw [htext, (bump_name E a _ d).2.1, hb]
          show harness_output E _ d.label
            (d.sum + E.sample a.avg_count r.call.sumOf
              + samples_sum E (a.avg_count + 1) (k + 1) r.call.sumOf)
            (E.sample (a.avg_count + 1 + Int.ofNat k) r.call.sumOf) (sorted r.call.sorter) = _
          rw [samples_sum_succ E a.avg_count (k + 1), add_assoc, hcnt]
          exact harness_output_congr E _ _ _ _ _ _ rfl rfl rfl hcnt rfl rfl
            (after_trial_mstr E a)

theorem recsFrom_calls (E : Env VT) (sorted : Routine → List VT) (a : program_args VT) :
    ∀ (ds : List Descriptor) (k : Nat), ds.length + k ≤ lambs.length →
      (recsFrom E sorted a k ds).map (fun r => r.call)
        = (((ds.zip (lambs.drop k)).enumFrom k).filter
            (fun p => decide (selected a p.2.1))).map
              (fun p => ⟨a.avg_count, p.2.2, p.2.1.label, p.1⟩) := by
  intro ds
  induction ds with
  | nil => intro k _; simp [recsFrom]
  | cons j ds ih =>
    intro k hlen
    have hk : k < lambs.length := by simp at hlen; omega
    rw [recsFrom, List.map_append, ih (k + 1) (by simp at hlen; omega),
      List.getElem?_eq_getElem hk, List.drop_eq_getElem_cons hk]
    simp only [List.zip_cons_cons, List.enumFrom_cons, List.filter_cons]
    by_cases hsel : selected a j
    · simp [hsel, record_of]
    · simp [hsel]

theorem policy_calls_bumpFrom (E : Env VT) (a : program_args VT) (t : Int) :
    ∀ (ds : List Descriptor) (k : Nat) (ls : List Routine) (m : Nat),
      ((((bumpFrom E a k ds).zip ls).enumFrom m).filter
          (fun p => decide (selected (after_trial E a) p.2.1))).map
            (fun p => (⟨t, p.2.2, p.2.1.label, p.1⟩ : HarnessCall))
        = (((ds.zip ls).enumFrom m).filter (fun p => decide (selected a p.2.1))).map
            (fun p => (⟨t, p.2.2, p.2.1.label, p.1⟩ : HarnessCall)) := by
  intro ds
  induction ds with
  | nil => intro k ls m; simp [bumpFrom]
  | cons j ds ih =>
    intro k ls m
    cases ls with
    | nil => simp [bumpFrom]
    | cons f ls =>
      simp only [bumpFrom, List.zip_cons_cons, List.enumFrom_cons, List.filter_cons]
      have hiff := after_trial_selected E a k j
      by_cases hsel : selected a j
      · simp only [hiff.2 hsel, hsel, decide_True, if_true, List.map_cons, ih,
          (bump_name E a k j).2.1]
      · have hn : ¬ selected (after_trial E a) (bump E a k j) := fun h => hsel (hiff.1 h)
        simp only [hn, hsel, decide_False, if_false, Bool.false_eq_true, ih]

theorem policy_calls_after (E : Env VT) (a : program_args VT) (t : Int) :
    policy_calls (after_trial E a) t = policy_calls a t := by
  unfold policy_calls List.enum
  exact policy_calls_bumpFrom E a t a.algs 0 lambs 0

/-- The harness calls of the `n = avg - avg_count` trials from `a` are the ones the
selection policy prescribes, trial after trial. -/
theorem spec_run_calls (E : Env VT) (sorted : Routine → List VT) :
    ∀ (n : Nat) (a : program_args VT) (log : List (HarnessRecord VT)),
      (a.avg - a.avg_count).toNat = n → a.algs.length ≤ lambs.length →
      (spec_run E sorted n a log).log.map (fun r => r.call)
        = log.map (fun r => r.call) ++ (trials a).flatMap (policy_calls a) := by
  intro n
  induction n with
  | zero =>
    intro a log hn _
    simp [spec_run, trials, hn]
  | succ n ih =>
    intro a log hn hlen
    have hlt : a.avg_count < a.avg := by omega
    have hn' : ((after_trial E a).avg - (after_trial E a).avg_count).toNat = n := by
      show (a.avg - (a.avg_count + 1)).toNat = n
      omega
    have hlen' : (after_trial E a).algs.length ≤ lambs.length := by
      show (bumpFrom E a 0 a.algs).length ≤ lambs.length
      rw [bumpFrom_length]; exact hlen
    rw [spec_run, ih _ _ hn' hlen', List.map_append, recsFrom_calls E sorted a a.algs 0
      (by simpa using hlen), trials_step a hlt, List.flatMap_cons, List.append_assoc]
    have htr : trials (after_trial E a) = trials { a with avg_count := a.avg_count + 1 } := rfl
    have hpc : policy_calls (after_trial E a) = policy_calls a := by
      funext t; exact policy_calls_after E a t
    rw [htr, hpc]
    rfl

theorem enumFrom_filter_index_lt {β : Type} (P : Nat × β → Bool) :
    ∀ (l : List β) (m p : Nat), p < m →
      (l.enumFrom m).filter (fun x => decide (x.1 = p) && P x) = []
  | [], _, _, _ => rfl
  | y :: l, m, p, h => by
    rw [List.enumFrom_cons, List.filter_cons]
    have hne : ¬ m = p := by omega
    simp only [hne, decide_False, Bool.false_and, Bool.false_eq_true, if_false]
    exact enumFrom_filter_index_lt P l (m + 1) p (by omega)

theorem enumFrom_filter_index {β : Type} (P : Nat × β → Bool) :
    ∀ (l : List β) (m p : Nat) (y : β), m ≤ p → l[p - m]? = some y →
      (l.enumFrom m).filter (fun x => decide (x.1 = p) && P x)
        = if P (p, y) then [(p, y)] else []
  | [], _, _, _, _, h => by simp at h
  | z :: l, m, p, y, hle, h => by
    rw [List.enumFrom_cons, List.filter_cons]
    by_cases hm : m = p
    · subst hm
      rw [Nat.sub_self] at h
      simp only [List.getElem?_cons_zero, Option.some.injEq] at h
      subst h
      simp only [decide_True, Bool.true_and]
      rw [enumFrom_filter_index_lt P l (m + 1) m (Nat.lt_succ_self _)]
    · simp only [hm, decide_False, Bool.false_and, Bool.false_eq_true, if_false]
      have hsub : p - m = (p - (m + 1)) + 1 := by omega
      rw [hsub, List.getElem?_cons_succ] at h
      exact enumFrom_filter_index P l (m + 1) p y (by omega) h

/-- The calls of one trial for the descriptor at position `p`: one call when it is
selected, none otherwise. -/
theorem policy_calls_filter (a : program_args VT) (t : Int) (p : Nat) (d : Descriptor)
    (f : Routine) (hd : a.algs[p]? = some d) (hf : lambs[p]? = some f) :
    (policy_calls a t).filter (fun c => decide (c.sumOf = p))
      = if selected a d then [⟨t, f, d.label, p⟩] else [] := by
  unfold policy_calls List.enum
  rw [List.filter_map, List.filter_filter]
  have hz : (a.algs.zip lambs)[p - 0]? = some (d, f) := by
    rw [Nat.sub_zero]
    exact List.getElem?_zip_eq_some.2 ⟨hd, hf⟩
  have := enumFrom_filter_index (fun x : Nat × Descriptor × Routine => decide (selected a x.2.1))
    (a.algs.zip lambs) 0 p (d, f) (Nat.zero_le _) hz
  simp only [Function.comp] at this ⊢
  rw [this]
  by_cases hs : selected a d
  · simp [hs]
  · simp [hs]

theorem mem_policy_calls_of (a : program_args VT) (t : Int) (p : Nat) (d : Descriptor)
    (f : Routine) (hd : a.algs[p]? = some d) (hf : lambs[p]? = some f) (hs : selected a d) :
    (⟨t, f, d.label, p⟩ : HarnessCall) ∈ policy_calls a t := by
  have h := policy_calls_filter a t p d f hd hf
  rw [if_pos hs] at h
  have hm : (⟨t, f, d.label, p⟩ : HarnessCall)
      ∈ (policy_calls a t).filter (fun c => decide (c.sumOf = p)) := by
    rw [h]; exact List.mem_singleton_self _
  exact (List.mem_filter.1 hm).1

theorem harness_output_silent (E : Env VT) (args : program_args VT) (msg : String)
    (sum time : Rat) (list_cp : List VT) (h1 : args.avg ≠ 1)
    (h2 : args.avg_count ≠ args.avg - 1) :
    harness_output E args msg sum time list_cp = "" := by
  unfold harness_output
  simp only [h1, h2, or_self, decide_False, Bool.and_false, Bool.false_eq_true, if_false]
  rfl

theorem harness_output_nonempty (E : Env VT) (args : program_args VT) (msg : String)
    (sum time : Rat) (list_cp : List VT)
    (hrep : args.avg = 1 ∨ args.avg_count = args.avg - 1) :
    harness_output E args msg sum time list_cp ≠ "" := by
  rw [harness_output_report E args msg sum time list_cp hrep]
  intro h
  have hl := congrArg String.length h
  simp only [String.length_append] at hl
  have h1 : "\n".length = 1 := rfl
  have h0 : "".length = 0 := rfl
  rw [h1, h0] at hl
  omega

/-- Claim C11.  Averaging and report-once.  In a well-formed configuration with
`avg = N ≥ 1`, the counter at `0`, and every routine the policy selects returning on the
canonical input, the run returns, and: its harness calls are the policy's calls of the
trials `0, ..., N - 1`, so every selected algorithm is called exactly `N` times, once per
trial index, and an unselected one never; after the run the sum of a selected algorithm
is its initial sum (zero in the declared descriptors) plus the sum of its `N` samples;
a harness call writes nothing in the trials other than `N - 1` and writes something in
trial `N - 1`; and when `N > 1` with timing display on, the text of the call of trial
`N - 1` shows as average the final accumulated sum divided by `N`. -/
theorem averaging_and_report_once (E : Env VT) (args : program_args VT)
    (sorted : Routine → List VT) (N : Nat) (hwf : args.WellFormed) (hN : 1 ≤ N)
    (havg : args.avg = Int.ofNat N) (h0 : args.avg_count = 0)
    (hret : ∀ c ∈ policy_calls args 0,
      E.routine c.sorter args.list = some (sorted c.sorter)) :
    ∃ st, run_exec E args = some st ∧
      st.log.map (fun r => r.call) = (trials args).flatMap (policy_calls args) ∧
      trials args = (List.range N).map Int.ofNat ∧
      (∀ (p : Nat) (d : Descriptor), args.algs[p]? = some d →
        (st.log.filter (fun r => decide (r.call.sumOf = p))).map (fun r => r.call.trial)
          = (if selected args d then (List.range N).map Int.ofNat else []) ∧
        ∃ d', st.args.algs[p]? = some d' ∧
          d'.sum = d.sum + (if selected args d then samples_sum E 0 N p else 0)) ∧
      (∀ r ∈ st.log, (r.call.trial ≠ Int.ofNat N - 1 → r.text = "") ∧
        (r.call.trial = Int.ofNat N - 1 → r.text ≠ "")) ∧
      (1 < N → args.time = true → ∀ r ∈ st.log, r.call.trial = Int.ofNat N - 1 →
        ∃ d', st.args.algs[r.call.sumOf]? = some d' ∧
          r.text = (if args.quiet then "" else "\n\n") ++ pad_left 18 r.call.msg ++
            ("Average CPU time: " ++ E.render_time (d'.sum / (N : Rat)) ++ " s") ++ "\n" ++
            (if args.quiet then ""
             else printVect E.render (sorted r.call.sorter) args.prec args.delim)) := by
  have hlen : args.algs.length ≤ lambs.length := by
    rw [length_of_wellFormed args hwf]; decide
  have hn : (args.avg - args.avg_count).toNat = N := by
    rw [havg, h0]; simp
  have hret' : ∀ (p : Nat) (d : Descriptor) (f : Routine), args.algs[p]? = some d →
      lambs[p]? = some f → selected args d → E.routine f args.list = some (sorted f) := by
    intro p d f hd hf hs
    exact hret _ (mem_policy_calls_of args 0 p d f hd hf hs)
  have hrun : run_exec E args = some (spec_run E sorted N args []) := by
    unfold run_exec
    rw [run_exec_loop_eq E sorted _ args [] (Nat.lt_succ_self _) hlen hret', hn]
  have hcalls := spec_run_calls E sorted N args [] hn hlen
  rw [List.map_nil, List.nil_append] at hcalls
  have htrials : trials args = (List.range N).map Int.ofNat := by
    unfold trials
    rw [hn, h0]
    apply List.map_congr_left
    intro k _
    simp
  have hrec := spec_run_records E sorted N args []
  refine ⟨_, hrun, hcalls, htrials, ?_, ?_, ?_⟩
  · intro p d hd
    constructor
    · have hp : p < lambs.length := Nat.lt_of_lt_of_le (lt_length_of_getElem? hd) hlen
      obtain ⟨f, hf⟩ := getElem?_some_of_lt hp
      have h1 : (List.filter (fun r => decide (r.call.sumOf = p))
            (spec_run E sorted N args []).log).map (fun r => r.call.trial)
          = (((spec_run E sorted N args []).log.map (fun r => r.call)).filter
              (fun c => decide (c.sumOf = p))).map (fun c => c.trial) := by
        rw [List.filter_map, List.map_map]
        rfl
      rw [h1, hcalls, List.filter_flatMap, List.map_flatMap, htrials, List.flatMap_map]
      simp only [policy_calls_filter args _ p d f hd hf]
      by_cases hs : selected args d
      · simp only [if_pos hs, List.map_cons, List.map_nil]
        generalize List.range N = ks
        induction ks with
        | nil => rfl
        | cons k ks ih => rw [List.flatMap_cons, ih]; rfl
      · simp only [if_neg hs, List.map_nil]
        generalize List.range N = ks
        induction ks with
        | nil => rfl
        | cons k ks ih => rw [List.flatMap_cons, ih]; rfl
    · have hs := spec_run_sums E sorted N args [] p d hd
      rw [h0] at hs
      by_cases hsel : selected args d
      · rw [if_pos hsel] at hs
        exact ⟨_, hs, by rw [if_pos hsel]⟩
      · rw [if_neg hsel] at hs
        exact ⟨_, hs, by rw [if_neg hsel, add_zero]⟩
  · intro r hr
    rcases hrec r hr with h | ⟨k, d, hk, htr, hd, hs, hf, hmsg, hin, htext⟩
    · simp at h
    · rw [h0, zero_add] at htr
      constructor
      · intro hne
        rw [htext]
        apply harness_output_silent
        · show args.avg ≠ 1
          rw [havg]
          intro h1
          apply hne
          rw [htr]
          have : N = 1 := by
            have := h1
            simp only [Int.ofNat_eq_coe] at this
            omega
          subst this
          have : k = 0 := by omega
          subst this
          rfl
        · show args.avg_count + Int.ofNat k ≠ args.avg - 1
          rw [h0, zero_add, havg]
          rw [htr] at hne
          exact hne
      · intro he
        rw [htext]
        apply harness_output_nonempty
        right
        show args.avg_count + Int.ofNat k = args.avg - 1
        rw [h0, zero_add, havg, ← htr, he]
  · intro hN1 htime r hr hlast
    rcases hrec r hr with h | ⟨k, d, hk, htr, hd, hs, hf, hmsg, hin, htext⟩
    · simp at h
    · rw [h0, zero_add] at htr
      have hkN : k + 1 = N := by
        rw [hlast] at htr
        simp only [Int.ofNat_eq_coe] at htr
        omega
      have hsum := spec_run_sums E sorted N args [] r.call.sumOf d hd
      rw [if_pos hs, h0] at hsum
      refine ⟨_, hsum, ?_⟩
      rw [htext, hmsg]
      have hrep : ({ args with avg_count := args.avg_count + Int.ofNat k } : program_args VT).avg
            = 1 ∨
          ({ args with avg_count := args.avg_count + Int.ofNat k } : program_args VT).avg_count
            = ({ args with avg_count := args.avg_count + Int.ofNat k } : program_args VT).avg
              - 1 := by
        right
        show args.avg_count + Int.ofNat k = args.avg - 1
        rw [h0, zero_add, havg, ← htr, hlast]
      rw [harness_output_report E _ _ _ _ _ hrep]
      have hm : program_args.mstr
          ({ args with avg_count := args.avg_count + Int.ofNat k } : program_args VT) = 18 :=
        mstr_of_wellFormed _ hwf
      have hne1 : ¬ args.avg = 1 := by
        rw [havg]
        simp only [Int.ofNat_eq_coe]
        omega
      have hcast : (args.avg : Rat) = (N : Rat) := by
        rw [havg]; simp
      rw [hm]
      simp only [htime, if_true, hne1, if_false, hkN, h0, hcast]

set_option maxRecDepth 100000 in
/-- Witness for claim C11: two trials with `--alg-all` and the exclusion `bogosort`,
timing display on, every selected routine sorting `[3, 1, 2]`. -/
theorem averaging_and_report_once_witness :
    args_avg_two.WellFormed ∧
    (∀ c ∈ policy_calls args_avg_two 0,
      env_demo.routine c.sorter args_avg_two.list = some [1, 2, 3]) ∧
    ∃ st, run_exec env_demo args_avg_two = some st ∧
      st.log.map (fun r => r.call)
        = (trials args_avg_two).flatMap (policy_calls args_avg_two) :=
  ⟨rfl, by decide,
    match averaging_and_report_once env_demo args_avg_two (fun _ => [1, 2, 3]) 2 rfl
      (by decide) rfl rfl (by decide) with
    | ⟨st, h1, h2, _⟩ => ⟨st, h1, h2⟩⟩

end AveragingProofs

end Compsort
